import Mathlib

/-!
# sqlbunny: field-set algebra, identifier casing, quoting and clause builders

A shallow embedding of `boil/strmangle/sets.go`, of the casing, quoting and clause
functions of `runtime/strmangle/strmangle.go` and of the context window and the removal
of unused imports of `common/output.go`, with the properties stated about them.

Conventions of the embedding:
* a Go `[]string` of column names is a `List String`;
* a Go `string` that is processed byte by byte is a `List Nat` (one entry per byte);
* an indexing or slicing operation that would panic in Go yields `none`;
* the Go type `int` has 64 bits: the arithmetic that computes a placeholder number wraps
  around modulo `2^64`.
-/

namespace Sqlbunny

/-! ## `boil/strmangle/sets.go` -/

/-- Inner loop of `SetComplement`: scans `b` for `aVal`, stopping at the first hit. -/
def complementFound (aVal : String) : List String → Bool
  | [] => false
  | bVal :: bs => if aVal = bVal then true else complementFound aVal bs

/-- Outer loop of `SetComplement`, `c` being the slice built so far. -/
def complementLoop (b : List String) : List String → List String → List String
  | [], c => c
  | aVal :: as, c =>
    let found := complementFound aVal b
    if !found then complementLoop b as (c ++ [aVal]) else complementLoop b as c

/-- `SetComplement` subtracts the elements in `b` from `a`. -/
def SetComplement (a b : List String) : List String :=
  complementLoop b a []

/-- Read of a Go `map[string]bool`: a missing key reads as `false`. -/
def checkGet (check : List (String × Bool)) (v : String) : Bool :=
  (check.lookup v).getD false

/-- Loop of `SetMerge` over the concatenated slice `x`. -/
def mergeLoop : List String → List (String × Bool) → List String → List String
  | [], _, merged => merged
  | v :: xs, check, merged =>
    if checkGet check v = true then mergeLoop xs check merged
    else mergeLoop xs ((v, true) :: check) (merged ++ [v])

/-- `SetMerge` returns a merged slice without duplicates. -/
def SetMerge (a b : List String) : List String :=
  let x := ([] ++ a) ++ b
  mergeLoop x [] []

/-- Inner loop of `SortByKeys` for the key `v`; `n` is `len(strs)`.
The result is the buffer, the index and whether `break Outer` was taken;
`none` is an out-of-range write `c[index] = v`. -/
def sortInner (v : String) (n : Nat) :
    List String → List String → Nat → Option (List String × Nat × Bool)
  | [], c, index => some (c, index, false)
  | k :: ks, c, index =>
    if v = k then
      if index < c.length then
        let c1 := c.set index v
        let index1 := index + 1
        if (index1 : Int) > (n : Int) - 1 then some (c1, index1, true)
        else some (c1, index1, false)
      else none
    else sortInner v n ks c index

/-- Outer loop of `SortByKeys`. -/
def sortOuter (strs : List String) : List String → List String → Nat → Option (List String)
  | [], c, _ => some c
  | v :: vs, c, index =>
    match sortInner v strs.length strs c index with
    | none => none
    | some (c1, _, true) => some c1
    | some (c1, index1, false) => sortOuter strs vs c1 index1

/-- `SortByKeys` returns a new ordered slice based on the keys ordering. -/
def SortByKeys (keys strs : List String) : Option (List String) :=
  sortOuter strs keys (List.replicate strs.length "") 0

/-- `UpdateFieldSet` generates the set of fields to update for an update statement. -/
def UpdateFieldSet (allFields pkeyCols whitelist : List String) : List String :=
  if whitelist.length ≠ 0 then whitelist
  else SetComplement allFields pkeyCols

/-- `InsertFieldSet` generates the set of fields to insert and return for an insert
statement. -/
def InsertFieldSet (cols defaults noDefaults nonZeroDefaults whitelist : List String) :
    Option (List String × List String) :=
  if whitelist.length > 0 then some (whitelist, SetComplement defaults whitelist)
  else
    let wl0 : List String := [] ++ noDefaults
    let wl1 := SetMerge nonZeroDefaults wl0
    match SortByKeys cols wl1 with
    | none => none
    | some wl =>
      let rc := SetComplement defaults wl
      some (wl, rc)

/-! ### Reference definitions for the set algebra -/

/-- The concatenation-with-later-duplicates-removed of the description of `SetMerge`:
an element is kept when it has not occurred earlier in the list. -/
def keepFirst : List String → List String → List String
  | _, [] => []
  | seen, x :: xs => if x ∈ seen then keepFirst seen xs else x :: keepFirst (x :: seen) xs

/-- The keys that occur in `strs`, in `keys` order, cut to `len(strs)` entries and padded
with empty strings up to `len(strs)` entries. -/
def sortedPadded (keys strs : List String) : List String :=
  let hits := (keys.filter (fun v => decide (v ∈ strs))).take strs.length
  hits ++ List.replicate (strs.length - hits.length) ""

/-! ## `runtime/strmangle/strmangle.go`: casing -/

/-- A Go string, as the list of its bytes. -/
abbrev GoString := List Nat

/-- UTF-8 encoding of one character. -/
def utf8Bytes (c : Char) : List Nat :=
  let n := c.toNat
  if n < 128 then [n]
  else if n < 2048 then [192 + n / 64, 128 + n % 64]
  else if n < 65536 then [224 + n / 4096, 128 + (n / 64) % 64, 128 + n % 64]
  else [240 + n / 262144, 128 + (n / 4096) % 64, 128 + (n / 64) % 64, 128 + n % 64]

/-- The bytes of a Go string literal. -/
def goBytes (s : String) : GoString :=
  (s.toList.map utf8Bytes).flatten

/-- The key set of the map `uppercaseWords`. -/
def uppercaseWords : List GoString :=
  ["acl", "api", "ascii", "cpu", "eof", "guid", "id", "ip", "json", "ram", "sla", "udp",
    "ui", "uid", "uuid", "uri", "url", "utf8", "iban"].map goBytes

/-- Modelled from the spec: `GetBuffer` is not among the source files; the spec describes
the string-building scratch buffers as drawn from a reuse pool for the lifetime of a
single call, so a fresh buffer is empty. -/
def GetBuffer : GoString := []

/-- The `for i, c := range word` loop of `TitleCase` that computes `vowels` and
`numStart`; `i` is the index of the head of the remaining bytes. -/
def scanWord (wordLen : Nat) : List Nat → Nat → Bool → Nat → Bool × Nat
  | [], _, vowels, numStart => (vowels, numStart)
  | c :: cs, i, vowels, numStart =>
    let vowels1 :=
      vowels || (c == 97 || c == 101 || c == 105 || c == 111 || c == 117 || c == 121)
    let numStart1 := if c > 47 ∧ c < 58 ∧ numStart = wordLen then i else numStart
    scanWord wordLen cs (i + 1) vowels1 numStart1

/-- The loop `Uppercase all a-z characters` of `TitleCase`. -/
def upperAll : List Nat → GoString
  | [] => []
  | c :: cs => (if c > 96 ∧ c < 123 then c - 32 else c) :: upperAll cs

/-- The part of the body of the main loop of `TitleCase` that renders one word
(from `wordLen := len(word)` to the end of the `if match || !vowels`);
`none` is the out-of-range read `word[0]`. -/
def titleWord (word : GoString) : Option GoString :=
  let wordLen := word.length
  let (vowels, numStart) := scanWord wordLen word 0 false wordLen
  let isMatch := decide (word.take numStart ∈ uppercaseWords)
  if isMatch || !vowels then some (upperAll word)
  else
    match word with
    | [] => none
    | c :: rest => if c > 96 ∧ c < 123 then some ((c - 32) :: rest) else some (c :: rest)

/-- The main loop `for start < ln` of `TitleCase`, one iteration per unit of fuel.
`none` is a panic (slice bounds, `word[0]`) or the exhaustion of the fuel. -/
def titleLoop (name : GoString) : Nat → Nat → Nat → GoString → Option GoString
  | 0, start, _, buf => if start < name.length then none else some buf
  | fuel + 1, start, end_, buf =>
    if ¬ start < name.length then some buf
    else if end_ < name.length ∧ name.getD start 0 = 95 then
      titleLoop name fuel (start + 1) (end_ + 1) buf
    else if end_ < name.length ∧ name.getD end_ 0 ≠ 95 then
      titleLoop name fuel start (end_ + 1) buf
    else if start ≤ end_ ∧ end_ ≤ name.length then
      match titleWord ((name.drop start).take (end_ - start)) with
      | none => none
      | some out => titleLoop name fuel (end_ + 1) (end_ + 1) (buf ++ out)
    else none

/-- The body of `TitleCase` on a cache miss (from `ln := len(n)` to `ret := buf.String()`).
The loop makes at most `len(n) + 1` iterations. -/
def titleCaseUncached (n : GoString) : Option GoString :=
  titleLoop n (n.length + 1) 0 0 GetBuffer

/-- The map `titleCaseCache`, as an association list without repeated keys. -/
abbrev TitleCache := List (GoString × GoString)

/-- The read `val, ok := titleCaseCache[n]`. -/
def cacheGet (cache : TitleCache) (n : GoString) : Option GoString :=
  cache.lookup n

/-- The write `titleCaseCache[n] = ret`. -/
def cacheSet (cache : TitleCache) (n ret : GoString) : TitleCache :=
  (n, ret) :: cache.filter (fun e => !(e.1 == n))

/-- `TitleCase` changes a snake-case variable name into a go styled object variable name,
with the cache as explicit state: the result is the returned string and the cache after
the call. -/
def TitleCase (cache : TitleCache) (n : GoString) : Option (GoString × TitleCache) :=
  match cacheGet cache n with
  | some val => some (val, cache)
  | none =>
    match titleCaseUncached n with
    | none => none
    | some ret => some (ret, cacheSet cache n ret)

/-- The two index searches of `CamelCase`: the index of the first byte that satisfies `p`,
or `-1`; `i` is the index of the head of the remaining bytes. -/
def findIndexFrom (p : Nat → Bool) : List Nat → Nat → Int
  | [], _ => -1
  | c :: cs, i => if p c then (i : Int) else findIndexFrom p cs (i + 1)

/-- `CamelCase` takes a variable name in the format of "var_name" and converts it into a
go styled variable name of "varName". -/
def CamelCase (cache : TitleCache) (name : GoString) : Option (GoString × TitleCache) :=
  let buf := GetBuffer
  let index := findIndexFrom (fun c => c != 95) name 0
  if index ≠ -1 then
    let name1 := name.drop index.toNat
    let index1 := findIndexFrom (fun c => c == 95) name1 0
    if index1 = -1 then some (buf ++ name1, cache)
    else
      match TitleCase cache (name1.drop (index1.toNat + 1)) with
      | none => none
      | some (t, cache1) => some ((buf ++ name1.take index1.toNat) ++ t, cache1)
  else some ([], cache)

/-! ### Reference definitions for the casing -/

/-- The non-empty underscore-delimited words of a name, in order. -/
def underscoreWords (n : GoString) : List GoString :=
  (n.splitOn 95).filter (fun w => !w.isEmpty)

/-- Upper-casing of one byte: `a`-`z` go to `A`-`Z`, every other byte is kept. -/
def upperByte (c : Nat) : Nat :=
  if 97 ≤ c ∧ c ≤ 122 then c - 32 else c

/-- A decimal digit `0`-`9`. -/
def isDigitByte (c : Nat) : Bool :=
  decide (48 ≤ c ∧ c ≤ 57)

/-- One of the lowercase letters a, e, i, o, u, y. -/
def isVowelByte (c : Nat) : Bool :=
  decide (c ∈ [97, 101, 105, 111, 117, 121])

/-- The casing rule for one word: fully uppercased when the part before the first digit is
an acronym or the word has no vowel, otherwise only the first byte uppercased. -/
def titleWordSpec (w : GoString) : GoString :=
  if w.takeWhile (fun c => !isDigitByte c) ∈ uppercaseWords ∨ (∀ c ∈ w, isVowelByte c = false)
  then w.map upperByte
  else
    match w with
    | [] => []
    | c :: rest => upperByte c :: rest

/-- The concatenation of the cased words of a name. -/
def titleCaseSpec (n : GoString) : GoString :=
  ((underscoreWords n).map titleWordSpec).flatten

/-- Every entry `(k, v)` of the cache holds the uncached title-casing of `k`. -/
def cacheSound (cache : TitleCache) : Prop :=
  ∀ k v, cacheGet cache k = some v → titleCaseUncached k = some v

/-! ## `runtime/strmangle/strmangle.go`: compound identifiers and quoting

The Go type `int` has 64 bits. The sums and the product that compute a placeholder number
wrap around modulo `2^64` (`addInt64`, `mulInt64`); the loop indices and the lengths stay
within the type. -/

/-- The library call `strings.Index(s, "__")`: the index of the first occurrence of two
consecutive underscores in `s`, or `-1`; `i` is the index of the head of the remaining
bytes. -/
def indexDoubleFrom : List Nat → Nat → Int
  | [], _ => -1
  | [_], _ => -1
  | c :: d :: rest, i =>
    if c = 95 ∧ d = 95 then (i : Int) else indexDoubleFrom (d :: rest) (i + 1)

/-- The loop `for i := 0; nextDot >= 0; i++` of `TitleCaseIdentifier`, one iteration per
unit of fuel. `none` is a panic (slice bounds) or the exhaustion of the fuel. -/
def identifierLoop (id : GoString) :
    Nat → Nat → Int → Bool → GoString → TitleCache → Option (GoString × TitleCache)
  | 0, _, nextDot, _, buf, cache => if nextDot ≥ 0 then none else some (buf, cache)
  | fuel + 1, lastDot, nextDot, addDots, buf, cache =>
    if ¬ nextDot ≥ 0 then some (buf, cache)
    else if lastDot ≤ nextDot.toNat ∧ nextDot.toNat ≤ id.length then
      let fragment := (id.drop lastDot).take (nextDot.toNat - lastDot)
      match TitleCase cache fragment with
      | none => none
      | some (titled, cache1) =>
        let buf1 := if addDots then buf ++ [46] else buf
        let buf2 := buf1 ++ titled
        if nextDot = (id.length : Int) then some (buf2, cache1)
        else
          let lastDot1 := nextDot.toNat + 2
          if lastDot1 ≤ id.length then
            let idx := indexDoubleFrom (id.drop lastDot1) 0
            let nextDot1 := if idx ≥ 0 then idx + (lastDot1 : Int) else (id.length : Int)
            identifierLoop id fuel lastDot1 nextDot1 true buf2 cache1
          else none
    else none

/-- `TitleCaseIdentifier` splits on dots and then titlecases each fragment. Every
iteration of its loop moves `lastDot` forward by at least two bytes, so `len(id) + 1`
iterations are allowed. -/
def TitleCaseIdentifier (cache : TitleCache) (id : GoString) :
    Option (GoString × TitleCache) :=
  let nextDot := indexDoubleFrom id 0
  if nextDot < 0 then TitleCase cache id
  else identifierLoop id (id.length + 1) 0 nextDot false GetBuffer cache

/-- The library call `strings.ToLower` on one byte of an ASCII string. -/
def lowerByte (c : Nat) : Nat :=
  if 65 ≤ c ∧ c ≤ 90 then c + 32 else c

/-- The test `strings.ToLower(s) == "null"`. A string whose lower-casing is the ASCII
string `null` consists of the four letters themselves, in either case, so the
lower-casing is taken byte by byte. -/
def isNullToken (s : GoString) : Bool :=
  decide (s.map lowerByte = goBytes "null")

/-- Regular expressions over bytes, as far as `smartQuoteRgx` needs them. -/
inductive Rx where
  | eps : Rx
  | cls : (Nat → Bool) → Rx
  | seq : Rx → Rx → Rx
  | alt : Rx → Rx → Rx
  | star : Rx → Rx
  | void : Rx

/-- Whether a regular expression matches the empty string. -/
def Rx.nullable : Rx → Bool
  | Rx.eps => true
  | Rx.cls _ => false
  | Rx.seq r s => r.nullable && s.nullable
  | Rx.alt r s => r.nullable || s.nullable
  | Rx.star _ => true
  | Rx.void => false

/-- The derivative of a regular expression by one byte. -/
def Rx.deriv (c : Nat) : Rx → Rx
  | Rx.eps => Rx.void
  | Rx.cls p => if p c then Rx.eps else Rx.void
  | Rx.seq r s =>
    if r.nullable then Rx.alt (Rx.seq (Rx.deriv c r) s) (Rx.deriv c s)
    else Rx.seq (Rx.deriv c r) s
  | Rx.alt r s => Rx.alt (Rx.deriv c r) (Rx.deriv c s)
  | Rx.star r => Rx.seq (Rx.deriv c r) (Rx.star r)
  | Rx.void => Rx.void

/-- Whether the whole string matches the regular expression (`MatchString` of a pattern
anchored by `^` and `$`). -/
def Rx.matchString : Rx → List Nat → Bool
  | r, [] => r.nullable
  | r, c :: cs => Rx.matchString (Rx.deriv c r) cs

/-- An optional sub-expression `r?`. -/
def Rx.opt (r : Rx) : Rx := Rx.alt Rx.eps r

/-- The single byte `b`. -/
def Rx.byte (b : Nat) : Rx := Rx.cls (fun c => c == b)

/-- The class `[a-z]` under the flag `(?i)`: the ASCII letters of both cases and the two
other characters that fold to one, U+017F (for `s`) and U+212A (for `k`), in UTF-8. -/
def rxLetter : Rx :=
  Rx.alt (Rx.cls (fun c => decide ((97 ≤ c ∧ c ≤ 122) ∨ (65 ≤ c ∧ c ≤ 90))))
    (Rx.alt (Rx.seq (Rx.byte 197) (Rx.byte 191))
      (Rx.seq (Rx.byte 226) (Rx.seq (Rx.byte 132) (Rx.byte 170))))

/-- The class `[a-z_]` under `(?i)`. -/
def rxIdentStart : Rx := Rx.alt rxLetter (Rx.byte 95)

/-- The class `[_a-z0-9]` under `(?i)`. -/
def rxIdentChar : Rx :=
  Rx.alt rxIdentStart (Rx.cls (fun c => decide (48 ≤ c ∧ c ≤ 57)))

/-- The sub-expression `"?[a-z_][_a-z0-9]*"?`. -/
def rxQuotedIdent : Rx :=
  Rx.seq (Rx.opt (Rx.byte 34))
    (Rx.seq rxIdentStart (Rx.seq (Rx.star rxIdentChar) (Rx.opt (Rx.byte 34))))

/-- The pattern `smartQuoteRgx`:
`^(?i)"?[a-z_][_a-z0-9]*"?(\."?[_a-z][_a-z0-9]*"?)*(\.\*)?$`. -/
def smartQuoteRgx : Rx :=
  Rx.seq rxQuotedIdent
    (Rx.seq (Rx.star (Rx.seq (Rx.byte 46) rxQuotedIdent))
      (Rx.opt (Rx.seq (Rx.byte 46) (Rx.byte 42))))

/-- The library call `strings.Split(s, ".")`. -/
def splitDots (s : GoString) : List GoString :=
  s.splitOn 46

/-- The part of the loop body of `IdentQuote` that renders one split (from the test on
`split[0]` on); `none` is the out-of-range read `split[0]`. -/
def quoteSplit (lq rq : Nat) (split : GoString) : Option GoString :=
  match split with
  | [] => none
  | c :: rest =>
    if c = lq ∨ (c :: rest).getLast (List.cons_ne_nil c rest) = rq ∨ c :: rest = goBytes "*"
    then some (c :: rest)
    else some ([lq] ++ (c :: rest) ++ [rq])

/-- The loop `for i, split := range splits` of `IdentQuote`; `i` is the index of the head
of the remaining splits. -/
def identQuoteLoop (lq rq : Nat) : List GoString → Nat → GoString → Option GoString
  | [], _, buf => some buf
  | split :: splits, i, buf =>
    let buf1 := if i ≠ 0 then buf ++ [46] else buf
    match quoteSplit lq rq split with
    | none => none
    | some out => identQuoteLoop lq rq splits (i + 1) (buf1 ++ out)

/-- `IdentQuote` attempts to quote simple identifiers in SQL statements. -/
def IdentQuote (lq rq : Nat) (s : GoString) : Option GoString :=
  if isNullToken s = true ∨ s = goBytes "?" then some s
  else if Rx.matchString smartQuoteRgx s ≠ true then some s
  else identQuoteLoop lq rq (splitDots s) 0 GetBuffer

/-! ### Reference definitions for compound identifiers and quoting -/

/-- The segments obtained by splitting at each leftmost non-overlapping occurrence of
two consecutive underscores. -/
def splitDouble : List Nat → List GoString
  | [] => [[]]
  | [c] => [[c]]
  | c :: d :: rest =>
    if c = 95 ∧ d = 95 then [] :: splitDouble rest
    else (splitDouble (d :: rest)).modifyHead (fun w => c :: w)

/-- The rendering of one dot-separated segment by `IdentQuote`: kept when it is `*`,
starts with `lq` or ends with `rq`, wrapped in the quotes otherwise. -/
def quoteSegmentSpec (lq rq : Nat) (seg : GoString) : GoString :=
  if seg = goBytes "*" ∨ seg.head? = some lq ∨ seg.getLast? = some rq then seg
  else [lq] ++ seg ++ [rq]

/-- The result of `IdentQuote` as the description gives it. -/
def identQuoteSpec (lq rq : Nat) (s : GoString) : GoString :=
  if isNullToken s = true ∨ s = goBytes "?" ∨ Rx.matchString smartQuoteRgx s = false then s
  else [46].intercalate ((s.splitOn 46).map (quoteSegmentSpec lq rq))

/-- The strings denoted by a regular expression. -/
inductive Rx.Matches : Rx → List Nat → Prop where
  | eps : Rx.Matches Rx.eps []
  | cls (p : Nat → Bool) (c : Nat) : p c = true → Rx.Matches (Rx.cls p) [c]
  | seq (r s : Rx) (u v : List Nat) :
      Rx.Matches r u → Rx.Matches s v → Rx.Matches (Rx.seq r s) (u ++ v)
  | altLeft (r s : Rx) (u : List Nat) : Rx.Matches r u → Rx.Matches (Rx.alt r s) u
  | altRight (r s : Rx) (u : List Nat) : Rx.Matches s u → Rx.Matches (Rx.alt r s) u
  | starNil (r : Rx) : Rx.Matches (Rx.star r) []
  | starCons (r : Rx) (u v : List Nat) :
      Rx.Matches r u → Rx.Matches (Rx.star r) v → Rx.Matches (Rx.star r) (u ++ v)

/-! ## `runtime/strmangle/strmangle.go`: clause builders -/

/-- The verb `%d` of `fmt`: the decimal digits, after a minus sign for a negative
number. -/
def fmtInt : Int → GoString
  | Int.ofNat n => (Nat.toDigits 10 n).map Char.toNat
  | Int.negSucc n => 45 :: (Nat.toDigits 10 (n + 1)).map Char.toNat

/-- Whether an integer is a value of the Go type `int`. -/
def isInt64 (x : Int) : Bool :=
  decide (-9223372036854775808 ≤ x ∧ x ≤ 9223372036854775807)

/-- The value of the Go type `int` that is congruent to `x` modulo `2^64`. -/
def wrapInt64 (x : Int) : Int :=
  (x + 9223372036854775808) % 18446744073709551616 - 9223372036854775808

/-- The Go expression `a + b` on the type `int`: the sum wraps around modulo `2^64`. Go has
no operand outside the type; for such an argument the sum is left as it is. -/
def addInt64 (a b : Int) : Int :=
  if isInt64 a = true ∧ isInt64 b = true then wrapInt64 (a + b) else a + b

/-- The Go expression `a * b` on the type `int`: the product wraps around modulo `2^64`. Go
has no operand outside the type; for such an argument the product is left as it is. -/
def mulInt64 (a b : Int) : Int :=
  if isInt64 a = true ∧ isInt64 b = true then wrapInt64 (a * b) else a * b

/-- The body of the loop `for i := 0; i < count; i++` of `Placeholders`. -/
def placeholdersBody (indexPlaceholders : Bool) (start group : Int) (buf : GoString)
    (i : Nat) : GoString :=
  let buf1 :=
    if i ≠ 0 then
      if group > 1 ∧ Int.tmod (i : Int) group = 0 then buf ++ goBytes "),(" else buf ++ [44]
    else buf
  if indexPlaceholders then buf1 ++ ([36] ++ fmtInt (addInt64 start (i : Int)))
  else buf1 ++ [63]

/-- `Placeholders` generates the SQL statement placeholders for in queries; `none` is the
panic. The counted loop runs over `i = 0, ..., count - 1` (no iteration when
`count ≤ 0`). -/
def Placeholders (indexPlaceholders : Bool) (count start group : Int) : Option GoString :=
  let buf := GetBuffer
  if start = 0 ∨ group = 0 then none
  else
    let buf1 := if group > 1 then buf ++ [40] else buf
    let buf2 := (List.range count.toNat).foldl (placeholdersBody indexPlaceholders start group)
      buf1
    let buf3 := if group > 1 then buf2 ++ [41] else buf2
    some buf3

/-- The loop `for i, c := range fields` of `SetParamNames`; `n` is `len(fields)` and `i`
the index of the head of the remaining fields. -/
def setParamLoop (lq rq : GoString) (start : Int) (n : Nat) :
    List GoString → Nat → GoString → GoString
  | [], _, buf => buf
  | c :: cs, i, buf =>
    let buf1 :=
      if start ≠ 0 then
        buf ++ (lq ++ c ++ rq ++ goBytes "=$" ++ fmtInt (addInt64 (i : Int) start))
      else buf ++ (lq ++ c ++ rq ++ goBytes "=?")
    let buf2 := if (i : Int) < (n : Int) - 1 then buf1 ++ [44] else buf1
    setParamLoop lq rq start n cs (i + 1) buf2

/-- `SetParamNames` takes a slice of fields and returns a comma separated list of
parameter names for a template statement SET clause. -/
def SetParamNames (lq rq : GoString) (start : Int) (fields : List GoString) : GoString :=
  setParamLoop lq rq start fields.length fields 0 GetBuffer

/-- The loop `for i, c := range cols` of `WhereClause`; `n` is `len(cols)` and `i` the
index of the head of the remaining columns. -/
def whereLoop (lq rq : GoString) (start : Int) (n : Nat) :
    List GoString → Nat → GoString → GoString
  | [], _, buf => buf
  | c :: cs, i, buf =>
    let buf1 :=
      if start ≠ 0 then
        buf ++ (lq ++ c ++ rq ++ goBytes "=$" ++ fmtInt (addInt64 start (i : Int)))
      else buf ++ (lq ++ c ++ rq ++ goBytes "=?")
    let buf2 := if (i : Int) < (n : Int) - 1 then buf1 ++ goBytes " AND " else buf1
    whereLoop lq rq start n cs (i + 1) buf2

/-- `WhereClause` returns the where clause using start as the $ flag index. -/
def WhereClause (lq rq : GoString) (start : Int) (cols : List GoString) : GoString :=
  whereLoop lq rq start cols.length cols 0 GetBuffer

/-- The body of the loop `for i := 0; i < count; i++` of `WhereClauseRepeated`. -/
def whereRepeatedBody (lq rq : GoString) (start : Int) (cols : List GoString)
    (buf : GoString) (i : Nat) : GoString :=
  let buf1 := if i ≠ 0 then buf ++ goBytes ") OR (" else buf
  let startIndex : Int :=
    if start > 0 then addInt64 start (mulInt64 (i : Int) (cols.length : Int)) else 0
  buf1 ++ WhereClause lq rq startIndex cols

/-- `WhereClauseRepeated` returns the where clause repeated with OR clause using start as
the $ flag index. -/
def WhereClauseRepeated (lq rq : GoString) (start : Int) (cols : List GoString)
    (count : Int) : GoString :=
  let buf := GetBuffer ++ [40]
  let buf1 := (List.range count.toNat).foldl (whereRepeatedBody lq rq start cols) buf
  buf1 ++ [41]

/-- Inner loop of `StringSliceMatch`: scans `b` for `aval`, stopping at the first hit. -/
def sliceFound (aval : String) : List String → Bool
  | [] => false
  | bval :: bs => if bval = aval then true else sliceFound aval bs

/-- Outer loop of `StringSliceMatch`. -/
def sliceMatchLoop (b : List String) : List String → Bool
  | [] => true
  | aval :: as =>
    let found := sliceFound aval b
    if !found then false else sliceMatchLoop b as

/-- `StringSliceMatch` returns true if the length of both slices is the same, and the
elements of both slices are the same. The elements can be in any order. -/
def StringSliceMatch (a b : List String) : Bool :=
  if a.length ≠ b.length then false
  else sliceMatchLoop b a

/-! ## `common/output.go`: the context window of a parse error -/

/-- The verb `% 4d` of `fmt`: the digits after a sign column (a space for a number that is
not negative), left-padded with spaces to width 4. -/
def fmtSpace4d (n : Int) : GoString :=
  let body := if n < 0 then fmtInt n else [32] ++ fmtInt n
  List.replicate (4 - body.length) 32 ++ body

/-- The loop `for ; scanner.Scan(); line++` of `processAstError` over the lines that the
scanner yields. -/
def astErrorLoop (lineNum : Int) : List GoString → Int → GoString → GoString
  | [], _, errBuf => errBuf
  | text :: rest, line, errBuf =>
    let delta := line - lineNum
    if delta < -5 ∨ delta > 5 then astErrorLoop lineNum rest (line + 1) errBuf
    else
      let errBuf1 :=
        if line = lineNum then errBuf ++ goBytes ">>>> "
        else errBuf ++ (fmtSpace4d line ++ goBytes " ")
      astErrorLoop lineNum rest (line + 1) (errBuf1 ++ text ++ [10])

/-- The context window `errBuf` that `processAstError` builds, for the line number
`lineNum` found in the error message and the lines of `src`. -/
def processAstError (lineNum : Int) (lines : List GoString) : GoString :=
  astErrorLoop lineNum lines 1 []

/-! ### Reference definitions for the clause builders and the context window -/

/-- The list cut into consecutive chunks of `g` entries, the last one possibly shorter;
the first argument bounds the number of chunks. -/
def chunksFuel (g : Nat) : Nat → List GoString → List (List GoString)
  | 0, _ => []
  | _ + 1, [] => []
  | f + 1, x :: xs => (x :: xs).take g :: chunksFuel g f ((x :: xs).drop g)

/-- The list cut into consecutive chunks of `g` entries. -/
def chunks (g : Nat) (xs : List GoString) : List (List GoString) :=
  chunksFuel g xs.length xs

/-- The placeholders `p_0, ..., p_(count-1)`. -/
def placeholderList (indexed : Bool) (count start : Int) : List GoString :=
  (List.range count.toNat).map
    (fun (i : Nat) => if indexed then [36] ++ fmtInt (start + (i : Int)) else [63])

/-- The entries of a clause: the quoted columns, each followed by `=$` and its number
(counted from `start`), or by `=?` when `start` is `0`; `i` is the index of the head. -/
def clauseEntries (lq rq : GoString) (start : Int) : List GoString → Nat → List GoString
  | [], _ => []
  | c :: cs, i =>
    (if start ≠ 0 then lq ++ c ++ rq ++ goBytes "=$" ++ fmtInt (start + (i : Int))
      else lq ++ c ++ rq ++ goBytes "=?") :: clauseEntries lq rq start cs (i + 1)

/-- The placeholders as the loop of `Placeholders` computes them, the number of the
placeholder of index `i` being the machine sum of `start` and `i`. -/
def machinePlaceholderList (indexed : Bool) (count start : Int) : List GoString :=
  (List.range count.toNat).map
    (fun (i : Nat) => if indexed then [36] ++ fmtInt (addInt64 start (i : Int)) else [63])

/-- The entries of a clause as the loops of `WhereClause` and `SetParamNames` compute them,
the number of the entry of index `i` being the machine sum of `start` and `i`. -/
def machineEntries (lq rq : GoString) (start : Int) : List GoString → Nat → List GoString
  | [], _ => []
  | c :: cs, i =>
    (if start ≠ 0 then lq ++ c ++ rq ++ goBytes "=$" ++ fmtInt (addInt64 start (i : Int))
      else lq ++ c ++ rq ++ goBytes "=?") :: machineEntries lq rq start cs (i + 1)

/-- The decimal digits of a number left-padded with spaces to width 4. -/
def padWidth4 (n : Int) : GoString :=
  List.replicate (4 - (fmtInt n).length) 32 ++ fmtInt n

/-- The rendering of consecutive lines, the first of which has the number `num`: each
line on an output line of its own, after the marker when its number is `lineNum` and
after `numPrefix` of its number and a space otherwise. -/
def renderLines (numPrefix : Int → GoString) (lineNum : Int) : Int → List GoString → GoString
  | _, [] => []
  | num, text :: rest =>
    (if num = lineNum then goBytes ">>>> " else numPrefix num ++ goBytes " ") ++ text ++ [10]
      ++ renderLines numPrefix lineNum (num + 1) rest

/-- The context window: the lines numbered `max(1, L-5)` through `min(N, L+5)`. -/
def contextWindowSpec (numPrefix : Int → GoString) (lineNum : Int) (lines : List GoString) :
    GoString :=
  let lo := max 1 (lineNum - 5)
  let hi := min (lines.length : Int) (lineNum + 5)
  renderLines numPrefix lineNum lo ((lines.take hi.toNat).drop (lo - 1).toNat)

/-- The placeholders `xs` with their separators, as the loop of `Placeholders` emits them:
nothing before the placeholder of index `0`, `),(` before one whose index is a multiple of
`g` when `grouped`, a comma before any other; `i` is the index of the head. -/
def placeholderPieces (grouped : Bool) (g : Nat) : Nat → List GoString → GoString
  | _, [] => []
  | i, x :: xs =>
    (if i ≠ 0 then (if grouped = true ∧ i % g = 0 then goBytes "),(" else [44]) else [])
      ++ x ++ placeholderPieces grouped g (i + 1) xs

/-- The placeholder numbers of the entries of a clause over the given columns, counted
from `start`; `i` is the index of the head. -/
def entryNumbers (start : Int) : List GoString → Nat → List Int
  | [], _ => []
  | _ :: cs, i => (start + (i : Int)) :: entryNumbers start cs (i + 1)

/-! ## `common/output.go`: unused imports -/

/-- An `*ast.ImportSpec`, as far as `removeUnusedImports` and `DeleteNamedImport` read it:
the local name `Name.Name`, empty when `Name` is nil (an identifier is never empty); the
path `strings.Trim(Path.Value, "\"")` that `removeUnusedImports` reads; and the path
`strconv.Unquote(Path.Value)` (empty when the call fails) that `DeleteNamedImport` reads.
The two paths are equal for a double-quoted literal without escape sequences, and differ
for a raw literal, whose back quotes the first one keeps. -/
structure ImportSpec where
  name : String
  path : String
  unquoted : String
deriving DecidableEq

/-- The nodes of the syntax tree that the visitor of `removeUnusedImports` tells apart:
an import spec, a selector expression (with the name of `X` and whether its `Obj` is set
when `X` is an identifier, `none` when it is not), and any other node. -/
inductive AstNode where
  | importSpec : ImportSpec → AstNode
  | selectorExpr : Option (String × Bool) → AstNode
  | other : AstNode

/-- The write `m[k] = v` on a Go map, kept as an association list without repeated
keys. -/
def mapSet {ν : Type} (m : List (String × ν)) (k : String) (v : ν) : List (String × ν) :=
  (k, v) :: m.filter (fun e => !(e.1 == k))

/-- One call of the visitor: the maps `decls` and `refs` after the node. The function
`importPathToName` (with the fixed `srcDir`) reads the package name from the disk and is
a parameter. -/
def visitNode (importPathToName : String → String)
    (state : List (String × ImportSpec) × List String) (node : AstNode) :
    List (String × ImportSpec) × List String :=
  match node with
  | AstNode.importSpec v =>
    if v.name ≠ "" then (mapSet state.1 v.name v, state.2)
    else
      let ipath := v.path
      if ipath = "C" then state
      else (mapSet state.1 (importPathToName ipath) v, state.2)
  | AstNode.selectorExpr x =>
    match x with
    | none => state
    | some (pkgName, hasObj) =>
      if hasObj then state
      else (state.1, if pkgName ∈ state.2 then state.2 else pkgName :: state.2)
  | AstNode.other => state

/-- The walk `ast.Walk(visitor, f)` over the nodes of the file in the order of the walk:
the maps `decls` and `refs`. -/
def collectImports (importPathToName : String → String) (nodes : List AstNode) :
    List (String × ImportSpec) × List String :=
  nodes.foldl (visitNode importPathToName) ([], [])

/-- The loop `for pkg, is := range decls` of `removeUnusedImports`, over the entries of
`decls` in the order of the iteration: the map `unusedImport` from import path to name. -/
def unusedImportLoop (refs : List String) :
    List (String × ImportSpec) → List (String × String) → List (String × String)
  | [], unusedImport => unusedImport
  | (pkg, is) :: rest, unusedImport =>
    if ¬ (pkg ∈ refs) ∧ pkg ≠ "_" ∧ pkg ≠ "." then
      let name := if is.name ≠ "" then is.name else ""
      unusedImportLoop refs rest (mapSet unusedImport is.path name)
    else unusedImportLoop refs rest unusedImport

/-- The library call `astutil.DeleteNamedImport(fset, f, name, path)` on the import specs
of the file: it deletes the import specs whose name is `name` and whose unquoted path is
`path`. -/
def DeleteNamedImport (file : List ImportSpec) (name path : String) : List ImportSpec :=
  file.filter (fun s => !(decide (s.name = name ∧ s.unquoted = path)))

/-- The loop `for ipath, name := range unusedImport` of `removeUnusedImports`, over the
entries of `unusedImport` in the order of the iteration: the import specs left in the
file. -/
def deleteLoop : List (String × String) → List ImportSpec → List ImportSpec
  | [], file => file
  | (ipath, name) :: rest, file =>
    if ipath = "C" then deleteLoop rest file
    else deleteLoop rest (DeleteNamedImport file name ipath)

/-- The import specs of the file. -/
def fileImports : List AstNode → List ImportSpec
  | [] => []
  | AstNode.importSpec v :: rest => v :: fileImports rest
  | _ :: rest => fileImports rest

/-- The part of `removeUnusedImports` between the parse and the printing: the import
specs left in the file. The two maps are iterated in the order of their lists. -/
def removeUnusedImports (importPathToName : String → String) (nodes : List AstNode) :
    List ImportSpec :=
  let state := collectImports importPathToName nodes
  let unusedImport := unusedImportLoop state.2 state.1 []
  deleteLoop unusedImport (fileImports nodes)

/-! ### Reference definitions for the unused imports and the cache -/

/-- The key under which the visitor stores an import spec in `decls`: its name, or the
package name of its path when it has no name. -/
def declKey (importPathToName : String → String) (v : ImportSpec) : String :=
  if v.name ≠ "" then v.name else importPathToName v.path

/-- A sequence of calls of `TitleCase`, each on the cache that the previous one left: the
returned strings and the final cache. -/
def titleCaseCalls : TitleCache → List GoString → Option (List GoString × TitleCache)
  | cache, [] => some ([], cache)
  | cache, n :: ns =>
    match TitleCase cache n with
    | none => none
    | some (r, cache1) =>
      match titleCaseCalls cache1 ns with
      | none => none
      | some (rs, cache2) => some (r :: rs, cache2)

/-! ## Properties of the set algebra -/

theorem complementFound_eq (aVal : String) (b : List String) :
    complementFound aVal b = decide (aVal ∈ b) := by
  induction b with
  | nil => simp [complementFound]
  | cons bVal bs ih =>
    by_cases h : aVal = bVal
    · simp [complementFound, h]
    · simp [complementFound, h, ih]

theorem complementLoop_eq (b a c : List String) :
    complementLoop b a c = c ++ a.filter (fun x => !decide (x ∈ b)) := by
  induction a generalizing c with
  | nil => simp [complementLoop]
  | cons aVal as ih =>
    by_cases h : aVal ∈ b
    · simp [complementLoop, complementFound_eq, h, ih]
    · simp [complementLoop, complementFound_eq, h, ih]

theorem SetComplement_eq_filter (a b : List String) :
    SetComplement a b = a.filter (fun x => !decide (x ∈ b)) := by
  simp [SetComplement, complementLoop_eq]

theorem mem_SetComplement (a b : List String) (x : String) :
    x ∈ SetComplement a b ↔ x ∈ a ∧ x ∉ b := by
  simp [SetComplement_eq_filter, List.mem_filter]

theorem mergeLoop_eq (xs : List String) :
    ∀ (check : List (String × Bool)) (seen merged : List String),
      (∀ v, checkGet check v = true ↔ v ∈ seen) →
      mergeLoop xs check merged = merged ++ keepFirst seen xs := by
  induction xs with
  | nil => intro check seen merged _; simp [mergeLoop, keepFirst]
  | cons v xs ih =>
    intro check seen merged hinv
    by_cases hv : v ∈ seen
    · have hc : checkGet check v = true := (hinv v).2 hv
      simp [mergeLoop, keepFirst, hc, hv, ih check seen merged hinv]
    · have hc : ¬ checkGet check v = true := fun h => hv ((hinv v).1 h)
      have hinv2 : ∀ w, checkGet ((v, true) :: check) w = true ↔ w ∈ v :: seen := by
        intro w
        by_cases hw : w = v
        · subst hw; simp [checkGet, List.lookup]
        · have hb : (w == v) = false := by simpa using hw
          have : checkGet ((v, true) :: check) w = checkGet check w := by
            simp [checkGet, List.lookup, hb]
          rw [this, hinv w]; simp [hw]
      simp [mergeLoop, keepFirst, hc, hv, ih _ (v :: seen) (merged ++ [v]) hinv2]

theorem SetMerge_eq_keepFirst (a b : List String) :
    SetMerge a b = keepFirst [] (a ++ b) := by
  have h := mergeLoop_eq (a ++ b) [] [] [] (by intro v; simp [checkGet])
  simpa [SetMerge] using h

theorem mem_keepFirst (xs : List String) :
    ∀ (seen : List String) (x : String), x ∈ keepFirst seen xs ↔ x ∈ xs ∧ x ∉ seen := by
  induction xs with
  | nil => intro seen x; simp [keepFirst]
  | cons y ys ih =>
    intro seen x
    by_cases hy : y ∈ seen
    · simp only [keepFirst, hy, if_true, ih, List.mem_cons]
      constructor
      · rintro ⟨h1, h2⟩; exact ⟨Or.inr h1, h2⟩
      · rintro ⟨h1 | h1, h2⟩
        · subst h1; exact absurd hy h2
        · exact ⟨h1, h2⟩
    · simp only [keepFirst, hy, if_false, List.mem_cons, ih]
      constructor
      · rintro (h | ⟨h1, h2⟩)
        · subst h; exact ⟨Or.inl rfl, hy⟩
        · exact ⟨Or.inr h1, fun h => h2 (Or.inr h)⟩
      · rintro ⟨h1 | h1, h2⟩
        · exact Or.inl h1
        · by_cases hxy : x = y
          · exact Or.inl hxy
          · refine Or.inr ⟨h1, ?_⟩
            rintro (h | h)
            · exact hxy h
            · exact h2 h

theorem nodup_keepFirst (xs : List String) :
    ∀ seen : List String, (keepFirst seen xs).Nodup := by
  induction xs with
  | nil => intro seen; simp [keepFirst]
  | cons y ys ih =>
    intro seen
    by_cases hy : y ∈ seen
    · simpa [keepFirst, hy] using ih seen
    · simp only [keepFirst, hy, if_false, List.nodup_cons]
      refine ⟨?_, ih _⟩
      intro h
      exact ((mem_keepFirst ys (y :: seen) y).1 h).2 (List.mem_cons_self _ _)

theorem pairwise_keepFirst (xs : List String) :
    ∀ seen : List String,
      (keepFirst seen xs).Pairwise (fun x y => xs.indexOf x < xs.indexOf y) := by
  induction xs with
  | nil => intro seen; simp [keepFirst]
  | cons y ys ih =>
    intro seen
    have step : ∀ seen2 : List String, y ∈ seen2 →
        (keepFirst seen2 ys).Pairwise
          (fun a b => (y :: ys).indexOf a < (y :: ys).indexOf b) := by
      intro seen2 hy2
      refine List.Pairwise.imp_of_mem ?_ (ih seen2)
      intro a b ha hb hab
      have hay : a ≠ y := fun h => ((mem_keepFirst ys seen2 a).1 ha).2 (h ▸ hy2)
      have hby : b ≠ y := fun h => ((mem_keepFirst ys seen2 b).1 hb).2 (h ▸ hy2)
      rw [List.indexOf_cons_ne _ (Ne.symm hay), List.indexOf_cons_ne _ (Ne.symm hby)]
      omega
    by_cases hy : y ∈ seen
    · simpa [keepFirst, hy] using step seen hy
    · simp only [keepFirst, hy, if_false, List.pairwise_cons]
      refine ⟨?_, step (y :: seen) (List.mem_cons_self _ _)⟩
      intro b hb
      have hby : b ≠ y :=
        fun h => ((mem_keepFirst ys (y :: seen) b).1 hb).2 (h ▸ List.mem_cons_self _ _)
      rw [List.indexOf_cons_self, List.indexOf_cons_ne _ (Ne.symm hby)]
      omega

theorem sortInner_not_mem (v : String) (n : Nat) (ks c : List String) (index : Nat)
    (h : v ∉ ks) : sortInner v n ks c index = some (c, index, false) := by
  induction ks with
  | nil => simp [sortInner]
  | cons k ks ih =>
    have h1 : v ≠ k := fun e => h (e ▸ List.mem_cons_self _ _)
    have h2 : v ∉ ks := fun e => h (List.mem_cons_of_mem _ e)
    simp [sortInner, h1, ih h2]

theorem sortInner_mem (v : String) (n : Nat) (ks c : List String) (index : Nat)
    (h : v ∈ ks) (hi : index < c.length) :
    sortInner v n ks c index
      = some (c.set index v, index + 1, decide ((n : Int) - 1 < (index : Int) + 1)) := by
  induction ks with
  | nil => simp at h
  | cons k ks ih =>
    by_cases h1 : v = k
    · by_cases hb : (n : Int) - 1 < (index : Int) + 1
      · simp [sortInner, h1, hi, hb]
      · simp [sortInner, h1, hi, hb]
    · have h2 : v ∈ ks := by
        rcases List.mem_cons.1 h with e | e
        · exact absurd e h1
        · exact e
      simp [sortInner, h1, ih h2]

theorem sortOuter_eq (strs : List String) (keys : List String) :
    ∀ done pad : List String, (done ++ pad).length = strs.length → pad ≠ [] →
      sortOuter strs keys (done ++ pad) done.length
        = some (done ++ (keys.filter (fun v => decide (v ∈ strs))).take pad.length
            ++ pad.drop ((keys.filter (fun v => decide (v ∈ strs))).take pad.length).length) := by
  induction keys with
  | nil => intro done pad _ _; simp [sortOuter]
  | cons v vs ih =>
    intro done pad hlen hpad
    by_cases hv : v ∈ strs
    · obtain ⟨x, pad1, rfl⟩ := List.exists_cons_of_ne_nil hpad
      have hi : done.length < (done ++ x :: pad1).length := by simp
      have hset : (done ++ x :: pad1).set done.length v = (done ++ [v]) ++ pad1 := by
        simp
      rw [sortOuter, sortInner_mem v _ strs _ _ hv hi, hset]
      by_cases hp : pad1 = []
      · subst hp
        have hb : (strs.length : Int) - 1 < (done.length : Int) + 1 := by
          simp at hlen; omega
        simp [hb, hv]
      · have hb : ¬ ((strs.length : Int) - 1 < (done.length : Int) + 1) := by
          have : 0 < pad1.length := List.length_pos.2 hp
          simp at hlen; omega
        have hlen2 : ((done ++ [v]) ++ pad1).length = strs.length := by
          simp at hlen ⊢; omega
        have := ih (done ++ [v]) pad1 hlen2 hp
        simp only [List.length_append, List.length_singleton] at this
        simp only [hb, decide_False, this, List.filter_cons, hv, decide_True, if_true,
          List.length_cons, List.take_succ_cons, List.drop_succ_cons]
        simp
    · rw [sortOuter, sortInner_not_mem v _ strs _ _ hv]
      simp [hv, ih done pad hlen hpad]

theorem SortByKeys_eq (keys strs : List String) :
    SortByKeys keys strs = some (sortedPadded keys strs) := by
  by_cases hs : strs = []
  · subst hs
    have : ∀ (ks c : List String) (i : Nat), sortOuter [] ks c i = some c := by
      intro ks
      induction ks with
      | nil => intro c i; simp [sortOuter]
      | cons k ks ih => intro c i; simp [sortOuter, sortInner, ih]
    simp [SortByKeys, sortedPadded, this]
  · have hne : List.replicate strs.length "" ≠ [] := by
      intro h
      have := congrArg List.length h
      simp at this
      exact hs this
    have h := sortOuter_eq strs keys [] (List.replicate strs.length "") (by simp) hne
    simp only [List.nil_append, List.length_nil, List.length_replicate] at h
    simp [SortByKeys, sortedPadded, h]

theorem mem_sortedPadded_hits (keys strs : List String) (x : String)
    (h : x ∈ (keys.filter (fun v => decide (v ∈ strs))).take strs.length) :
    x ∈ strs ∧ x ∈ keys := by
  have h1 := List.mem_of_mem_take h
  simp only [List.mem_filter, decide_eq_true_eq] at h1
  exact ⟨h1.2, h1.1⟩

theorem SetMerge_comm_perm (a b : List String) : (SetMerge a b).Perm (SetMerge b a) := by
  rw [SetMerge_eq_keepFirst, SetMerge_eq_keepFirst]
  refine (List.perm_ext_iff_of_nodup (nodup_keepFirst _ _) (nodup_keepFirst _ _)).2 ?_
  intro x
  simp only [mem_keepFirst, List.mem_append, List.not_mem_nil, not_false_eq_true, and_true]
  exact Or.comm

theorem sortedPadded_congr (keys s t : List String)
    (hmem : ∀ x, x ∈ s ↔ x ∈ t) (hlen : s.length = t.length) :
    sortedPadded keys s = sortedPadded keys t := by
  have hf : keys.filter (fun v => decide (v ∈ s)) = keys.filter (fun v => decide (v ∈ t)) := by
    apply List.filter_congr
    intro x _
    simp [hmem x]
  simp only [sortedPadded, hf, hlen]

/-! ## The statements about the field-set algebra -/

/-- C1: the two lists returned by `InsertFieldSet` are disjoint, and every string of
`defaults` is a member of exactly one of them, for every input (whitelist empty or
not). -/
theorem InsertFieldSet_partition
    (cols defaults noDefaults nonZeroDefaults whitelist : List String) :
    ∃ ins ret : List String,
      InsertFieldSet cols defaults noDefaults nonZeroDefaults whitelist = some (ins, ret) ∧
      (∀ x, ¬ (x ∈ ins ∧ x ∈ ret)) ∧
      (∀ x, x ∈ defaults → (x ∈ ins ∧ x ∉ ret) ∨ (x ∉ ins ∧ x ∈ ret)) := by
  have key : ∀ ins : List String,
      (∀ x, ¬ (x ∈ ins ∧ x ∈ SetComplement defaults ins)) ∧
      (∀ x, x ∈ defaults → (x ∈ ins ∧ x ∉ SetComplement defaults ins) ∨
        (x ∉ ins ∧ x ∈ SetComplement defaults ins)) := by
    intro ins
    refine ⟨?_, ?_⟩
    · rintro x ⟨h1, h2⟩
      exact ((mem_SetComplement _ _ _).1 h2).2 h1
    · intro x hx
      by_cases hi : x ∈ ins
      · exact Or.inl ⟨hi, fun h => ((mem_SetComplement _ _ _).1 h).2 hi⟩
      · exact Or.inr ⟨hi, (mem_SetComplement _ _ _).2 ⟨hx, hi⟩⟩
  by_cases hw : whitelist.length > 0
  · exact ⟨whitelist, SetComplement defaults whitelist, by simp [InsertFieldSet, hw],
      key whitelist⟩
  · refine ⟨sortedPadded cols (SetMerge nonZeroDefaults noDefaults),
      SetComplement defaults (sortedPadded cols (SetMerge nonZeroDefaults noDefaults)), ?_,
      key _⟩
    simp [InsertFieldSet, hw, SortByKeys_eq]

/-- C2, as stated, fails: for keys `["id"]` and items `["id", "name"]` the result keeps
an empty-string entry in the slot of the unmatched item, and that entry occurs neither
in the items nor in the keys. -/
theorem SortByKeys_drop_counterexample :
    SortByKeys ["id"] ["id", "name"] = some ["id", ""] ∧
      "" ∉ ["id", "name"] ∧ "" ∉ ["id"] := by
  refine ⟨?_, by decide, by decide⟩
  simp [SortByKeys, sortOuter, sortInner]

/-- C2, amended: `SortByKeys keys items` returns `len(items)` entries; the leading ones
are the keys that occur in `items`, in `keys` order (cut to `len(items)` of them), each
occurring in both `items` and `keys`; an item absent from `keys` is not among them, and
the remaining entries are empty strings. -/
theorem SortByKeys_filter_reorder (keys items : List String) :
    ∃ hits : List String,
      hits = (keys.filter (fun v => decide (v ∈ items))).take items.length ∧
      SortByKeys keys items = some (hits ++ List.replicate (items.length - hits.length) "") ∧
      (hits ++ List.replicate (items.length - hits.length) "").length = items.length ∧
      (∀ x, x ∈ hits → x ∈ items ∧ x ∈ keys) ∧
      hits.Sublist keys ∧
      (∀ x, x ∈ items → x ∉ keys → x ∉ hits) := by
  refine ⟨_, rfl, ?_, ?_, ?_, ?_, ?_⟩
  · simpa [sortedPadded] using SortByKeys_eq keys items
  · simp only [List.length_append, List.length_replicate, List.length_take]
    omega
  · intro x hx
    exact mem_sortedPadded_hits keys items x hx
  · exact (List.take_sublist _ _).trans (List.filter_sublist _)
  · intro x _ hk hx
    exact hk (mem_sortedPadded_hits keys items x hx).2

/-- C3: `SetComplement a b` is the sub-sequence of `a` made of the elements that do not
occur in `b` (order and multiplicities of `a`); it contains no element of `b`, and as
sets it gives back `a` when united with the intersection of `a` and `b`. -/
theorem SetComplement_spec (a b : List String) :
    SetComplement a b = a.filter (fun x => !decide (x ∈ b)) ∧
      (SetComplement a b).Sublist a ∧
      (∀ x, x ∉ b → (SetComplement a b).count x = a.count x) ∧
      (∀ x, x ∈ SetComplement a b → x ∉ b) ∧
      (∀ x, (x ∈ SetComplement a b ∨ (x ∈ a ∧ x ∈ b)) ↔ x ∈ a) := by
  refine ⟨SetComplement_eq_filter a b, ?_, ?_, ?_, ?_⟩
  · rw [SetComplement_eq_filter]; exact List.filter_sublist _
  · intro x hx
    rw [SetComplement_eq_filter, List.count_filter]
    simp [hx]
  · intro x hx
    exact ((mem_SetComplement a b x).1 hx).2
  · intro x
    rw [mem_SetComplement]
    by_cases hb : x ∈ b <;> simp [hb]

/-- C4: `SetMerge a b` is `a ++ b` with every later duplicate removed: it has no
repeated element, exactly the members of `a ++ b`, and its elements are ordered by
their first occurrence in `a ++ b`. -/
theorem SetMerge_spec (a b : List String) :
    SetMerge a b = keepFirst [] (a ++ b) ∧
      (SetMerge a b).Nodup ∧
      (∀ x, x ∈ SetMerge a b ↔ x ∈ a ++ b) ∧
      (SetMerge a b).Pairwise (fun x y => (a ++ b).indexOf x < (a ++ b).indexOf y) := by
  rw [SetMerge_eq_keepFirst]
  refine ⟨rfl, nodup_keepFirst _ _, ?_, pairwise_keepFirst _ _⟩
  intro x
  simp [mem_keepFirst]

/-- C5: with an empty whitelist, `InsertFieldSet` returns as insert-list
`SortByKeys cols (SetMerge noDefaults nonZeroDefaults)` and as returning-list
`SetComplement defaults` of that insert-list. -/
theorem InsertFieldSet_no_whitelist
    (cols defaults noDefaults nonZeroDefaults : List String) :
    ∃ ins : List String,
      SortByKeys cols (SetMerge noDefaults nonZeroDefaults) = some ins ∧
      InsertFieldSet cols defaults noDefaults nonZeroDefaults []
        = some (ins, SetComplement defaults ins) := by
  refine ⟨sortedPadded cols (SetMerge noDefaults nonZeroDefaults), SortByKeys_eq _ _, ?_⟩
  have hperm := SetMerge_comm_perm nonZeroDefaults noDefaults
  have hcongr := sortedPadded_congr cols _ _ (fun x => hperm.mem_iff) hperm.length_eq
  simp [InsertFieldSet, SortByKeys_eq, hcongr]

/-- C6: `UpdateFieldSet` returns a non-empty whitelist unchanged, and for an empty
whitelist it returns `SetComplement allFields pkeyCols`, no element of which occurs in
`pkeyCols`. -/
theorem UpdateFieldSet_spec (allFields pkeyCols whitelist : List String) :
    (whitelist ≠ [] → UpdateFieldSet allFields pkeyCols whitelist = whitelist) ∧
      (whitelist = [] →
        UpdateFieldSet allFields pkeyCols whitelist = SetComplement allFields pkeyCols ∧
        ∀ x, x ∈ UpdateFieldSet allFields pkeyCols whitelist → x ∉ pkeyCols) := by
  refine ⟨?_, ?_⟩
  · intro h
    simp [UpdateFieldSet, h]
  · intro h
    subst h
    refine ⟨by simp [UpdateFieldSet], ?_⟩
    intro x hx
    have : x ∈ SetComplement allFields pkeyCols := by simpa [UpdateFieldSet] using hx
    exact ((mem_SetComplement _ _ _).1 this).2

/-! ## Properties of the casing -/

theorem getD_append_cons (pre rest : List Nat) (c : Nat) :
    (pre ++ c :: rest).getD pre.length 0 = c := by
  induction pre with
  | nil => simp
  | cons a pre ih => simpa using ih

theorem upperAll_eq_map (w : List Nat) : upperAll w = w.map upperByte := by
  induction w with
  | nil => simp [upperAll]
  | cons c cs ih =>
    have : (c > 96 ∧ c < 123) ↔ (97 ≤ c ∧ c ≤ 122) := by omega
    simp only [upperAll, ih, List.map_cons, upperByte, this]

theorem take_length_takeWhile (p : Nat → Bool) (l : List Nat) :
    l.take (l.takeWhile p).length = l.takeWhile p := by
  induction l with
  | nil => simp
  | cons a l ih =>
    by_cases h : p a
    · simp [List.takeWhile_cons, h, ih]
    · simp [List.takeWhile_cons, h]

theorem scanWord_eq (wordLen : Nat) (cs : List Nat) :
    ∀ (i : Nat) (vowels : Bool) (numStart : Nat), i + cs.length = wordLen →
      scanWord wordLen cs i vowels numStart
        = (vowels || cs.any isVowelByte,
            if numStart = wordLen then i + (cs.takeWhile (fun c => !isDigitByte c)).length
            else numStart) := by
  induction cs with
  | nil =>
    intro i vowels numStart h
    simp at h
    by_cases hn : numStart = wordLen
    · simp [scanWord, h, hn]
    · simp [scanWord, hn]
  | cons c cs ih =>
    intro i vowels numStart h
    have h1 : i + 1 + cs.length = wordLen := by simp at h; omega
    have hi : i ≠ wordLen := by simp at h; omega
    have hv : (c == 97 || c == 101 || c == 105 || c == 111 || c == 117 || c == 121)
        = isVowelByte c := by
      unfold isVowelByte
      simp only [List.mem_cons, List.mem_singleton, List.not_mem_nil, or_false, Bool.decide_or,
        Bool.or_assoc]
      rfl
    have hd : (c > 47 ∧ c < 58) ↔ isDigitByte c = true := by
      simp only [isDigitByte, decide_eq_true_eq]; omega
    rw [scanWord, ih _ _ _ h1, hv]
    by_cases hn : numStart = wordLen
    · by_cases hc : isDigitByte c = true
      · have hc2 : c > 47 ∧ c < 58 := hd.2 hc
        simp [hn, hc, hc2, hi, List.takeWhile_cons, Bool.or_assoc]
      · have hc2 : ¬ (c > 47 ∧ c < 58) := fun h => hc (hd.1 h)
        simp only [Bool.not_eq_true] at hc
        simp [hn, hc, hc2, List.takeWhile_cons, Bool.or_assoc]
        omega
    · simp [hn, Bool.or_assoc]

theorem titleWord_eq (w : GoString) : titleWord w = some (titleWordSpec w) := by
  have hscan := scanWord_eq w.length w 0 false w.length (by simp)
  simp only [Bool.false_or, if_true, Nat.zero_add] at hscan
  have hv : (!(w.any isVowelByte)) = true ↔ ∀ c ∈ w, isVowelByte c = false := by
    simp
  unfold titleWord titleWordSpec
  simp only [hscan, take_length_takeWhile]
  by_cases hcond : w.takeWhile (fun c => !isDigitByte c) ∈ uppercaseWords ∨
      (∀ c ∈ w, isVowelByte c = false)
  · have : (decide (w.takeWhile (fun c => !isDigitByte c) ∈ uppercaseWords)
        || !(w.any isVowelByte)) = true := by
      rcases hcond with h | h
      · simp [h]
      · simp [hv.2 h]
    rw [if_pos this, if_pos hcond, upperAll_eq_map]
  · have : ¬ (decide (w.takeWhile (fun c => !isDigitByte c) ∈ uppercaseWords)
        || !(w.any isVowelByte)) = true := by
      intro h
      rcases Bool.or_eq_true_iff.1 h with h | h
      · exact hcond (Or.inl (by simpa using h))
      · exact hcond (Or.inr (hv.1 h))
    rw [if_neg this, if_neg hcond]
    cases w with
    | nil => exfalso; exact hcond (Or.inr (by simp))
    | cons c rest =>
      by_cases hc : c > 96 ∧ c < 123
      · have hc2 : 97 ≤ c ∧ c ≤ 122 := by omega
        simp [hc, upperByte, hc2]
      · have hc2 : ¬ (97 ≤ c ∧ c ≤ 122) := by omega
        simp [hc, upperByte, hc2]

theorem getD_at (name l1 l2 : List Nat) (c i : Nat) (hname : name = l1 ++ c :: l2)
    (hi : i = l1.length) : name.getD i 0 = c := by
  subst hname; subst hi; exact getD_append_cons l1 l2 c

theorem titleLoop_done (name : GoString) (fuel start end_ : Nat) (buf : GoString)
    (h : ¬ start < name.length) : titleLoop name fuel start end_ buf = some buf := by
  cases fuel with
  | zero => rw [titleLoop, if_neg h]
  | succ f => rw [titleLoop, if_pos h]

theorem titleLoop_skip (name pre rest : List Nat) (fuel : Nat) (buf : GoString)
    (hname : name = pre ++ 95 :: rest) :
    titleLoop name (fuel + 1) pre.length pre.length buf
      = titleLoop name fuel (pre.length + 1) (pre.length + 1) buf := by
  have hlt : pre.length < name.length := by rw [hname]; simp
  have hget : name.getD pre.length 0 = 95 := getD_at name pre rest 95 _ hname rfl
  rw [titleLoop, if_neg (not_not.2 hlt), if_pos ⟨hlt, hget⟩]

theorem titleLoop_scan (name pre rest : List Nat) (fuel : Nat) (buf : GoString)
    (w2 : List Nat) :
    ∀ w1 : List Nat, name = pre ++ (w1 ++ w2) ++ rest → (∀ c ∈ w1 ++ w2, c ≠ 95) →
      titleLoop name (fuel + w2.length) pre.length (pre.length + w1.length) buf
        = titleLoop name fuel pre.length (pre.length + (w1 ++ w2).length) buf := by
  induction w2 with
  | nil => intro w1 _ _; simp
  | cons c w2 ih =>
    intro w1 hname hw
    have hlt : pre.length < name.length := by rw [hname]; simp
    have hstart : name.getD pre.length 0 ≠ 95 := by
      cases w1 with
      | nil =>
        rw [getD_at name pre (w2 ++ rest) c _ (by simp [hname]) rfl]
        exact hw c (by simp)
      | cons a w1 =>
        rw [getD_at name pre (w1 ++ c :: w2 ++ rest) a _ (by simp [hname]) rfl]
        exact hw a (by simp)
    have hend : name.getD (pre.length + w1.length) 0 = c :=
      getD_at name (pre ++ w1) (w2 ++ rest) c _ (by simp [hname]) (by simp)
    have hc : c ≠ 95 := hw c (by simp)
    have hlt2 : pre.length + w1.length < name.length := by rw [hname]; simp
    have hstep : titleLoop name (fuel + w2.length + 1) pre.length (pre.length + w1.length) buf
        = titleLoop name (fuel + w2.length) pre.length (pre.length + w1.length + 1) buf := by
      rw [titleLoop, if_neg (not_not.2 hlt), if_neg (fun h => hstart h.2),
        if_pos ⟨hlt2, by rw [hend]; exact hc⟩]
    have hih := ih (w1 ++ [c]) (by simp [hname]) (by simpa using hw)
    have e1 : fuel + (c :: w2).length = fuel + w2.length + 1 := by simp; omega
    have e2 : pre.length + (w1 ++ [c]).length = pre.length + w1.length + 1 := by simp; omega
    have e3 : (w1 ++ [c] ++ w2).length = (w1 ++ c :: w2).length := by simp
    rw [e1, hstep, ← e2, hih, e3]

theorem titleLoop_word (name pre w rest : List Nat) (fuel : Nat) (buf : GoString)
    (hname : name = pre ++ w ++ rest) (hw : ∀ c ∈ w, c ≠ 95) (hne : w ≠ [])
    (hrest : rest = [] ∨ ∃ r, rest = 95 :: r) :
    titleLoop name (fuel + 1) pre.length (pre.length + w.length) buf
      = titleLoop name fuel (pre.length + w.length + 1) (pre.length + w.length + 1)
          (buf ++ titleWordSpec w) := by
  obtain ⟨a, w1, rfl⟩ := List.exists_cons_of_ne_nil hne
  have hlt : pre.length < name.length := by rw [hname]; simp
  have hstart : name.getD pre.length 0 ≠ 95 := by
    rw [getD_at name pre (w1 ++ rest) a _ (by simp [hname]) rfl]
    exact hw a (by simp)
  have hend : ¬ (pre.length + (a :: w1).length < name.length ∧
      name.getD (pre.length + (a :: w1).length) 0 ≠ 95) := by
    rcases hrest with h | ⟨r, h⟩
    · subst h
      intro hh
      have := hh.1
      rw [hname] at this
      simp at this
    · subst h
      intro hh
      exact hh.2 (getD_at name (pre ++ a :: w1) r 95 _ (by simp [hname]) (by simp))
  have hbounds : pre.length ≤ pre.length + (a :: w1).length ∧
      pre.length + (a :: w1).length ≤ name.length := by
    rw [hname]; simp
  have hslice : (name.drop pre.length).take (pre.length + (a :: w1).length - pre.length)
      = a :: w1 := by
    rw [hname]; simp
  rw [titleLoop, if_neg (not_not.2 hlt), if_neg (fun h => hstart h.2), if_neg hend,
    if_pos hbounds, hslice, titleWord_eq]

theorem underscoreWords_nil : underscoreWords [] = [] := by
  simp [underscoreWords]

theorem underscoreWords_cons_sep (r : List Nat) :
    underscoreWords (95 :: r) = underscoreWords r := by
  simp [underscoreWords, List.splitOn]

theorem underscoreWords_word_sep (w r : List Nat) (hw : ∀ c ∈ w, c ≠ 95) (hne : w ≠ []) :
    underscoreWords (w ++ 95 :: r) = w :: underscoreWords r := by
  have h := List.splitOnP_first (fun x => x == 95) w (by simpa using hw) 95 (by simp) r
  have hemp : w.isEmpty = false := by
    cases w with
    | nil => exact absurd rfl hne
    | cons a t => rfl
  simp [underscoreWords, List.splitOn, h, hemp]

theorem underscoreWords_single (w : List Nat) (hw : ∀ c ∈ w, c ≠ 95) (hne : w ≠ []) :
    underscoreWords w = [w] := by
  have h := List.splitOnP_eq_single (fun x => x == 95) w (by simpa using hw)
  have hemp : w.isEmpty = false := by
    cases w with
    | nil => exact absurd rfl hne
    | cons a t => rfl
  simp [underscoreWords, List.splitOn, h, hemp]

theorem titleLoop_eq_spec (name : GoString) :
    ∀ (k : Nat) (rest pre : List Nat) (buf : GoString) (fuel : Nat),
      rest.length ≤ k → name = pre ++ rest → rest.length + 1 ≤ fuel →
      titleLoop name fuel pre.length pre.length buf = some (buf ++ titleCaseSpec rest) := by
  intro k
  induction k with
  | zero =>
    intro rest pre buf fuel hk hname _
    have hr : rest = [] := List.length_eq_zero.1 (Nat.le_zero.1 hk)
    subst hr
    rw [titleLoop_done name fuel _ _ buf (by simp [hname])]
    simp [titleCaseSpec, underscoreWords_nil]
  | succ k ih =>
    intro rest pre buf fuel hk hname hfuel
    cases rest with
    | nil =>
      rw [titleLoop_done name fuel _ _ buf (by simp [hname])]
      simp [titleCaseSpec, underscoreWords_nil]
    | cons c r =>
      by_cases hc : c = 95
      · subst hc
        obtain ⟨f, rfl⟩ : ∃ f, fuel = f + 1 := ⟨fuel - 1, by simp at hfuel; omega⟩
        rw [titleLoop_skip name pre r f buf hname]
        have := ih r (pre ++ [95]) buf f (by simp at hk; omega) (by simp [hname])
          (by simp at hfuel; omega)
        simp only [List.length_append, List.length_singleton] at this
        rw [this]
        simp [titleCaseSpec, underscoreWords_cons_sep]
      · -- the word that starts at `c` and what follows it
        have hsplit : (c :: r).takeWhile (fun x => x != 95) ++
            (c :: r).dropWhile (fun x => x != 95) = c :: r := List.takeWhile_append_dropWhile _ _
        generalize hwd : (c :: r).takeWhile (fun x => x != 95) = w at hsplit
        generalize hrd : (c :: r).dropWhile (fun x => x != 95) = rest1 at hsplit
        have hw : ∀ x ∈ w, x ≠ 95 := by
          intro x hx
          rw [← hwd] at hx
          simpa using List.mem_takeWhile_imp hx
        have hne : w ≠ [] := by
          rw [← hwd]; simp [List.takeWhile_cons, hc]
        have hrest : rest1 = [] ∨ ∃ r1, rest1 = 95 :: r1 := by
          cases hr1 : rest1 with
          | nil => exact Or.inl rfl
          | cons a r1 =>
            right
            refine ⟨r1, ?_⟩
            have hhead := List.head_dropWhile_not (fun x => x != 95) (c :: r)
              (by rw [hrd, hr1]; simp)
            simp only [hrd] at hhead
            subst hr1
            simp at hhead
            rw [hhead]
        have hlen : (c :: r).length = w.length + rest1.length := by
          rw [← hsplit]; simp
        have hname2 : name = pre ++ w ++ rest1 := by
          rw [hname, ← hsplit]; simp
        have hwpos : 0 < w.length := List.length_pos.2 hne
        obtain ⟨f, rfl⟩ : ∃ f, fuel = (f + 1) + w.length := ⟨fuel - 1 - w.length, by omega⟩
        have hscan := titleLoop_scan name pre rest1 (f + 1) buf w [] (by simpa using hname2)
          (by simpa using hw)
        simp only [List.length_nil, Nat.add_zero, List.nil_append] at hscan
        rw [hscan, titleLoop_word name pre w rest1 f buf hname2 hw hne hrest, ← hsplit]
        rcases hrest with h | ⟨r1, h⟩
        · subst h
          rw [titleLoop_done name f _ _ _ (by rw [hname2]; simp)]
          simp [titleCaseSpec, underscoreWords_single w hw hne]
        · subst h
          have := ih r1 (pre ++ w ++ [95]) (buf ++ titleWordSpec w) f
            (by simp at hk hlen; omega) (by simp [hname2]) (by simp at hfuel hlen; omega)
          simp only [List.length_append, List.length_singleton] at this
          rw [this]
          simp [titleCaseSpec, underscoreWords_word_sep w r1 hw hne]

theorem titleCaseUncached_eq (n : GoString) : titleCaseUncached n = some (titleCaseSpec n) := by
  have h := titleLoop_eq_spec n n.length n [] GetBuffer (n.length + 1) (Nat.le_refl _) rfl
    (Nat.le_refl _)
  simpa [titleCaseUncached, GetBuffer] using h

theorem cacheSound_nil : cacheSound [] := by
  intro k v h
  simp [cacheGet] at h

theorem cacheGet_cacheSet (cache : TitleCache) (n ret k : GoString) :
    cacheGet (cacheSet cache n ret) k = if k = n then some ret else cacheGet cache k := by
  by_cases hk : k = n
  · subst hk
    simp [cacheGet, cacheSet, List.lookup]
  · have hb : (k == n) = false := by simpa using hk
    simp only [cacheGet, cacheSet, List.lookup, hb, if_neg hk]
    induction cache with
    | nil => simp
    | cons e cache ih =>
      obtain ⟨a, b⟩ := e
      by_cases ha : a = n
      · subst ha
        simp [List.filter_cons, List.lookup, hb, ih]
      · by_cases hka : k = a
        · subst hka
          simp [List.filter_cons, List.lookup, ha]
        · have hb2 : (k == a) = false := by simpa using hka
          simp [List.filter_cons, List.lookup, ha, hb2, ih]

theorem TitleCase_value (cache : TitleCache) (n : GoString) (hs : cacheSound cache) :
    (TitleCase cache n).map Prod.fst = some (titleCaseSpec n) := by
  unfold TitleCase
  cases hget : cacheGet cache n with
  | some val =>
    have := hs n val hget
    rw [titleCaseUncached_eq] at this
    simp [← Option.some.inj this]
  | none => simp [titleCaseUncached_eq]

theorem cacheSound_TitleCase (cache cache1 : TitleCache) (n ret : GoString)
    (hs : cacheSound cache) (h : TitleCase cache n = some (ret, cache1)) :
    cacheSound cache1 := by
  unfold TitleCase at h
  cases hget : cacheGet cache n with
  | some val =>
    simp [hget] at h
    rw [← h.2]; exact hs
  | none =>
    simp [hget, titleCaseUncached_eq] at h
    obtain ⟨h1, h2⟩ := h
    subst h2
    intro k v hk
    rw [cacheGet_cacheSet] at hk
    by_cases hkn : k = n
    · subst hkn
      simp at hk
      rw [titleCaseUncached_eq, ← hk, h1]
    · rw [if_neg hkn] at hk
      exact hs k v hk

theorem splitOn_append_sep (a b : List Nat) :
    (a ++ 95 :: b).splitOn 95 = a.splitOn 95 ++ b.splitOn 95 := by
  induction a with
  | nil => simp [List.splitOn]
  | cons c a ih =>
    simp only [List.splitOn] at ih ⊢
    rw [List.cons_append, List.splitOnP_cons, List.splitOnP_cons, ih]
    by_cases hc : c = 95
    · simp [hc]
    · have hb : (c == 95) = false := by simpa using hc
      simp only [hb, Bool.false_eq_true, if_false]
      cases hsp : List.splitOnP (fun x => x == 95) a with
      | nil => exact absurd hsp (List.splitOnP_ne_nil _ _)
      | cons w ws => simp [List.modifyHead]

theorem underscoreWords_append_sep (a b : List Nat) :
    underscoreWords (a ++ 95 :: b) = underscoreWords a ++ underscoreWords b := by
  simp [underscoreWords, splitOn_append_sep]

theorem underscoreWords_replicate_append (k : Nat) (b : List Nat) :
    underscoreWords (List.replicate k 95 ++ b) = underscoreWords b := by
  induction k with
  | zero => simp
  | succ k ih => simp [List.replicate_succ, underscoreWords_cons_sep, ih]

theorem underscoreWords_run (a b : List Nat) (k : Nat) :
    underscoreWords (a ++ List.replicate (k + 1) 95 ++ b)
      = underscoreWords a ++ underscoreWords b := by
  have : a ++ List.replicate (k + 1) 95 ++ b = a ++ 95 :: (List.replicate k 95 ++ b) := by
    simp [List.replicate_succ]
  rw [this, underscoreWords_append_sep, underscoreWords_replicate_append]

theorem titleCaseSpec_run (a b : List Nat) (k : Nat) :
    titleCaseSpec (a ++ List.replicate (k + 1) 95 ++ b)
      = titleCaseSpec a ++ titleCaseSpec b := by
  unfold titleCaseSpec
  rw [underscoreWords_run, List.map_append, List.flatten_append]

theorem splitOnP_no_sep (p : Nat → Bool) (xs : List Nat) :
    ∀ w ∈ xs.splitOnP p, ∀ x ∈ w, p x = false := by
  induction xs with
  | nil => intro w hw x hx; simp at hw; subst hw; simp at hx
  | cons c xs ih =>
    intro w hw x hx
    rw [List.splitOnP_cons] at hw
    by_cases hc : p c = true
    · simp only [hc, if_true, List.mem_cons] at hw
      rcases hw with h | h
      · subst h; simp at hx
      · exact ih w h x hx
    · simp only [hc, Bool.false_eq_true, if_false] at hw
      cases hsp : List.splitOnP p xs with
      | nil => exact absurd hsp (List.splitOnP_ne_nil _ _)
      | cons w0 ws =>
        rw [hsp] at hw ih
        simp only [List.modifyHead, List.mem_cons] at hw
        rcases hw with h | h
        · subst h
          rcases List.mem_cons.1 hx with h2 | h2
          · subst h2; simpa using hc
          · exact ih w0 (List.mem_cons_self _ _) x h2
        · exact ih w (List.mem_cons_of_mem _ h) x hx

theorem upperByte_ne_sep (c : Nat) (h : c ≠ 95) : upperByte c ≠ 95 := by
  unfold upperByte
  split <;> omega

theorem titleWordSpec_no_sep (w : List Nat) (hw : ∀ x ∈ w, x ≠ 95) :
    ∀ x ∈ titleWordSpec w, x ≠ 95 := by
  intro x hx
  unfold titleWordSpec at hx
  split at hx
  · obtain ⟨y, hy, rfl⟩ := List.mem_map.1 hx
    exact upperByte_ne_sep y (hw y hy)
  · cases w with
    | nil => simp at hx
    | cons c rest =>
      rcases List.mem_cons.1 hx with h | h
      · subst h; exact upperByte_ne_sep c (hw c (List.mem_cons_self _ _))
      · exact hw x (List.mem_cons_of_mem _ h)

theorem titleCaseSpec_no_sep (n : List Nat) : 95 ∉ titleCaseSpec n := by
  intro h
  simp only [titleCaseSpec, List.mem_flatten, List.mem_map] at h
  obtain ⟨l, ⟨w, hw, rfl⟩, hx⟩ := h
  have hw2 : w ∈ n.splitOn 95 := (List.mem_filter.1 hw).1
  have hno : ∀ x ∈ w, x ≠ 95 := by
    intro x hx2 he
    have := splitOnP_no_sep (fun x => x == 95) n w hw2 x hx2
    simp [he] at this
  exact titleWordSpec_no_sep w hno 95 hx rfl

theorem drop_length_takeWhile (p : Nat → Bool) (l : List Nat) :
    l.drop (l.takeWhile p).length = l.dropWhile p := by
  induction l with
  | nil => simp
  | cons a l ih =>
    by_cases h : p a
    · simp [List.takeWhile_cons, List.dropWhile_cons, h, ih]
    · simp [List.takeWhile_cons, List.dropWhile_cons, h]

theorem findIndexFrom_eq (p : Nat → Bool) (l : List Nat) :
    ∀ i : Nat, findIndexFrom p l i
      = if l.all (fun c => !p c) = true then (-1 : Int)
        else ((i + (l.takeWhile (fun c => !p c)).length : Nat) : Int) := by
  induction l with
  | nil => intro i; simp [findIndexFrom]
  | cons c cs ih =>
    intro i
    by_cases hc : p c = true
    · simp [findIndexFrom, hc, List.takeWhile_cons]
    · simp only [Bool.not_eq_true] at hc
      rw [findIndexFrom, ih]
      simp only [hc, Bool.false_eq_true, if_false, List.all_cons, Bool.not_false, Bool.true_and,
        List.takeWhile_cons, if_true, List.length_cons]
      split
      · rfl
      · congr 1; omega

theorem all_sep_iff (name : List Nat) :
    name.all (fun c => !(c != 95)) = true ↔ ∀ c ∈ name, c = 95 := by
  simp

/-! ## The statements about the casing -/

/-- C7: on a cache miss, `TitleCase n` returns (and stores) the concatenation, over the
non-empty underscore-delimited words of `n` in order, of the word fully uppercased when
its part before the first digit is an acronym or it has none of a, e, i, o, u, y, and
with only its first byte uppercased otherwise; `"field_name_id"`, `"ip_address"` and
`""` give `"FieldNameID"`, `"IPAddress"` and `""`. -/
theorem TitleCase_miss_spec (cache : TitleCache) (n : GoString)
    (hmiss : cacheGet cache n = none) :
    TitleCase cache n = some (titleCaseSpec n, cacheSet cache n (titleCaseSpec n)) ∧
      (TitleCase [] (goBytes "field_name_id")).map Prod.fst = some (goBytes "FieldNameID") ∧
      (TitleCase [] (goBytes "ip_address")).map Prod.fst = some (goBytes "IPAddress") ∧
      (TitleCase [] (goBytes "")).map Prod.fst = some (goBytes "") := by
  refine ⟨?_, by decide, by decide, by decide⟩
  simp [TitleCase, hmiss, titleCaseUncached_eq]

/-- Witness of C7: the input `"thing_guid9_xyz"` on the empty cache. -/
theorem TitleCase_miss_spec_witness :
    cacheGet [] (goBytes "thing_guid9_xyz") = none ∧
      (TitleCase [] (goBytes "thing_guid9_xyz")
          = some (titleCaseSpec (goBytes "thing_guid9_xyz"),
              cacheSet [] (goBytes "thing_guid9_xyz")
                (titleCaseSpec (goBytes "thing_guid9_xyz"))) ∧
        (TitleCase [] (goBytes "field_name_id")).map Prod.fst = some (goBytes "FieldNameID") ∧
        (TitleCase [] (goBytes "ip_address")).map Prod.fst = some (goBytes "IPAddress") ∧
        (TitleCase [] (goBytes "")).map Prod.fst = some (goBytes "")) ∧
      titleCaseSpec (goBytes "thing_guid9_xyz") = goBytes "ThingGUID9Xyz" :=
  ⟨by decide, TitleCase_miss_spec [] (goBytes "thing_guid9_xyz") (by decide), by decide⟩

/-- C8: a run of `k ≥ 1` underscores is a single word boundary. With `x` and `y` the
strings that `TitleCase` returns for `a` and `b` (in any cache state whose entries are
title-casings), it returns `x ++ y` for `a`, `k` underscores, `b`; it returns `x` again
when underscores are added before or after `a`; a single underscore gives the same as
`k` of them; and `x` contains no underscore. -/
theorem TitleCase_underscore_run (a b : GoString) (k : Nat) (hk : 1 ≤ k) :
    ∃ x y : GoString,
      (∀ c, cacheSound c → (TitleCase c a).map Prod.fst = some x) ∧
      (∀ c, cacheSound c → (TitleCase c b).map Prod.fst = some y) ∧
      (∀ c, cacheSound c →
        (TitleCase c (a ++ List.replicate k 95 ++ b)).map Prod.fst = some (x ++ y)) ∧
      (∀ c, cacheSound c → (TitleCase c (a ++ [95] ++ b)).map Prod.fst = some (x ++ y)) ∧
      (∀ c, cacheSound c → (TitleCase c (List.replicate k 95 ++ a)).map Prod.fst = some x) ∧
      (∀ c, cacheSound c → (TitleCase c (a ++ List.replicate k 95)).map Prod.fst = some x) ∧
      95 ∉ x := by
  obtain ⟨j, rfl⟩ : ∃ j, k = j + 1 := ⟨k - 1, by omega⟩
  refine ⟨titleCaseSpec a, titleCaseSpec b, ?_, ?_, ?_, ?_, ?_, ?_, titleCaseSpec_no_sep a⟩
  · intro c hc; exact TitleCase_value c a hc
  · intro c hc; exact TitleCase_value c b hc
  · intro c hc
    rw [TitleCase_value c _ hc, titleCaseSpec_run]
  · intro c hc
    rw [TitleCase_value c _ hc]
    have := titleCaseSpec_run a b 0
    simpa using this
  · intro c hc
    rw [TitleCase_value c _ hc]
    have := titleCaseSpec_run [] a j
    simpa [titleCaseSpec, underscoreWords_nil] using this
  · intro c hc
    rw [TitleCase_value c _ hc]
    have := titleCaseSpec_run a [] j
    simpa [titleCaseSpec, underscoreWords_nil] using this

/-- Witness of C8: `a = "user"`, `b = "id"`, `k = 3`. -/
theorem TitleCase_underscore_run_witness :
    1 ≤ 3 ∧ cacheSound [] ∧
      (TitleCase [] (goBytes "user" ++ List.replicate 3 95 ++ goBytes "id")).map Prod.fst
        = some (goBytes "UserID") ∧
      ∃ x y : GoString,
        (∀ c, cacheSound c → (TitleCase c (goBytes "user")).map Prod.fst = some x) ∧
        (∀ c, cacheSound c → (TitleCase c (goBytes "id")).map Prod.fst = some y) ∧
        (∀ c, cacheSound c →
          (TitleCase c (goBytes "user" ++ List.replicate 3 95 ++ goBytes "id")).map Prod.fst
            = some (x ++ y)) ∧
        (∀ c, cacheSound c →
          (TitleCase c (goBytes "user" ++ [95] ++ goBytes "id")).map Prod.fst
            = some (x ++ y)) ∧
        (∀ c, cacheSound c →
          (TitleCase c (List.replicate 3 95 ++ goBytes "user")).map Prod.fst = some x) ∧
        (∀ c, cacheSound c →
          (TitleCase c (goBytes "user" ++ List.replicate 3 95)).map Prod.fst = some x) ∧
        95 ∉ x :=
  ⟨by decide, cacheSound_nil, by decide,
    TitleCase_underscore_run (goBytes "user") (goBytes "id") 3 (by decide)⟩

/-- C9 at the key `"utf8"`: it is a key of `uppercaseWords`, its uppercasing is `"UTF8"`,
and `TitleCase` returns `"Utf8"` for it; every other key is returned fully uppercased. -/
theorem TitleCase_utf8 :
    goBytes "utf8" ∈ uppercaseWords ∧
      (goBytes "utf8").map upperByte = goBytes "UTF8" ∧
      (TitleCase [] (goBytes "utf8")).map Prod.fst = some (goBytes "Utf8") ∧
      goBytes "Utf8" ≠ goBytes "UTF8" ∧
      (∀ w ∈ uppercaseWords, w ≠ goBytes "utf8" →
        (TitleCase [] w).map Prod.fst = some (w.map upperByte)) := by
  refine ⟨by decide, by decide, by decide, by decide, by decide⟩

theorem CamelCase_all_sep (cache : TitleCache) (name : GoString)
    (h : ∀ c ∈ name, c = 95) : CamelCase cache name = some ([], cache) := by
  have hidx : findIndexFrom (fun c => c != 95) name 0 = -1 := by
    rw [findIndexFrom_eq, if_pos ((all_sep_iff name).2 h)]
  simp [CamelCase, hidx]

theorem CamelCase_value (cache : TitleCache) (name : GoString) (hs : cacheSound cache)
    (h : ¬ ∀ c ∈ name, c = 95) :
    (CamelCase cache name).map Prod.fst
      = some ((name.dropWhile (fun c => c == 95)).takeWhile (fun c => c != 95)
          ++ titleCaseSpec
              (((name.dropWhile (fun c => c == 95)).dropWhile (fun c => c != 95)).drop 1)) := by
  have hf1 : (fun c : Nat => !(c != 95)) = (fun c => c == 95) := by
    funext c; simp [bne]
  have hf2 : (fun c : Nat => !(c == 95)) = (fun c => c != 95) := by
    funext c; simp [bne]
  have hidx : findIndexFrom (fun c => c != 95) name 0
      = ((name.takeWhile (fun c => c == 95)).length : Int) := by
    rw [findIndexFrom_eq, if_neg (fun hh => h ((all_sep_iff name).1 hh)), hf1]
    simp
  have hne : ((name.takeWhile (fun c => c == 95)).length : Int) ≠ -1 := by omega
  generalize hsd : name.dropWhile (fun c => c == 95) = s
  have hdrop : name.drop ((name.takeWhile (fun c => c == 95)).length : Int).toNat = s := by
    rw [Int.toNat_ofNat, drop_length_takeWhile, hsd]
  unfold CamelCase
  simp only [hidx, hne, ne_eq, not_false_eq_true, if_true, hdrop, GetBuffer, List.nil_append]
  rw [findIndexFrom_eq, hf2]
  by_cases hall : s.all (fun c => c != 95) = true
  · have htw : s.takeWhile (fun c => c != 95) = s := by
      rw [List.takeWhile_eq_self_iff]
      intro x hx
      exact List.all_eq_true.1 hall x hx
    have hdw : s.dropWhile (fun c => c != 95) = [] := by
      rw [List.dropWhile_eq_nil_iff]
      intro x hx
      exact List.all_eq_true.1 hall x hx
    simp [hall, htw, hdw, titleCaseSpec, underscoreWords_nil]
  · have hne1 : ((0 + (s.takeWhile (fun c => c != 95)).length : Nat) : Int) ≠ -1 := by omega
    have hval := TitleCase_value cache
      (s.drop ((s.takeWhile (fun c => c != 95)).length + 1)) hs
    have hdd : s.drop ((s.takeWhile (fun c => c != 95)).length + 1)
        = (s.dropWhile (fun c => c != 95)).drop 1 := by
      rw [← drop_length_takeWhile, List.drop_drop]
    simp only [hall, Bool.false_eq_true, if_false, hne1, Int.toNat_ofNat, Nat.zero_add,
      take_length_takeWhile]
    rw [hdd] at hval ⊢
    cases htc : TitleCase cache ((s.dropWhile (fun c => c != 95)).drop 1) with
    | none => rw [htc] at hval; simp at hval
    | some res =>
      obtain ⟨t, cache1⟩ := res
      rw [htc] at hval
      simp only [Option.map_some', Option.some.injEq] at hval
      simp [hval]

/-- C10: `CamelCase name` is `""` when `name` is empty or only underscores; otherwise, with
`s` the name without its leading underscores, it is the part of `s` before its first
underscore followed by the string `TitleCase` returns for the part of `s` after that
underscore (in any cache state whose entries are title-casings); `"var_name_id"` gives
`"varNameID"`. -/
theorem CamelCase_spec (name : GoString) :
    ((∀ c ∈ name, c = 95) → ∀ cache, CamelCase cache name = some ([], cache)) ∧
      (¬ (∀ c ∈ name, c = 95) →
        ∃ t : GoString,
          (∀ cache, cacheSound cache →
            (TitleCase cache
              (((name.dropWhile (fun c => c == 95)).dropWhile (fun c => c != 95)).drop 1)).map
                Prod.fst = some t) ∧
          (∀ cache, cacheSound cache →
            (CamelCase cache name).map Prod.fst
              = some ((name.dropWhile (fun c => c == 95)).takeWhile (fun c => c != 95) ++ t))) ∧
      (CamelCase [] (goBytes "var_name_id")).map Prod.fst = some (goBytes "varNameID") := by
  refine ⟨?_, ?_, by decide⟩
  · intro h cache
    exact CamelCase_all_sep cache name h
  · intro h
    refine ⟨_, fun cache hs => TitleCase_value cache _ hs, ?_⟩
    intro cache hs
    exact CamelCase_value cache name hs h

/-! ## Properties of the compound identifiers -/

theorem splitDouble_ne_nil (s : List Nat) : splitDouble s ≠ [] := by
  induction s using splitDouble.induct with
  | case1 => simp [splitDouble]
  | case2 c => simp [splitDouble]
  | case3 c d rest h ih => simp [splitDouble, h]
  | case4 c d rest h ih =>
    rw [splitDouble, if_neg h]
    cases hs : splitDouble (d :: rest) with
    | nil => exact absurd hs ih
    | cons w ws => simp [List.modifyHead]

theorem indexDoubleFrom_cases (s : List Nat) :
    ∀ i : Nat,
      (indexDoubleFrom s i = -1 ∧ splitDouble s = [s]) ∨
      ∃ a rest : List Nat, s = a ++ 95 :: 95 :: rest ∧
        indexDoubleFrom s i = ((i + a.length : Nat) : Int) ∧
        splitDouble s = a :: splitDouble rest := by
  induction s using splitDouble.induct with
  | case1 => intro i; left; simp [indexDoubleFrom, splitDouble]
  | case2 c => intro i; left; simp [indexDoubleFrom, splitDouble]
  | case3 c d rest h ih =>
    intro i
    right
    refine ⟨[], rest, ?_, ?_, ?_⟩
    · simp [h.1, h.2]
    · simp [indexDoubleFrom, h]
    · simp [splitDouble, h]
  | case4 c d rest h ih =>
    intro i
    rcases ih (i + 1) with ⟨h1, h2⟩ | ⟨a, rest1, h1, h2, h3⟩
    · left
      refine ⟨?_, ?_⟩
      · rw [indexDoubleFrom, if_neg h, h1]
      · rw [splitDouble, if_neg h, h2]; rfl
    · right
      refine ⟨c :: a, rest1, ?_, ?_, ?_⟩
      · simp [h1]
      · rw [indexDoubleFrom, if_neg h, h2]
        simp only [List.length_cons]
        congr 1
        omega
      · rw [splitDouble, if_neg h, h3]; rfl

theorem TitleCase_step (cache : TitleCache) (n : GoString) (hs : cacheSound cache) :
    ∃ cache1, TitleCase cache n = some (titleCaseSpec n, cache1) ∧ cacheSound cache1 := by
  have hv := TitleCase_value cache n hs
  cases h : TitleCase cache n with
  | none => rw [h] at hv; simp at hv
  | some res =>
    obtain ⟨t, cache1⟩ := res
    rw [h] at hv
    simp only [Option.map_some', Option.some.injEq] at hv
    subst hv
    exact ⟨cache1, rfl, cacheSound_TitleCase cache cache1 n _ hs h⟩

theorem intercalate_cons_of_ne_nil (sep x : List Nat) (xs : List (List Nat)) (h : xs ≠ []) :
    sep.intercalate (x :: xs) = x ++ sep ++ sep.intercalate xs := by
  cases xs with
  | nil => exact absurd rfl h
  | cons y ys => simp [List.intercalate, List.intersperse]

theorem intercalate_singleton (sep x : List Nat) : sep.intercalate [x] = x := by
  simp [List.intercalate, List.intersperse]

theorem identifierLoop_last (id pre rest : List Nat) (addDots : Bool) (buf : GoString)
    (cache : TitleCache) (fuel : Nat) (hid : id = pre ++ rest) (hs : cacheSound cache) :
    ∃ cache1, identifierLoop id (fuel + 1) pre.length (id.length : Int) addDots buf cache
        = some ((if addDots then buf ++ [46] else buf) ++ titleCaseSpec rest, cache1)
      ∧ cacheSound cache1 := by
  obtain ⟨cache1, hc, hs1⟩ := TitleCase_step cache rest hs
  refine ⟨cache1, ?_, hs1⟩
  have h0 : (id.length : Int) ≥ 0 := by omega
  have hb : pre.length ≤ ((id.length : Int)).toNat ∧ ((id.length : Int)).toNat ≤ id.length := by
    rw [Int.toNat_ofNat, hid]; simp
  have hfrag : (id.drop pre.length).take (((id.length : Int)).toNat - pre.length) = rest := by
    rw [Int.toNat_ofNat, hid]; simp
  rw [identifierLoop, if_neg (not_not.2 h0), if_pos hb]
  simp only [hfrag, hc, if_true]

theorem identifierLoop_next (id pre a rest : List Nat) (addDots : Bool) (buf : GoString)
    (cache : TitleCache) (fuel : Nat) (hid : id = pre ++ (a ++ 95 :: 95 :: rest))
    (hs : cacheSound cache) :
    ∃ cache1, identifierLoop id (fuel + 1) pre.length ((pre.length + a.length : Nat) : Int)
        addDots buf cache
        = identifierLoop id fuel (pre.length + a.length + 2)
            (if indexDoubleFrom rest 0 ≥ 0
              then indexDoubleFrom rest 0 + ((pre.length + a.length + 2 : Nat) : Int)
              else (id.length : Int))
            true ((if addDots then buf ++ [46] else buf) ++ titleCaseSpec a) cache1
      ∧ cacheSound cache1 := by
  obtain ⟨cache1, hc, hs1⟩ := TitleCase_step cache a hs
  refine ⟨cache1, ?_, hs1⟩
  have hlen : id.length = pre.length + (a.length + (rest.length + 2)) := by
    rw [hid]; simp
  have h0 : ((pre.length + a.length : Nat) : Int) ≥ 0 := by omega
  have hb : pre.length ≤ (((pre.length + a.length : Nat) : Int)).toNat ∧
      (((pre.length + a.length : Nat) : Int)).toNat ≤ id.length := by
    rw [Int.toNat_ofNat]; omega
  have hfrag : (id.drop pre.length).take
      ((((pre.length + a.length : Nat) : Int)).toNat - pre.length) = a := by
    rw [Int.toNat_ofNat, hid]; simp
  have hne : ¬ (((pre.length + a.length : Nat) : Int) = (id.length : Int)) := by omega
  have hb2 : (((pre.length + a.length : Nat) : Int)).toNat + 2 ≤ id.length := by
    rw [Int.toNat_ofNat]; omega
  have hdrop : id.drop ((((pre.length + a.length : Nat) : Int)).toNat + 2) = rest := by
    rw [Int.toNat_ofNat, hid]
    have : pre ++ (a ++ 95 :: 95 :: rest) = (pre ++ a ++ [95, 95]) ++ rest := by simp
    rw [this]
    have hl : pre.length + a.length + 2 = (pre ++ a ++ [95, 95]).length := by simp; omega
    rw [hl, List.drop_left]
  rw [identifierLoop, if_neg (not_not.2 h0), if_pos hb]
  simp only [hfrag, hc, if_neg hne, if_pos hb2, hdrop]
  rw [Int.toNat_ofNat]

theorem identifierLoop_eq (id : GoString) :
    ∀ (k : Nat) (rest pre : List Nat) (addDots : Bool) (buf : GoString) (cache : TitleCache)
      (fuel : Nat),
      rest.length ≤ k → id = pre ++ rest → cacheSound cache → rest.length + 1 ≤ fuel →
      ∃ cache1, identifierLoop id fuel pre.length
          (if indexDoubleFrom rest 0 ≥ 0 then indexDoubleFrom rest 0 + (pre.length : Int)
            else (id.length : Int))
          addDots buf cache
          = some ((if addDots then buf ++ [46] else buf)
              ++ [46].intercalate ((splitDouble rest).map titleCaseSpec), cache1)
        ∧ cacheSound cache1 := by
  intro k
  induction k with
  | zero =>
    intro rest pre addDots buf cache fuel hk hid hs hfuel
    have hr : rest = [] := List.length_eq_zero.1 (Nat.le_zero.1 hk)
    subst hr
    obtain ⟨f, rfl⟩ : ∃ f, fuel = f + 1 := ⟨fuel - 1, by omega⟩
    have := identifierLoop_last id pre [] addDots buf cache f hid hs
    simpa [indexDoubleFrom, splitDouble, intercalate_singleton] using this
  | succ k ih =>
    intro rest pre addDots buf cache fuel hk hid hs hfuel
    obtain ⟨f, rfl⟩ : ∃ f, fuel = f + 1 := ⟨fuel - 1, by omega⟩
    rcases indexDoubleFrom_cases rest 0 with ⟨h1, h2⟩ | ⟨a, rest1, h1, h2, h3⟩
    · have := identifierLoop_last id pre rest addDots buf cache f hid hs
      simpa [h1, h2, intercalate_singleton] using this
    · subst h1
      obtain ⟨cache1, hstep, hs1⟩ :=
        identifierLoop_next id pre a rest1 addDots buf cache f hid hs
      have hlen : (a ++ 95 :: 95 :: rest1).length = a.length + (rest1.length + 2) := by simp
      have hih := ih rest1 (pre ++ a ++ [95, 95]) true
        ((if addDots then buf ++ [46] else buf) ++ titleCaseSpec a) cache1 f
        (by omega) (by simp [hid]) hs1 (by omega)
      obtain ⟨cache2, hrun, hs2⟩ := hih
      refine ⟨cache2, ?_, hs2⟩
      have hnd : (if indexDoubleFrom (a ++ 95 :: 95 :: rest1) 0 ≥ 0
          then indexDoubleFrom (a ++ 95 :: 95 :: rest1) 0 + (pre.length : Int)
          else (id.length : Int)) = ((pre.length + a.length : Nat) : Int) := by
        rw [h2]
        have : ((0 + a.length : Nat) : Int) ≥ 0 := by omega
        rw [if_pos this]
        push_cast
        omega
      have hl2 : (pre ++ a ++ [95, 95]).length = pre.length + a.length + 2 := by simp; omega
      rw [hl2] at hrun
      rw [hnd, hstep]
      rw [hrun, h3]
      simp only [if_true, List.map_cons]
      rw [intercalate_cons_of_ne_nil _ _ _
        (by simpa using splitDouble_ne_nil rest1)]
      simp [List.append_assoc]

theorem TitleCaseIdentifier_value (cache : TitleCache) (id : GoString) (hs : cacheSound cache) :
    (TitleCaseIdentifier cache id).map Prod.fst
      = some ([46].intercalate ((splitDouble id).map titleCaseSpec)) := by
  unfold TitleCaseIdentifier
  rcases indexDoubleFrom_cases id 0 with ⟨h1, h2⟩ | ⟨a, rest, h1, h2, h3⟩
  · have hneg : indexDoubleFrom id 0 < 0 := by rw [h1]; decide
    simp only [hneg, if_true, h2, List.map_cons, List.map_nil, intercalate_singleton]
    exact TitleCase_value cache id hs
  · have hnn : ¬ indexDoubleFrom id 0 < 0 := by rw [h2]; omega
    simp only [hnn, if_false]
    obtain ⟨cache1, hrun, _⟩ := identifierLoop_eq id id.length id [] false GetBuffer cache
      (id.length + 1) (Nat.le_refl _) rfl hs (Nat.le_refl _)
    have h0 : indexDoubleFrom id 0 ≥ 0 := by omega
    simp only [h0, if_true, List.length_nil, Int.ofNat_zero, Int.add_zero, GetBuffer,
      Bool.false_eq_true, if_false, List.nil_append] at hrun
    simp only [GetBuffer]
    rw [hrun]
    rfl

theorem forall₂_map_self {α β : Type} (R : α → β → Prop) (f : α → β) (h : ∀ x, R x (f x)) :
    ∀ l : List α, List.Forall₂ R l (l.map f) := by
  intro l
  induction l with
  | nil => exact List.Forall₂.nil
  | cons x xs ih => exact List.Forall₂.cons (h x) ih

/-! ## The statement about compound identifiers -/

/-- C11: `TitleCaseIdentifier id` is the dot-join of the strings that `TitleCase` returns
for the segments of `id`, taken in order, where the segments are obtained by splitting
`id` at each leftmost non-overlapping occurrence of two underscores (in any cache state
whose entries are title-casings); an `id` without two consecutive underscores is its own
single segment. -/
theorem TitleCaseIdentifier_spec (id : GoString) :
    ∃ titled : List GoString,
      List.Forall₂
        (fun seg t => ∀ c, cacheSound c → (TitleCase c seg).map Prod.fst = some t)
        (splitDouble id) titled ∧
      (∀ c, cacheSound c →
        (TitleCaseIdentifier c id).map Prod.fst = some ([46].intercalate titled)) ∧
      ((∀ a b : List Nat, id ≠ a ++ 95 :: 95 :: b) → splitDouble id = [id]) ∧
      (TitleCaseIdentifier [] (goBytes "field_name__user_id")).map Prod.fst
        = some (goBytes "FieldName.UserID") := by
  refine ⟨(splitDouble id).map titleCaseSpec, ?_, ?_, ?_, by decide⟩
  · exact forall₂_map_self _ _ (fun seg c hc => TitleCase_value c seg hc) _
  · intro c hc
    exact TitleCaseIdentifier_value c id hc
  · intro h
    rcases indexDoubleFrom_cases id 0 with ⟨_, h2⟩ | ⟨a, rest, h1, _, _⟩
    · exact h2
    · exact absurd h1 (h a rest)

/-! ## Properties of the quoting -/

theorem Rx.matches_of_nullable (r : Rx) (h : r.nullable = true) : Rx.Matches r [] := by
  induction r with
  | eps => exact Rx.Matches.eps
  | cls p => simp [Rx.nullable] at h
  | seq r s ihr ihs =>
    simp only [Rx.nullable, Bool.and_eq_true] at h
    exact Rx.Matches.seq r s [] [] (ihr h.1) (ihs h.2)
  | alt r s ihr ihs =>
    simp only [Rx.nullable, Bool.or_eq_true] at h
    rcases h with h | h
    · exact Rx.Matches.altLeft r s [] (ihr h)
    · exact Rx.Matches.altRight r s [] (ihs h)
  | star r _ => exact Rx.Matches.starNil r
  | void => simp [Rx.nullable] at h

theorem Rx.matches_void (w : List Nat) : ¬ Rx.Matches Rx.void w := by
  intro h; cases h

theorem Rx.matches_eps (w : List Nat) (h : Rx.Matches Rx.eps w) : w = [] := by
  cases h; rfl

theorem Rx.matches_cls (p : Nat → Bool) (w : List Nat) (h : Rx.Matches (Rx.cls p) w) :
    ∃ c, w = [c] ∧ p c = true := by
  cases h with
  | cls _ c hc => exact ⟨c, rfl, hc⟩

theorem Rx.matches_seq (r s : Rx) (w : List Nat) (h : Rx.Matches (Rx.seq r s) w) :
    ∃ u v, w = u ++ v ∧ Rx.Matches r u ∧ Rx.Matches s v := by
  cases h with
  | seq _ _ u v hu hv => exact ⟨u, v, rfl, hu, hv⟩

theorem Rx.matches_alt (r s : Rx) (w : List Nat) (h : Rx.Matches (Rx.alt r s) w) :
    Rx.Matches r w ∨ Rx.Matches s w := by
  cases h with
  | altLeft _ _ _ hu => exact Or.inl hu
  | altRight _ _ _ hu => exact Or.inr hu

theorem Rx.matches_of_deriv (r : Rx) :
    ∀ (c : Nat) (w : List Nat), Rx.Matches (Rx.deriv c r) w → Rx.Matches r (c :: w) := by
  induction r with
  | eps => intro c w h; exact absurd h (Rx.matches_void w)
  | cls p =>
    intro c w h
    by_cases hp : p c = true
    · simp only [Rx.deriv, hp, if_true] at h
      rw [Rx.matches_eps w h]
      exact Rx.Matches.cls p c hp
    · simp only [Rx.deriv, hp, Bool.false_eq_true, if_false] at h
      exact absurd h (Rx.matches_void w)
  | seq r s ihr ihs =>
    intro c w h
    by_cases hn : r.nullable = true
    · simp only [Rx.deriv, hn, if_true] at h
      rcases Rx.matches_alt _ _ _ h with h1 | h1
      · obtain ⟨u, v, rfl, hu, hv⟩ := Rx.matches_seq _ _ _ h1
        exact Rx.Matches.seq r s (c :: u) v (ihr c u hu) hv
      · exact Rx.Matches.seq r s [] (c :: w) (Rx.matches_of_nullable r hn) (ihs c w h1)
    · simp only [Rx.deriv, hn, Bool.false_eq_true, if_false] at h
      obtain ⟨u, v, rfl, hu, hv⟩ := Rx.matches_seq _ _ _ h
      exact Rx.Matches.seq r s (c :: u) v (ihr c u hu) hv
  | alt r s ihr ihs =>
    intro c w h
    simp only [Rx.deriv] at h
    rcases Rx.matches_alt _ _ _ h with h1 | h1
    · exact Rx.Matches.altLeft r s _ (ihr c w h1)
    · exact Rx.Matches.altRight r s _ (ihs c w h1)
  | star r ih =>
    intro c w h
    simp only [Rx.deriv] at h
    obtain ⟨u, v, rfl, hu, hv⟩ := Rx.matches_seq _ _ _ h
    exact Rx.Matches.starCons r (c :: u) v (ih c u hu) hv
  | void => intro c w h; exact absurd h (Rx.matches_void w)

theorem Rx.matches_of_matchString (w : List Nat) :
    ∀ r : Rx, Rx.matchString r w = true → Rx.Matches r w := by
  induction w with
  | nil => intro r h; exact Rx.matches_of_nullable r h
  | cons c cs ih =>
    intro r h
    exact Rx.matches_of_deriv r c cs (ih _ h)

theorem Rx.matches_star_induct (r : Rx) (P : List Nat → Prop) (hnil : P [])
    (hstep : ∀ u v, Rx.Matches r u → P v → P (u ++ v)) :
    ∀ w, Rx.Matches (Rx.star r) w → P w := by
  intro w h
  generalize hr0 : Rx.star r = r0 at h
  induction h with
  | eps => cases hr0
  | cls p c hc => cases hr0
  | seq r1 s1 u v _ _ _ _ => cases hr0
  | altLeft r1 s1 u _ _ => cases hr0
  | altRight r1 s1 u _ _ => cases hr0
  | starNil r1 => exact hnil
  | starCons r1 u v hu hv _ ih2 =>
    cases hr0
    exact hstep u v hu (ih2 rfl)

theorem Rx.matches_byte (b : Nat) (w : List Nat) (h : Rx.Matches (Rx.byte b) w) : w = [b] := by
  obtain ⟨c, rfl, hc⟩ := Rx.matches_cls _ _ h
  simp at hc
  rw [hc]

theorem Rx.matches_opt (r : Rx) (w : List Nat) (h : Rx.Matches (Rx.opt r) w) :
    w = [] ∨ Rx.Matches r w := by
  rcases Rx.matches_alt _ _ _ h with h1 | h1
  · exact Or.inl (Rx.matches_eps w h1)
  · exact Or.inr h1

theorem matches_rxLetter (w : List Nat) (h : Rx.Matches rxLetter w) : 46 ∉ w ∧ w ≠ [] := by
  rcases Rx.matches_alt _ _ _ h with h1 | h1
  · obtain ⟨c, rfl, hc⟩ := Rx.matches_cls _ _ h1
    simp only [decide_eq_true_eq] at hc
    refine ⟨?_, by simp⟩
    simp only [List.mem_singleton]
    omega
  · rcases Rx.matches_alt _ _ _ h1 with h2 | h2
    · obtain ⟨u, v, rfl, hu, hv⟩ := Rx.matches_seq _ _ _ h2
      rw [Rx.matches_byte _ _ hu, Rx.matches_byte _ _ hv]
      exact ⟨by decide, by decide⟩
    · obtain ⟨u, v, rfl, hu, hv⟩ := Rx.matches_seq _ _ _ h2
      obtain ⟨v1, v2, rfl, hv1, hv2⟩ := Rx.matches_seq _ _ _ hv
      rw [Rx.matches_byte _ _ hu, Rx.matches_byte _ _ hv1, Rx.matches_byte _ _ hv2]
      exact ⟨by decide, by decide⟩

theorem matches_rxIdentStart (w : List Nat) (h : Rx.Matches rxIdentStart w) :
    46 ∉ w ∧ w ≠ [] := by
  rcases Rx.matches_alt _ _ _ h with h1 | h1
  · exact matches_rxLetter w h1
  · rw [Rx.matches_byte _ _ h1]
    exact ⟨by decide, by decide⟩

theorem matches_rxIdentChar (w : List Nat) (h : Rx.Matches rxIdentChar w) :
    46 ∉ w ∧ w ≠ [] := by
  rcases Rx.matches_alt _ _ _ h with h1 | h1
  · exact matches_rxIdentStart w h1
  · obtain ⟨c, rfl, hc⟩ := Rx.matches_cls _ _ h1
    simp only [decide_eq_true_eq] at hc
    refine ⟨?_, by simp⟩
    simp only [List.mem_singleton]
    omega

theorem matches_optQuote (w : List Nat) (h : Rx.Matches (Rx.opt (Rx.byte 34)) w) :
    46 ∉ w := by
  rcases Rx.matches_opt _ _ h with h1 | h1
  · rw [h1]; simp
  · rw [Rx.matches_byte _ _ h1]; decide

theorem matches_rxQuotedIdent (w : List Nat) (h : Rx.Matches rxQuotedIdent w) :
    46 ∉ w ∧ w ≠ [] := by
  obtain ⟨q1, w1, rfl, hq1, h1⟩ := Rx.matches_seq _ _ _ h
  obtain ⟨i, w2, rfl, hi, h2⟩ := Rx.matches_seq _ _ _ h1
  obtain ⟨st, q2, rfl, hst, hq2⟩ := Rx.matches_seq _ _ _ h2
  have hi2 := matches_rxIdentStart i hi
  have hst2 : 46 ∉ st :=
    Rx.matches_star_induct rxIdentChar (fun u => 46 ∉ u) (by simp)
      (fun u v hu hv => by
        have := (matches_rxIdentChar u hu).1
        simp only [List.mem_append, not_or]
        exact ⟨this, hv⟩) st hst
  refine ⟨?_, ?_⟩
  · simp only [List.mem_append, not_or]
    exact ⟨matches_optQuote q1 hq1, hi2.1, hst2, matches_optQuote q2 hq2⟩
  · intro hnil
    have := List.append_eq_nil.1 hnil
    exact hi2.2 (List.append_eq_nil.1 this.2).1

/-- The strings matched by `smartQuoteRgx` are dot-joins of non-empty pieces without a
dot. -/
theorem matches_smartQuoteRgx (s : List Nat) (h : Rx.Matches smartQuoteRgx s) :
    ∃ (w : List Nat) (ws : List (List Nat)),
      s = w ++ (ws.map (fun x => 46 :: x)).flatten ∧ (46 ∉ w ∧ w ≠ []) ∧
      ∀ x ∈ ws, 46 ∉ x ∧ x ≠ [] := by
  obtain ⟨w, t1, rfl, hw, h1⟩ := Rx.matches_seq _ _ _ h
  obtain ⟨t, u, rfl, ht, hu⟩ := Rx.matches_seq _ _ _ h1
  have hgroups : ∃ ws : List (List Nat), t = (ws.map (fun x => 46 :: x)).flatten ∧
      ∀ x ∈ ws, 46 ∉ x ∧ x ≠ [] :=
    Rx.matches_star_induct (Rx.seq (Rx.byte 46) rxQuotedIdent)
      (fun t => ∃ ws : List (List Nat), t = (ws.map (fun x => 46 :: x)).flatten ∧
        ∀ x ∈ ws, 46 ∉ x ∧ x ≠ [])
      ⟨[], by simp, by simp⟩
      (fun a b ha hb => by
        obtain ⟨d, q, rfl, hd, hq⟩ := Rx.matches_seq _ _ _ ha
        obtain ⟨ws, rfl, hws⟩ := hb
        rw [Rx.matches_byte _ _ hd]
        refine ⟨q :: ws, by simp, ?_⟩
        intro x hx
        rcases List.mem_cons.1 hx with hx | hx
        · rw [hx]; exact matches_rxQuotedIdent q hq
        · exact hws x hx) t ht
  obtain ⟨ws, rfl, hws⟩ := hgroups
  rcases Rx.matches_opt _ _ hu with hu1 | hu1
  · subst hu1
    exact ⟨w, ws, by simp, matches_rxQuotedIdent w hw, hws⟩
  · obtain ⟨d, st, rfl, hd, hst⟩ := Rx.matches_seq _ _ _ hu1
    rw [Rx.matches_byte _ _ hd, Rx.matches_byte _ _ hst]
    refine ⟨w, ws ++ [[42]], by simp, matches_rxQuotedIdent w hw, ?_⟩
    intro x hx
    rcases List.mem_append.1 hx with hx | hx
    · exact hws x hx
    · simp only [List.mem_singleton] at hx
      rw [hx]
      exact ⟨by decide, by decide⟩

theorem splitOn_append_sep_gen (sep : Nat) (a b : List Nat) :
    (a ++ sep :: b).splitOn sep = a.splitOn sep ++ b.splitOn sep := by
  induction a with
  | nil => simp [List.splitOn]
  | cons c a ih =>
    simp only [List.splitOn] at ih ⊢
    rw [List.cons_append, List.splitOnP_cons, List.splitOnP_cons, ih]
    by_cases hc : c = sep
    · simp [hc]
    · have hb : (c == sep) = false := by simpa using hc
      simp only [hb, Bool.false_eq_true, if_false]
      cases hsp : List.splitOnP (fun x => x == sep) a with
      | nil => exact absurd hsp (List.splitOnP_ne_nil _ _)
      | cons w ws => simp [List.modifyHead]

theorem splitOn_no_sep (sep : Nat) (w : List Nat) (hw : sep ∉ w) : w.splitOn sep = [w] := by
  apply List.splitOnP_eq_single
  intro x hx hxs
  simp only [beq_iff_eq] at hxs
  exact hw (hxs ▸ hx)

theorem splitOn_pieces (sep : Nat) (ws : List (List Nat)) :
    ∀ w : List Nat, sep ∉ w → (∀ x ∈ ws, sep ∉ x) →
      (w ++ (ws.map (fun x => sep :: x)).flatten).splitOn sep = w :: ws := by
  induction ws with
  | nil => intro w hw _; simpa using splitOn_no_sep sep w hw
  | cons x xs ih =>
    intro w hw hws
    have hx : sep ∉ x := hws x (List.mem_cons_self _ _)
    have hxs : ∀ y ∈ xs, sep ∉ y := fun y hy => hws y (List.mem_cons_of_mem _ hy)
    have : w ++ ((x :: xs).map (fun x => sep :: x)).flatten
        = w ++ sep :: (x ++ (xs.map (fun x => sep :: x)).flatten) := by simp
    rw [this, splitOn_append_sep_gen, splitOn_no_sep sep w hw, ih x hx hxs]
    rfl

theorem splitDots_nonempty (s : List Nat) (h : Rx.matchString smartQuoteRgx s = true) :
    splitDots s ≠ [] ∧ ∀ seg ∈ splitDots s, seg ≠ [] := by
  obtain ⟨w, ws, rfl, hw, hws⟩ := matches_smartQuoteRgx s (Rx.matches_of_matchString s _ h)
  unfold splitDots
  rw [splitOn_pieces 46 ws w hw.1 (fun x hx => (hws x hx).1)]
  refine ⟨by simp, ?_⟩
  intro seg hseg
  rcases List.mem_cons.1 hseg with h1 | h1
  · rw [h1]; exact hw.2
  · exact (hws seg h1).2

theorem quoteSplit_eq (lq rq : Nat) (seg : GoString) (h : seg ≠ []) :
    quoteSplit lq rq seg = some (quoteSegmentSpec lq rq seg) := by
  cases seg with
  | nil => exact absurd rfl h
  | cons c rest =>
    have hlast : (c :: rest).getLast? = some ((c :: rest).getLast (List.cons_ne_nil c rest)) :=
      List.getLast?_eq_getLast _ _
    have hiff : (c = lq ∨ (c :: rest).getLast (List.cons_ne_nil c rest) = rq ∨
        c :: rest = goBytes "*") ↔
        (c :: rest = goBytes "*" ∨ (c :: rest).head? = some lq ∨
          (c :: rest).getLast? = some rq) := by
      rw [hlast]
      simp only [List.head?_cons, Option.some.injEq]
      tauto
    unfold quoteSplit quoteSegmentSpec
    by_cases hc : c = lq ∨ (c :: rest).getLast (List.cons_ne_nil c rest) = rq ∨
        c :: rest = goBytes "*"
    · simp only [if_pos hc, if_pos (hiff.1 hc)]
    · simp only [if_neg hc, if_neg (fun h2 => hc (hiff.2 h2))]

theorem identQuoteLoop_eq (lq rq : Nat) (segs : List GoString) :
    ∀ (i : Nat) (buf : GoString), (∀ seg ∈ segs, seg ≠ []) →
      identQuoteLoop lq rq segs i buf
        = some (buf ++ (if segs = [] then []
            else (if i ≠ 0 then [46] else []) ++
              [46].intercalate (segs.map (quoteSegmentSpec lq rq)))) := by
  induction segs with
  | nil => intro i buf _; simp [identQuoteLoop]
  | cons seg rest ih =>
    intro i buf hne
    have hseg : seg ≠ [] := hne seg (List.mem_cons_self _ _)
    have hrest : ∀ x ∈ rest, x ≠ [] := fun x hx => hne x (List.mem_cons_of_mem _ hx)
    rw [identQuoteLoop, quoteSplit_eq lq rq seg hseg]
    simp only [ih (i + 1) _ hrest]
    by_cases hr : rest = []
    · subst hr
      by_cases hi : i = 0 <;> simp [hi, intercalate_singleton]
    · have hmap : rest.map (quoteSegmentSpec lq rq) ≠ [] := by simpa using hr
      rw [List.map_cons, intercalate_cons_of_ne_nil _ _ _ hmap]
      by_cases hi : i = 0 <;> simp [hi, hr]

theorem IdentQuote_eq (lq rq : Nat) (s : GoString) :
    IdentQuote lq rq s = some (identQuoteSpec lq rq s) := by
  unfold IdentQuote identQuoteSpec
  by_cases h1 : isNullToken s = true ∨ s = goBytes "?"
  · have h2 : isNullToken s = true ∨ s = goBytes "?" ∨
        Rx.matchString smartQuoteRgx s = false := by tauto
    rw [if_pos h1, if_pos h2]
  · rw [if_neg h1]
    by_cases hm : Rx.matchString smartQuoteRgx s = true
    · have h2 : ¬ (isNullToken s = true ∨ s = goBytes "?" ∨
          Rx.matchString smartQuoteRgx s = false) := by
        rintro (h | h | h)
        · exact h1 (Or.inl h)
        · exact h1 (Or.inr h)
        · rw [hm] at h; exact Bool.noConfusion h
      obtain ⟨hne, hsegs⟩ := splitDots_nonempty s hm
      rw [if_neg (not_not.2 hm), if_neg h2, identQuoteLoop_eq lq rq _ 0 GetBuffer hsegs]
      have hne2 : ¬ List.splitOn 46 s = [] := hne
      simp only [GetBuffer, splitDots, ne_eq, not_true_eq_false, if_false, List.nil_append,
        if_neg hne2]
    · have h2 : isNullToken s = true ∨ s = goBytes "?" ∨
          Rx.matchString smartQuoteRgx s = false := by
        right; right; simpa using hm
      rw [if_pos hm, if_pos h2]

/-! ## The statement about quoting -/

/-- C12: `IdentQuote lq rq s` always returns (no out-of-range index, also for `""`, `"."`
and `"a..b"`). It returns `s` unchanged when `s` is `null` in any letter case, is `?`, or
fails the identifier pattern; otherwise it returns the dot-separated segments of `s`
joined by dots, each segment kept as it is when it is `*`, starts with `lq` or ends with
`rq`, and wrapped as `lq`, segment, `rq` in every other case. -/
theorem IdentQuote_spec (lq rq : Nat) (s : GoString) :
    IdentQuote lq rq s
        = some (if isNullToken s = true ∨ s = goBytes "?" ∨
                  Rx.matchString smartQuoteRgx s = false then s
                else [46].intercalate ((s.splitOn 46).map (fun seg =>
                  if seg = goBytes "*" ∨ seg.head? = some lq ∨ seg.getLast? = some rq then seg
                  else [lq] ++ seg ++ [rq]))) ∧
      IdentQuote lq rq (goBytes "") = some (goBytes "") ∧
      IdentQuote lq rq (goBytes ".") = some (goBytes ".") ∧
      IdentQuote lq rq (goBytes "a..b") = some (goBytes "a..b") ∧
      IdentQuote 34 34 (goBytes "NuLl") = some (goBytes "NuLl") ∧
      IdentQuote 34 34 (goBytes "count(*)") = some (goBytes "count(*)") ∧
      IdentQuote 34 34 (goBytes "t.\"c\".*") = some (goBytes "\"t\".\"c\".*") := by
  refine ⟨?_, ?_, ?_, ?_, by decide, by decide, by decide⟩
  · rw [IdentQuote_eq]; rfl
  · rw [IdentQuote_eq]; simp [identQuoteSpec, show Rx.matchString smartQuoteRgx (goBytes "")
      = false by decide]
  · rw [IdentQuote_eq]; simp [identQuoteSpec, show Rx.matchString smartQuoteRgx (goBytes ".")
      = false by decide]
  · rw [IdentQuote_eq]; simp [identQuoteSpec, show Rx.matchString smartQuoteRgx (goBytes "a..b")
      = false by decide]

/-! ## Properties of the clause builders -/

theorem foldl_append_pieces {α : Type} (f : GoString → α → GoString)
    (hf : ∀ buf x, f buf x = buf ++ f [] x) :
    ∀ (l : List α) (buf : GoString), l.foldl f buf = buf ++ (l.map (f [])).flatten := by
  intro l
  induction l with
  | nil => intro buf; simp
  | cons x xs ih =>
    intro buf
    rw [List.foldl_cons, ih, hf buf x]
    simp [List.append_assoc]

theorem wrapInt64_eq (x : Int) (h1 : -9223372036854775808 ≤ x)
    (h2 : x ≤ 9223372036854775807) : wrapInt64 x = x := by
  unfold wrapInt64
  omega

theorem addInt64_eq_of (a b : Int) (hb : 0 ≤ b)
    (h : a ≤ 9223372036854775807 → a + b ≤ 9223372036854775807) :
    addInt64 a b = a + b := by
  unfold addInt64
  by_cases hc : isInt64 a = true ∧ isInt64 b = true
  · rw [if_pos hc]
    simp only [isInt64, decide_eq_true_eq] at hc
    exact wrapInt64_eq _ (by omega) (h hc.1.2)
  · rw [if_neg hc]

theorem addInt64_eq (a b : Int) (hb : 0 ≤ b) (h : a + b ≤ 9223372036854775807) :
    addInt64 a b = a + b :=
  addInt64_eq_of a b hb (fun _ => h)

theorem addInt64_comm (a b : Int) : addInt64 a b = addInt64 b a := by
  unfold addInt64
  rw [Int.add_comm a b]
  by_cases ha : isInt64 a = true <;> by_cases hb : isInt64 b = true <;> simp [ha, hb]

theorem addInt64_zero (a : Int) : addInt64 a 0 = a := by
  unfold addInt64
  by_cases hc : isInt64 a = true ∧ isInt64 0 = true
  · rw [if_pos hc]
    simp only [isInt64, decide_eq_true_eq] at hc
    rw [Int.add_zero]
    exact wrapInt64_eq _ hc.1.1 hc.1.2
  · rw [if_neg hc, Int.add_zero]

theorem mulInt64_eq (a b : Int) (ha : 0 ≤ a) (hb : 0 ≤ b)
    (h : a * b ≤ 9223372036854775807) : mulInt64 a b = a * b := by
  unfold mulInt64
  by_cases hc : isInt64 a = true ∧ isInt64 b = true
  · rw [if_pos hc]
    have h0 : 0 ≤ a * b := Int.mul_nonneg ha hb
    exact wrapInt64_eq _ (by omega) h
  · rw [if_neg hc]

theorem placeholdersBody_append (indexed : Bool) (start group : Int) (buf : GoString)
    (i : Nat) :
    placeholdersBody indexed start group buf i
      = buf ++ placeholdersBody indexed start group [] i := by
  unfold placeholdersBody
  by_cases hi : i = 0 <;> by_cases hg : group > 1 ∧ Int.tmod (i : Int) group = 0 <;>
    cases indexed <;> simp [hi, hg, List.append_assoc]

theorem tmod_natCast_eq_zero (i g : Nat) :
    Int.tmod (i : Int) (g : Int) = 0 ↔ i % g = 0 := by
  rw [Int.tmod_eq_emod (Int.ofNat_nonneg i) (Int.ofNat_nonneg g)]
  constructor
  · intro h
    have : ((i % g : Nat) : Int) = 0 := by rw [Int.natCast_mod]; exact h
    exact_mod_cast this
  · intro h
    rw [← Int.natCast_mod, h]
    rfl

theorem placeholders_pieces (indexed : Bool) (start group : Int) (n : Nat) :
    ∀ o : Nat,
      ((List.range' o n).map (placeholdersBody indexed start group [])).flatten
        = placeholderPieces (decide (group > 1)) group.toNat o
            ((List.range' o n).map
              (fun (i : Nat) =>
                if indexed then [36] ++ fmtInt (addInt64 start (i : Int)) else [63])) := by
  induction n with
  | zero => intro o; simp [placeholderPieces]
  | succ n ih =>
    intro o
    rw [List.range'_succ, List.map_cons, List.flatten_cons, ih (o + 1), List.map_cons,
      placeholderPieces]
    congr 1
    have hcond : (group > 1 ∧ Int.tmod (o : Int) group = 0)
        ↔ (decide (group > 1) = true ∧ o % group.toNat = 0) := by
      by_cases hg : group > 1
      · have hgn : ((group.toNat : Nat) : Int) = group := Int.toNat_of_nonneg (by omega)
        have := tmod_natCast_eq_zero o group.toNat
        rw [hgn] at this
        simp [hg, this]
      · simp [hg]
    unfold placeholdersBody
    by_cases ho : o = 0
    · cases indexed <;> simp [ho]
    · by_cases hc : group > 1 ∧ Int.tmod (o : Int) group = 0
      · have hc2 := hcond.1 hc
        cases indexed <;> simp only [ho, ne_eq, not_false_eq_true, if_true, hc, hc2] <;> simp
      · have hc2 : ¬ (decide (group > 1) = true ∧ o % group.toNat = 0) :=
          fun h => hc (hcond.2 h)
        cases indexed <;> simp only [ho, ne_eq, not_false_eq_true, if_true, hc, hc2] <;> simp

theorem Placeholders_eq (indexed : Bool) (count start group : Int)
    (h : ¬ (start = 0 ∨ group = 0)) :
    Placeholders indexed count start group
      = some ((if group > 1 then [40] else []) ++
          placeholderPieces (decide (group > 1)) group.toNat 0
            (machinePlaceholderList indexed count start) ++
          (if group > 1 then [41] else [])) := by
  unfold Placeholders
  simp only [h, if_false, GetBuffer, List.nil_append]
  rw [foldl_append_pieces _ (placeholdersBody_append indexed start group),
    List.range_eq_range', placeholders_pieces]
  unfold machinePlaceholderList
  rw [List.range_eq_range']
  by_cases hg : group > 1 <;> simp [hg]

theorem machinePlaceholderList_eq (indexed : Bool) (count start : Int)
    (hb : start + count ≤ 9223372036854775808) :
    machinePlaceholderList indexed count start = placeholderList indexed count start := by
  unfold machinePlaceholderList placeholderList
  apply List.map_congr_left
  intro i hi
  have hi2 : i < count.toNat := List.mem_range.1 hi
  rw [addInt64_eq start (i : Int) (Int.ofNat_nonneg i) (by omega)]

theorem chunksFuel_eq (g : Nat) (hg : 1 ≤ g) :
    ∀ (fuel : Nat) (xs : List GoString), xs.length ≤ fuel →
      chunksFuel g fuel xs = chunks g xs := by
  intro fuel
  induction fuel using Nat.strong_induction_on with
  | _ fuel ih =>
    intro xs hlen
    cases xs with
    | nil => cases fuel <;> simp [chunks, chunksFuel]
    | cons x t =>
      obtain ⟨f, rfl⟩ : ∃ f, fuel = f + 1 := ⟨fuel - 1, by simp at hlen; omega⟩
      have hd : ((x :: t).drop g).length ≤ t.length := by
        simp only [List.length_drop, List.length_cons]; omega
      have h1 := ih f (Nat.lt_succ_self f) ((x :: t).drop g) (by simp at hlen; omega)
      have h2 : chunksFuel g t.length ((x :: t).drop g) = chunks g ((x :: t).drop g) := by
        by_cases ht : t.length < f + 1
        · exact ih t.length ht _ hd
        · have : t.length = f := by simp at hlen; omega
          rw [this]
          exact ih f (Nat.lt_succ_self f) _ (by omega)
      simp only [chunks, List.length_cons, chunksFuel]
      rw [h1, h2]

theorem chunks_unfold (g : Nat) (hg : 1 ≤ g) (xs : List GoString) (hne : xs ≠ []) :
    chunks g xs = xs.take g :: chunks g (xs.drop g) := by
  cases xs with
  | nil => exact absurd rfl hne
  | cons x t =>
    have hd : ((x :: t).drop g).length ≤ t.length := by
      simp only [List.length_drop, List.length_cons]; omega
    have := chunksFuel_eq g hg t.length ((x :: t).drop g) hd
    simp only [chunks, List.length_cons, chunksFuel]
    rw [this]
    rfl

theorem chunks_nil (g : Nat) : chunks g [] = [] := by
  simp [chunks, chunksFuel]

theorem chunks_flatten (g : Nat) (hg : 1 ≤ g) :
    ∀ (k : Nat) (xs : List GoString), xs.length ≤ k → (chunks g xs).flatten = xs := by
  intro k
  induction k with
  | zero =>
    intro xs h
    have : xs = [] := List.length_eq_zero.1 (Nat.le_zero.1 h)
    subst this
    simp [chunks_nil]
  | succ k ih =>
    intro xs h
    by_cases hne : xs = []
    · subst hne; simp [chunks_nil]
    · have hpos : 0 < xs.length := List.length_pos.2 hne
      rw [chunks_unfold g hg xs hne, List.flatten_cons,
        ih (xs.drop g) (by simp only [List.length_drop]; omega), List.take_append_drop]

theorem placeholderPieces_append (grouped : Bool) (g : Nat) (a b : List GoString) :
    ∀ i : Nat, placeholderPieces grouped g i (a ++ b)
      = placeholderPieces grouped g i a ++ placeholderPieces grouped g (i + a.length) b := by
  induction a with
  | nil => intro i; simp [placeholderPieces]
  | cons x a ih =>
    intro i
    have e : i + 1 + a.length = i + (a.length + 1) := by omega
    rw [List.cons_append, placeholderPieces, placeholderPieces, ih (i + 1), e,
      List.length_cons]
    simp only [List.append_assoc]

theorem placeholderPieces_shift (grouped : Bool) (g o : Nat) (ho : o % g = 0)
    (xs : List GoString) :
    ∀ i : Nat, 1 ≤ i →
      placeholderPieces grouped g (o + i) xs = placeholderPieces grouped g i xs := by
  induction xs with
  | nil => intro i _; simp [placeholderPieces]
  | cons x xs ih =>
    intro i hi
    have h1 : o + i ≠ 0 := by omega
    have h2 : i ≠ 0 := by omega
    have h3 : (o + i) % g = i % g := by
      rw [Nat.add_mod, ho, Nat.zero_add, Nat.mod_mod]
    have := ih (i + 1) (by omega)
    simp only [placeholderPieces, h1, h2, h3, ne_eq, not_false_eq_true, if_true]
    rw [← this]
    rfl

theorem placeholderPieces_flat (grouped : Bool) (g : Nat) (xs : List GoString) :
    ∀ i : Nat, 1 ≤ i → (grouped = true → i + xs.length ≤ g) →
      placeholderPieces grouped g i xs = (xs.map (fun x => [44] ++ x)).flatten := by
  induction xs with
  | nil => intro i _ _; simp [placeholderPieces]
  | cons x xs ih =>
    intro i hi hlen
    have h2 : i ≠ 0 := by omega
    have h3 : ¬ (grouped = true ∧ i % g = 0) := by
      rintro ⟨hgr, hm⟩
      have := hlen hgr
      simp only [List.length_cons] at this
      have hlt : i < g := by omega
      rw [Nat.mod_eq_of_lt hlt] at hm
      exact h2 hm
    have := ih (i + 1) (by omega) (fun hgr => by
      have := hlen hgr
      simp only [List.length_cons] at this
      omega)
    simp only [placeholderPieces, h2, h3, ne_eq, not_false_eq_true, if_true, if_false, this,
      List.map_cons, List.flatten_cons, List.append_assoc]

theorem intercalate_eq_head_flat (sep x : List Nat) (xs : List (List Nat)) :
    sep.intercalate (x :: xs) = x ++ (xs.map (fun y => sep ++ y)).flatten := by
  induction xs generalizing x with
  | nil => simp [intercalate_singleton]
  | cons y ys ih =>
    rw [intercalate_cons_of_ne_nil _ _ _ (List.cons_ne_nil y ys), ih y]
    simp [List.append_assoc]

theorem placeholderPieces_single (grouped : Bool) (g : Nat) (xs : List GoString)
    (hlen : grouped = true → xs.length ≤ g) (hne : xs ≠ []) :
    placeholderPieces grouped g 0 xs = [44].intercalate xs := by
  cases xs with
  | nil => exact absurd rfl hne
  | cons x t =>
    rw [intercalate_eq_head_flat, placeholderPieces]
    rw [placeholderPieces_flat grouped g t 1 (Nat.le_refl 1) (fun hgr => by
      have := hlen hgr
      simp only [List.length_cons] at this
      omega)]
    simp

theorem placeholderPieces_chunks (g : Nat) (hg : 1 ≤ g) :
    ∀ (k : Nat) (xs : List GoString), xs.length ≤ k → xs ≠ [] →
      [40] ++ placeholderPieces true g 0 xs ++ [41]
        = [44].intercalate ((chunks g xs).map (fun ch => [40] ++ [44].intercalate ch ++ [41])) := by
  intro k
  induction k with
  | zero =>
    intro xs h hne
    exact absurd (List.length_eq_zero.1 (Nat.le_zero.1 h)) hne
  | succ k ih =>
    intro xs h hne
    have hpos : 0 < xs.length := List.length_pos.2 hne
    rw [chunks_unfold g hg xs hne]
    by_cases hd : xs.drop g = []
    · have hle : xs.length ≤ g := List.drop_eq_nil_iff.1 hd
      rw [hd, chunks_nil, List.take_of_length_le hle]
      simp only [List.map_cons, List.map_nil, intercalate_singleton]
      rw [placeholderPieces_single true g xs (fun _ => hle) hne]
    · have hlt : g < xs.length := by
        by_contra hcon
        exact hd (List.drop_eq_nil_iff.2 (by omega))
      have htake : (xs.take g).length = g := by
        rw [List.length_take]; omega
      have hne1 : xs.take g ≠ [] := by
        intro h0
        rw [h0] at htake
        simp at htake
        omega
      have hsplit : placeholderPieces true g 0 xs
          = placeholderPieces true g 0 (xs.take g) ++ goBytes "),("
              ++ placeholderPieces true g 0 (xs.drop g) := by
        conv_lhs => rw [← List.take_append_drop g xs]
        rw [placeholderPieces_append, htake, Nat.zero_add]
        obtain ⟨y, ys, hy⟩ := List.exists_cons_of_ne_nil hd
        rw [hy]
        have hshift := placeholderPieces_shift true g g (Nat.mod_self g) ys 1 (Nat.le_refl 1)
        have hg0 : g ≠ 0 := by omega
        simp only [placeholderPieces, hg0, ne_eq, not_false_eq_true, if_true, Nat.mod_self,
          and_self, hshift, not_true_eq_false, if_false, List.nil_append, List.append_assoc]
      have hih := ih (xs.drop g) (by simp only [List.length_drop]; omega) hd
      have hmapne : (chunks g (xs.drop g)).map
          (fun ch => [40] ++ [44].intercalate ch ++ [41]) ≠ [] := by
        rw [chunks_unfold g hg _ hd]; simp
      rw [List.map_cons, intercalate_cons_of_ne_nil _ _ _ hmapne, ← hih, hsplit,
        placeholderPieces_single true g (xs.take g) (fun _ => by omega) hne1]
      simp [goBytes, utf8Bytes, List.append_assoc]

theorem chunks_lengths (g : Nat) (hg : 1 ≤ g) :
    ∀ (k : Nat) (xs : List GoString), xs.length ≤ k →
      (∀ ch ∈ chunks g xs, 1 ≤ ch.length ∧ ch.length ≤ g) ∧
      (∀ ch ∈ (chunks g xs).dropLast, ch.length = g) := by
  intro k
  induction k with
  | zero =>
    intro xs h
    have : xs = [] := List.length_eq_zero.1 (Nat.le_zero.1 h)
    subst this
    simp [chunks_nil]
  | succ k ih =>
    intro xs h
    by_cases hne : xs = []
    · subst hne; simp [chunks_nil]
    · have hpos : 0 < xs.length := List.length_pos.2 hne
      obtain ⟨ih1, ih2⟩ := ih (xs.drop g) (by simp only [List.length_drop]; omega)
      rw [chunks_unfold g hg xs hne]
      refine ⟨?_, ?_⟩
      · intro ch hch
        rcases List.mem_cons.1 hch with h1 | h1
        · rw [h1, List.length_take]; omega
        · exact ih1 ch h1
      · intro ch hch
        by_cases hd : xs.drop g = []
        · rw [hd, chunks_nil] at hch
          simp at hch
        · have hlt : g < xs.length := by
            by_contra hcon
            exact hd (List.drop_eq_nil_iff.2 (by omega))
          have hcne : chunks g (xs.drop g) ≠ [] := by
            rw [chunks_unfold g hg _ hd]; simp
          rw [List.dropLast_cons_of_ne_nil hcne] at hch
          rcases List.mem_cons.1 hch with h1 | h1
          · rw [h1, List.length_take]; omega
          · exact ih2 ch h1

/-! ## The statements about the clause builders -/

/-- C13 at negative numbers: `Placeholders` panics exactly when `start` or `group` is `0`;
for `start = -1` (a number below `1`) it returns `$-1,$0`, and for `group = -2` it returns
a flat list. -/
theorem Placeholders_panic_iff_zero :
    (∀ (indexed : Bool) (count start group : Int),
        Placeholders indexed count start group = none ↔ (start = 0 ∨ group = 0)) ∧
      Placeholders true 2 (-1) 1 = some (goBytes "$-1,$0") ∧
      Placeholders true 2 1 (-2) = some (goBytes "$1,$2") := by
  refine ⟨?_, by decide, by decide⟩
  intro indexed count start group
  by_cases h : start = 0 ∨ group = 0
  · simp [Placeholders, h]
  · rw [Placeholders_eq indexed count start group h]
    simp [h]

/-- C14, as stated, fails: with group `0` both calls of the claim panic. -/
theorem Placeholders_group_zero_counterexample :
    Placeholders true 3 1 0 = none ∧ Placeholders false 3 0 0 = none := by
  refine ⟨by decide, by decide⟩

/-- C14, amended: with group `1` the placeholders are emitted as one flat comma-separated
list, `$1,$2,$3` for indexed placeholders from `1` and `?,?,?` otherwise; with group `0`
(and with start `0`) the call panics. -/
theorem Placeholders_flat_group_one :
    Placeholders true 3 1 1 = some (goBytes "$1,$2,$3") ∧
      Placeholders false 3 1 1 = some (goBytes "?,?,?") ∧
      (∀ (indexed : Bool) (count start : Int), Placeholders indexed count start 0 = none) ∧
      (∀ (indexed : Bool) (count group : Int), Placeholders indexed count 0 group = none) := by
  refine ⟨by decide, by decide, ?_, ?_⟩
  · intro indexed count start; simp [Placeholders]
  · intro indexed count group; simp [Placeholders]

/-- C15, as stated, fails: the number `start + i` is computed in the 64-bit type `int` and
wraps around. For `start` the largest `int` and two placeholders the second number is the
least `int`, not the decimal of `start + 1`. -/
theorem Placeholders_wrap_counterexample :
    (1 : Int) ≤ 9223372036854775807 ∧
      Placeholders true 2 9223372036854775807 1
        = some (goBytes "$9223372036854775807,$-9223372036854775808") ∧
      [44].intercalate (placeholderList true 2 9223372036854775807)
        = goBytes "$9223372036854775807,$9223372036854775808" ∧
      Placeholders true 2 9223372036854775807 1
        ≠ some ([44].intercalate (placeholderList true 2 9223372036854775807)) := by
  refine ⟨by decide, by decide, by decide, by decide⟩

/-- C15, amended: for `start ≥ 1`, `group ≥ 1` and `count ≥ 1` with
`start + count - 1` at most the largest `int` (`2^63 - 1`), `Placeholders` renders the
`count` placeholders (`$` and the decimal of `start + i` when indexed, `?` otherwise) as a
flat comma-joined list when `group = 1`, and otherwise cut into consecutive chunks of
`group` placeholders (the last possibly shorter), each chunk comma-joined inside its own
parentheses and the chunks joined by commas; `Placeholders(true, 6, 1, 3)` is
`($1,$2,$3),($4,$5,$6)`. -/
theorem Placeholders_spec (indexed : Bool) (count start group : Int)
    (hs : 1 ≤ start) (hg : 1 ≤ group) (hc : 1 ≤ count)
    (hb : start + count - 1 ≤ 9223372036854775807) :
    Placeholders indexed count start group
        = some (if group = 1 then [44].intercalate (placeholderList indexed count start)
            else [44].intercalate
              ((chunks group.toNat (placeholderList indexed count start)).map
                (fun ch => [40] ++ [44].intercalate ch ++ [41]))) ∧
      placeholderList indexed count start
        = (List.range count.toNat).map
            (fun (i : Nat) => if indexed then [36] ++ fmtInt (start + (i : Int)) else [63]) ∧
      (chunks group.toNat (placeholderList indexed count start)).flatten
        = placeholderList indexed count start ∧
      (∀ ch ∈ chunks group.toNat (placeholderList indexed count start),
        1 ≤ ch.length ∧ ch.length ≤ group.toNat) ∧
      (∀ ch ∈ (chunks group.toNat (placeholderList indexed count start)).dropLast,
        ch.length = group.toNat) ∧
      Placeholders true 6 1 3 = some (goBytes "($1,$2,$3),($4,$5,$6)") := by
  have hgn : 1 ≤ group.toNat := by omega
  have hlen : (placeholderList indexed count start).length = count.toNat := by
    simp [placeholderList]
  have hne : placeholderList indexed count start ≠ [] := by
    intro h
    rw [h] at hlen
    simp at hlen
    omega
  refine ⟨?_, rfl, chunks_flatten _ hgn _ _ (Nat.le_refl _),
    (chunks_lengths _ hgn _ _ (Nat.le_refl _)).1,
    (chunks_lengths _ hgn _ _ (Nat.le_refl _)).2, by decide⟩
  rw [Placeholders_eq indexed count start group (by omega),
    machinePlaceholderList_eq indexed count start (by omega)]
  by_cases h1 : group = 1
  · have hng : ¬ group > 1 := by omega
    simp only [h1, if_true]
    rw [h1] at hng
    simp only [hng, if_false, decide_False, List.nil_append, List.append_nil]
    rw [placeholderPieces_single false _ _ (fun h => by cases h) hne]
  · have hgt : group > 1 := by omega
    simp only [h1, if_false, hgt, if_true, decide_True]
    rw [placeholderPieces_chunks _ hgn _ _ (Nat.le_refl _) hne]

/-- Witness of C15: seven indexed placeholders from `1` in groups of three. -/
theorem Placeholders_spec_witness :
    (1 : Int) ≤ 1 ∧ (1 : Int) ≤ 3 ∧ (1 : Int) ≤ 7 ∧
      (1 : Int) + 7 - 1 ≤ 9223372036854775807 ∧
      Placeholders true 7 1 3 = some (goBytes "($1,$2,$3),($4,$5,$6),($7)") ∧
      (Placeholders true 7 1 3
          = some (if (3 : Int) = 1 then [44].intercalate (placeholderList true 7 1)
              else [44].intercalate
                ((chunks (3 : Int).toNat (placeholderList true 7 1)).map
                  (fun ch => [40] ++ [44].intercalate ch ++ [41]))) ∧
        placeholderList true 7 1
          = (List.range (7 : Int).toNat).map
              (fun (i : Nat) => if true then [36] ++ fmtInt (1 + (i : Int)) else [63]) ∧
        (chunks (3 : Int).toNat (placeholderList true 7 1)).flatten = placeholderList true 7 1 ∧
        (∀ ch ∈ chunks (3 : Int).toNat (placeholderList true 7 1),
          1 ≤ ch.length ∧ ch.length ≤ (3 : Int).toNat) ∧
        (∀ ch ∈ (chunks (3 : Int).toNat (placeholderList true 7 1)).dropLast,
          ch.length = (3 : Int).toNat) ∧
        Placeholders true 6 1 3 = some (goBytes "($1,$2,$3),($4,$5,$6)")) :=
  ⟨by decide, by decide, by decide, by decide, by decide,
    Placeholders_spec true 7 1 3 (by decide) (by decide) (by decide) (by decide)⟩

theorem whereLoop_eq (lq rq : GoString) (start : Int) (n : Nat) (cs : List GoString) :
    ∀ (i : Nat) (buf : GoString), i + cs.length = n →
      whereLoop lq rq start n cs i buf
        = buf ++ (goBytes " AND ").intercalate (machineEntries lq rq start cs i) := by
  induction cs with
  | nil => intro i buf _; simp [whereLoop, machineEntries, List.intercalate]
  | cons c cs ih =>
    intro i buf hn
    simp only [List.length_cons] at hn
    rw [whereLoop, machineEntries]
    by_cases hcs : cs = []
    · subst hcs
      have hlast : ¬ ((i : Int) < (n : Int) - 1) := by simp at hn; omega
      simp only [hlast, if_false, whereLoop, machineEntries, intercalate_singleton]
      by_cases h0 : start = 0 <;> simp [h0]
    · have hpos : 0 < cs.length := List.length_pos.2 hcs
      have hlt : (i : Int) < (n : Int) - 1 := by omega
      have hne : machineEntries lq rq start cs (i + 1) ≠ [] := by
        cases cs with
        | nil => exact absurd rfl hcs
        | cons d ds => simp [machineEntries]
      simp only [hlt, if_true]
      rw [ih (i + 1) _ (by omega), intercalate_cons_of_ne_nil _ _ _ hne]
      by_cases h0 : start = 0 <;> simp [h0, List.append_assoc]

theorem setParamLoop_eq (lq rq : GoString) (start : Int) (n : Nat) (cs : List GoString) :
    ∀ (i : Nat) (buf : GoString), i + cs.length = n →
      setParamLoop lq rq start n cs i buf
        = buf ++ [44].intercalate (machineEntries lq rq start cs i) := by
  induction cs with
  | nil => intro i buf _; simp [setParamLoop, machineEntries, List.intercalate]
  | cons c cs ih =>
    intro i buf hn
    simp only [List.length_cons] at hn
    rw [setParamLoop, machineEntries, addInt64_comm (i : Int) start]
    by_cases hcs : cs = []
    · subst hcs
      have hlast : ¬ ((i : Int) < (n : Int) - 1) := by simp at hn; omega
      simp only [hlast, if_false, setParamLoop, machineEntries, intercalate_singleton]
      by_cases h0 : start = 0 <;> simp [h0]
    · have hpos : 0 < cs.length := List.length_pos.2 hcs
      have hlt : (i : Int) < (n : Int) - 1 := by omega
      have hne : machineEntries lq rq start cs (i + 1) ≠ [] := by
        cases cs with
        | nil => exact absurd rfl hcs
        | cons d ds => simp [machineEntries]
      simp only [hlt, if_true]
      rw [ih (i + 1) _ (by omega), intercalate_cons_of_ne_nil _ _ _ hne]
      by_cases h0 : start = 0 <;> simp [h0, List.append_assoc]

theorem WhereClause_eq (lq rq : GoString) (start : Int) (cols : List GoString) :
    WhereClause lq rq start cols
      = (goBytes " AND ").intercalate (machineEntries lq rq start cols 0) := by
  rw [WhereClause, whereLoop_eq lq rq start cols.length cols 0 GetBuffer (by simp)]
  simp [GetBuffer]

theorem SetParamNames_eq (lq rq : GoString) (start : Int) (fields : List GoString) :
    SetParamNames lq rq start fields
      = [44].intercalate (machineEntries lq rq start fields 0) := by
  rw [SetParamNames, setParamLoop_eq lq rq start fields.length fields 0 GetBuffer (by simp)]
  simp [GetBuffer]

theorem machineEntries_eq (lq rq : GoString) (start : Int) (cs : List GoString) :
    ∀ i : Nat, start + ((i + cs.length : Nat) : Int) ≤ 9223372036854775808 →
      machineEntries lq rq start cs i = clauseEntries lq rq start cs i := by
  induction cs with
  | nil => intro i _; simp [machineEntries, clauseEntries]
  | cons c cs ih =>
    intro i hb
    simp only [List.length_cons] at hb
    rw [machineEntries, clauseEntries, ih (i + 1) (by push_cast at hb ⊢; omega),
      addInt64_eq start (i : Int) (Int.ofNat_nonneg i) (by push_cast at hb; omega)]

theorem clauseEntries_numbers (lq rq : GoString) (start : Int) (h0 : start ≠ 0)
    (cs : List GoString) :
    ∀ i : Nat, clauseEntries lq rq start cs i
      = List.zipWith (fun c (n : Int) => lq ++ c ++ rq ++ goBytes "=$" ++ fmtInt n) cs
          (entryNumbers start cs i) := by
  induction cs with
  | nil => intro i; simp [clauseEntries, entryNumbers]
  | cons c cs ih =>
    intro i
    simp only [clauseEntries, entryNumbers, List.zipWith_cons_cons, ih (i + 1), h0, ne_eq,
      not_false_eq_true, if_true]

theorem entryNumbers_eq (start : Int) (cs : List GoString) :
    ∀ i : Nat, entryNumbers start cs i
      = (List.range' i cs.length).map (fun (k : Nat) => start + (k : Int)) := by
  induction cs with
  | nil => intro i; simp [entryNumbers]
  | cons c cs ih =>
    intro i
    simp only [entryNumbers, ih (i + 1), List.length_cons, List.range'_succ, List.map_cons]

theorem whereRepeatedBody_append (lq rq : GoString) (start : Int) (cols : List GoString)
    (buf : GoString) (i : Nat) :
    whereRepeatedBody lq rq start cols buf i
      = buf ++ whereRepeatedBody lq rq start cols [] i := by
  unfold whereRepeatedBody
  by_cases hi : i = 0 <;> simp [hi, List.append_assoc]

theorem repeated_pieces (sep : GoString) (w : Nat → GoString) (n : Nat) :
    ∀ o : Nat,
      ((List.range' o n).map (fun i => (if i ≠ 0 then sep else []) ++ w i)).flatten
        = if n = 0 then []
          else (if o ≠ 0 then sep else []) ++ sep.intercalate ((List.range' o n).map w) := by
  induction n with
  | zero => intro o; simp
  | succ n ih =>
    intro o
    rw [List.range'_succ, List.map_cons, List.flatten_cons, ih (o + 1), List.map_cons]
    by_cases hn : n = 0
    · subst hn
      simp [intercalate_singleton]
    · have hne : (List.range' (o + 1) n).map w ≠ [] := by
        simp only [ne_eq, List.map_eq_nil_iff, List.range'_eq_nil]
        exact hn
      rw [intercalate_cons_of_ne_nil _ _ _ hne]
      simp [hn, List.append_assoc]

theorem WhereClauseRepeated_eq (lq rq : GoString) (start : Int) (cols : List GoString)
    (count : Int) :
    WhereClauseRepeated lq rq start cols count
      = [40] ++ (goBytes ") OR (").intercalate
          ((List.range count.toNat).map (fun (i : Nat) =>
            WhereClause lq rq
              (if start > 0 then addInt64 start (mulInt64 (i : Int) (cols.length : Int))
                else 0) cols))
          ++ [41] := by
  unfold WhereClauseRepeated
  simp only [GetBuffer, List.nil_append]
  rw [foldl_append_pieces _ (whereRepeatedBody_append lq rq start cols), List.range_eq_range']
  have hbody : whereRepeatedBody lq rq start cols []
      = (fun (i : Nat) => (if i ≠ 0 then goBytes ") OR (" else []) ++
          WhereClause lq rq
            (if start > 0 then addInt64 start (mulInt64 (i : Int) (cols.length : Int))
                else 0) cols) := by
    funext i
    unfold whereRepeatedBody
    by_cases hi : i = 0 <;> simp [hi]
  rw [hbody, repeated_pieces]
  by_cases hn : count.toNat = 0
  · simp [hn, List.intercalate]
  · simp [hn]

theorem group_numbers (start : Int) (len n : Nat) :
    ((List.range n).map (fun (i : Nat) =>
        (List.range' 0 len).map
          (fun (j : Nat) => start + (i : Int) * (len : Int) + (j : Int)))).flatten
      = (List.range (n * len)).map (fun (k : Nat) => start + (k : Int)) := by
  induction n with
  | zero => simp
  | succ n ih =>
    rw [List.range_succ, List.map_append, List.flatten_append, ih, Nat.succ_mul,
      List.range_add, List.map_append]
    congr 1
    simp only [List.map_cons, List.map_nil, List.flatten_cons, List.flatten_nil,
      List.append_nil, List.map_map, ← List.range_eq_range']
    apply List.map_congr_left
    intro j _
    simp only [Function.comp]
    push_cast
    omega

theorem clauseEntries_getElem? (lq rq : GoString) (start : Int) (cs : List GoString) :
    ∀ i k : Nat, (clauseEntries lq rq start cs i)[k]?
      = cs[k]?.map (fun c =>
          if start ≠ 0 then lq ++ c ++ rq ++ goBytes "=$" ++ fmtInt (start + ((i + k : Nat) : Int))
          else lq ++ c ++ rq ++ goBytes "=?") := by
  induction cs with
  | nil => intro i k; simp [clauseEntries]
  | cons c cs ih =>
    intro i k
    cases k with
    | zero => simp [clauseEntries]
    | succ k =>
      have e : i + 1 + k = i + (k + 1) := by omega
      simp only [clauseEntries, List.getElem?_cons_succ, ih (i + 1) k, e]

theorem IdentQuote_plain (lq rq : Nat) (c : GoString)
    (hm : Rx.matchString smartQuoteRgx c = true) (hdot : 46 ∉ c)
    (hnull : isNullToken c = false) (hl : c.head? ≠ some lq) (hr : c.getLast? ≠ some rq) :
    IdentQuote lq rq c = some ([lq] ++ c ++ [rq]) := by
  have hq : c ≠ goBytes "?" := by
    intro h; rw [h] at hm; revert hm; decide
  have hstar : c ≠ goBytes "*" := by
    intro h; rw [h] at hm; revert hm; decide
  rw [IdentQuote_eq, identQuoteSpec]
  have hcond : ¬ (isNullToken c = true ∨ c = goBytes "?" ∨
      Rx.matchString smartQuoteRgx c = false) := by
    rintro (h | h | h)
    · rw [hnull] at h; exact Bool.noConfusion h
    · exact hq h
    · rw [hm] at h; exact Bool.noConfusion h
  rw [if_neg hcond, splitOn_no_sep 46 c hdot]
  simp only [List.map_cons, List.map_nil, intercalate_singleton, quoteSegmentSpec]
  rw [if_neg]
  rintro (h | h | h)
  · exact hstar h
  · exact hl h
  · exact hr h

/-- C16, as stated, fails: the number `start + i` is computed in the 64-bit type `int` and
wraps around. For `start` the largest `int` and two columns the second number is the
least `int`, not the decimal of `start + 1`. -/
theorem WhereClause_wrap_counterexample :
    WhereClause [] [] 9223372036854775807 [goBytes "a", goBytes "b"]
        = goBytes "a=$9223372036854775807 AND b=$-9223372036854775808" ∧
      (goBytes " AND ").intercalate
          (clauseEntries [] [] 9223372036854775807 [goBytes "a", goBytes "b"] 0)
        = goBytes "a=$9223372036854775807 AND b=$9223372036854775808" ∧
      WhereClause [] [] 9223372036854775807 [goBytes "a", goBytes "b"]
        ≠ (goBytes " AND ").intercalate
            (clauseEntries [] [] 9223372036854775807 [goBytes "a", goBytes "b"] 0) := by
  refine ⟨by decide, by decide, by decide⟩

/-- C16, amended: when `start + len(cols) - 1` is at most the largest `int` (`2^63 - 1`),
`WhereClause lq rq start cols` is the ` AND `-join, over the columns in order, of the column
between `lq` and `rq` followed by `=$` and the decimal of `start + i` when `start` is not
`0`, and by `=?` when `start` is `0`; it is empty for no columns, and
`WhereClause("\"", "\"", 2, ["a", "b"])` is `"a"=$2 AND "b"=$3`. -/
theorem WhereClause_spec (lq rq : GoString) (start : Int) (cols : List GoString)
    (hb : start + (cols.length : Int) - 1 ≤ 9223372036854775807) :
    WhereClause lq rq start cols
        = (goBytes " AND ").intercalate (clauseEntries lq rq start cols 0) ∧
      (clauseEntries lq rq start cols 0).length = cols.length ∧
      (∀ i : Nat, (clauseEntries lq rq start cols 0)[i]?
        = cols[i]?.map (fun c =>
            if start ≠ 0 then lq ++ c ++ rq ++ goBytes "=$" ++ fmtInt (start + (i : Int))
            else lq ++ c ++ rq ++ goBytes "=?")) ∧
      WhereClause lq rq start [] = [] ∧
      WhereClause (goBytes "\"") (goBytes "\"") 2 [goBytes "a", goBytes "b"]
        = goBytes "\"a\"=$2 AND \"b\"=$3" := by
  refine ⟨?_, ?_, ?_, ?_, by decide⟩
  · rw [WhereClause_eq, machineEntries_eq lq rq start cols 0 (by push_cast; omega)]
  · have : ∀ (cs : List GoString) (i : Nat),
        (clauseEntries lq rq start cs i).length = cs.length := by
      intro cs
      induction cs with
      | nil => intro i; simp [clauseEntries]
      | cons c cs ih => intro i; simp [clauseEntries, ih (i + 1)]
    exact this cols 0
  · intro i
    have := clauseEntries_getElem? lq rq start cols 0 i
    simpa using this
  · simp [WhereClause, whereLoop, GetBuffer]

/-- Witness of C16: three quoted columns numbered from `5`. -/
theorem WhereClause_spec_witness :
    (5 : Int) + (([goBytes "a", goBytes "b", goBytes "c"].length : Nat) : Int) - 1
        ≤ 9223372036854775807 ∧
      WhereClause (goBytes "\"") (goBytes "\"") 5 [goBytes "a", goBytes "b", goBytes "c"]
        = goBytes "\"a\"=$5 AND \"b\"=$6 AND \"c\"=$7" ∧
      (WhereClause (goBytes "\"") (goBytes "\"") 5 [goBytes "a", goBytes "b", goBytes "c"]
          = (goBytes " AND ").intercalate
              (clauseEntries (goBytes "\"") (goBytes "\"") 5
                [goBytes "a", goBytes "b", goBytes "c"] 0) ∧
        (clauseEntries (goBytes "\"") (goBytes "\"") 5
            [goBytes "a", goBytes "b", goBytes "c"] 0).length
          = [goBytes "a", goBytes "b", goBytes "c"].length ∧
        (∀ i : Nat, (clauseEntries (goBytes "\"") (goBytes "\"") 5
            [goBytes "a", goBytes "b", goBytes "c"] 0)[i]?
          = [goBytes "a", goBytes "b", goBytes "c"][i]?.map (fun c =>
              if (5 : Int) ≠ 0 then
                goBytes "\"" ++ c ++ goBytes "\"" ++ goBytes "=$" ++ fmtInt (5 + (i : Int))
              else goBytes "\"" ++ c ++ goBytes "\"" ++ goBytes "=?")) ∧
        WhereClause (goBytes "\"") (goBytes "\"") 5 [] = [] ∧
        WhereClause (goBytes "\"") (goBytes "\"") 2 [goBytes "a", goBytes "b"]
          = goBytes "\"a\"=$2 AND \"b\"=$3") :=
  ⟨by decide, by decide,
    WhereClause_spec (goBytes "\"") (goBytes "\"") 5 [goBytes "a", goBytes "b", goBytes "c"]
      (by decide)⟩

/-- C17, as stated, fails: the numbers are computed in the 64-bit type `int` and wrap
around. For `start` the largest `int`, one column and two groups the second group is
`WhereClause` at the least `int`: the numbers of the output are the largest and then the
least `int`, which are not `start, start + 1` and do not increase. -/
theorem WhereClauseRepeated_wrap_counterexample :
    (1 : Int) ≤ 9223372036854775807 ∧ (1 : Int) ≤ 2 ∧
      WhereClauseRepeated [] [] 9223372036854775807 [goBytes "a"] 2
        = goBytes "(a=$9223372036854775807) OR (a=$-9223372036854775808)" ∧
      [40] ++ (goBytes ") OR (").intercalate
          ((List.range (2 : Int).toNat).map (fun (i : Nat) =>
            (goBytes " AND ").intercalate
              (clauseEntries [] [] (9223372036854775807 + (i : Int) * (1 : Int))
                [goBytes "a"] 0))) ++ [41]
        = goBytes "(a=$9223372036854775807) OR (a=$9223372036854775808)" ∧
      (List.range (2 : Int).toNat).map
          (fun (i : Nat) => addInt64 9223372036854775807 (mulInt64 (i : Int) (1 : Int)))
        = [9223372036854775807, -9223372036854775808] ∧
      ¬ ([9223372036854775807, -9223372036854775808] : List Int).Pairwise
          (fun a b => a < b) := by
  refine ⟨by decide, by decide, by decide, by decide, by decide, by decide⟩

/-- C17, amended: for `start ≥ 1` and `count ≥ 1` with `start + count * len(cols) - 1` at
most the largest `int` (`2^63 - 1`), `WhereClauseRepeated` is `(`, then the `) OR (`-join of
`WhereClause lq rq (start + i * len(cols)) cols` for `i` from `0` to `count - 1`, then `)`;
group `i` carries the numbers `start + i * len(cols) + j` in column order, so over the
whole output the numbers are `start`, `start + 1`, ..., `start + count * len(cols) - 1`,
in increasing order. -/
theorem WhereClauseRepeated_spec (lq rq : GoString) (start : Int) (cols : List GoString)
    (count : Int) (hs : 1 ≤ start) (hc : 1 ≤ count)
    (hb : start + count * (cols.length : Int) - 1 ≤ 9223372036854775807) :
    WhereClauseRepeated lq rq start cols count
        = [40] ++ (goBytes ") OR (").intercalate
            ((List.range count.toNat).map (fun (i : Nat) =>
              WhereClause lq rq (start + (i : Int) * (cols.length : Int)) cols)) ++ [41] ∧
      (∀ i : Nat, i < count.toNat →
        WhereClause lq rq (start + (i : Int) * (cols.length : Int)) cols
          = (goBytes " AND ").intercalate
              (List.zipWith (fun c (n : Int) => lq ++ c ++ rq ++ goBytes "=$" ++ fmtInt n) cols
                (entryNumbers (start + (i : Int) * (cols.length : Int)) cols 0))) ∧
      ((List.range count.toNat).map (fun (i : Nat) =>
          entryNumbers (start + (i : Int) * (cols.length : Int)) cols 0)).flatten
        = (List.range (count.toNat * cols.length)).map (fun (k : Nat) => start + (k : Int)) ∧
      ((List.range (count.toNat * cols.length)).map
        (fun (k : Nat) => start + (k : Int))).Pairwise (fun a b => a < b) := by
  have hcn : ((count.toNat : Nat) : Int) = count := Int.toNat_of_nonneg (by omega)
  have hgroup : ∀ i : Nat, i < count.toNat →
      (i : Int) * (cols.length : Int) + (cols.length : Int) ≤ count * (cols.length : Int) := by
    intro i hi
    have h1 : (i : Int) + 1 ≤ count := by omega
    have h2 := Int.mul_le_mul_of_nonneg_right h1 (Int.ofNat_nonneg cols.length)
    rw [Int.add_mul, Int.one_mul] at h2
    exact h2
  have hlen0 : (0 : Int) ≤ (cols.length : Int) := Int.ofNat_nonneg _
  have hzero : ∀ i : Nat, (cols.length : Int) = 0 → (i : Int) * (cols.length : Int) = 0 := by
    intro i h
    rw [h, Int.mul_zero]
  refine ⟨?_, ?_, ?_, ?_⟩
  · rw [WhereClauseRepeated_eq]
    have hpos : start > 0 := by omega
    simp only [hpos, if_true]
    congr 3
    apply List.map_congr_left
    intro i hi
    have hi2 := hgroup i (List.mem_range.1 hi)
    have hi3 := hzero i
    have hnn : (0 : Int) ≤ (i : Int) * (cols.length : Int) :=
      Int.mul_nonneg (Int.ofNat_nonneg i) hlen0
    rw [mulInt64_eq _ _ (Int.ofNat_nonneg i) hlen0 (by omega),
      addInt64_eq_of _ _ hnn (by omega)]
  · intro i hi
    have hi2 := hgroup i hi
    have hi3 := hzero i
    have hnn : (0 : Int) ≤ (i : Int) * (cols.length : Int) :=
      Int.mul_nonneg (Int.ofNat_nonneg i) hlen0
    have hne : start + (i : Int) * (cols.length : Int) ≠ 0 := by omega
    rw [WhereClause_eq, machineEntries_eq lq rq _ cols 0 (by push_cast; omega),
      clauseEntries_numbers lq rq _ hne]
  · have := group_numbers start cols.length count.toNat
    rw [← this]
    congr 1
    apply List.map_congr_left
    intro i _
    rw [entryNumbers_eq]
  · rw [List.pairwise_map]
    refine List.Pairwise.imp ?_ (List.pairwise_lt_range _)
    intro a b hab
    omega

/-- Witness of C17: two columns, three groups, numbering from `2`. -/
theorem WhereClauseRepeated_spec_witness :
    (1 : Int) ≤ 2 ∧ (1 : Int) ≤ 3 ∧
      (2 : Int) + 3 * (([goBytes "a", goBytes "b"].length : Nat) : Int) - 1
        ≤ 9223372036854775807 ∧
      WhereClauseRepeated (goBytes "\"") (goBytes "\"") 2 [goBytes "a", goBytes "b"] 3
        = goBytes "(\"a\"=$2 AND \"b\"=$3) OR (\"a\"=$4 AND \"b\"=$5) OR (\"a\"=$6 AND \"b\"=$7)" ∧
      (WhereClauseRepeated (goBytes "\"") (goBytes "\"") 2 [goBytes "a", goBytes "b"] 3
          = [40] ++ (goBytes ") OR (").intercalate
              ((List.range (3 : Int).toNat).map (fun (i : Nat) =>
                WhereClause (goBytes "\"") (goBytes "\"")
                  (2 + (i : Int) * (([goBytes "a", goBytes "b"].length : Nat) : Int))
                  [goBytes "a", goBytes "b"])) ++ [41] ∧
        (∀ i : Nat, i < (3 : Int).toNat →
          WhereClause (goBytes "\"") (goBytes "\"")
            (2 + (i : Int) * (([goBytes "a", goBytes "b"].length : Nat) : Int))
            [goBytes "a", goBytes "b"]
          = (goBytes " AND ").intercalate
              (List.zipWith
                (fun c (n : Int) => goBytes "\"" ++ c ++ goBytes "\"" ++ goBytes "=$" ++ fmtInt n)
                [goBytes "a", goBytes "b"]
                (entryNumbers (2 + (i : Int) * (([goBytes "a", goBytes "b"].length : Nat) : Int))
                  [goBytes "a", goBytes "b"] 0))) ∧
        ((List.range (3 : Int).toNat).map (fun (i : Nat) =>
            entryNumbers (2 + (i : Int) * (([goBytes "a", goBytes "b"].length : Nat) : Int))
              [goBytes "a", goBytes "b"] 0)).flatten
          = (List.range ((3 : Int).toNat * [goBytes "a", goBytes "b"].length)).map
              (fun (k : Nat) => 2 + (k : Int)) ∧
        ((List.range ((3 : Int).toNat * [goBytes "a", goBytes "b"].length)).map
          (fun (k : Nat) => (2 : Int) + (k : Int))).Pairwise (fun a b => a < b)) :=
  ⟨by decide, by decide, by decide, by decide,
    WhereClauseRepeated_spec (goBytes "\"") (goBytes "\"") 2 [goBytes "a", goBytes "b"] 3
      (by decide) (by decide) (by decide)⟩

/-- C18, as stated, fails: for the column `*` (and likewise `null` and `t.c`) the builders
wrap the whole name in the quotes, while `IdentQuote` returns `*`, `null` and
`"t"."c"`. -/
theorem clause_quoting_counterexample :
    WhereClause [34] [34] 1 [goBytes "*"] = goBytes "\"*\"=$1" ∧
      SetParamNames [34] [34] 1 [goBytes "*"] = goBytes "\"*\"=$1" ∧
      IdentQuote 34 34 (goBytes "*") = some (goBytes "*") ∧
      WhereClause [34] [34] 1 [goBytes "null"] = goBytes "\"null\"=$1" ∧
      IdentQuote 34 34 (goBytes "null") = some (goBytes "null") ∧
      WhereClause [34] [34] 1 [goBytes "t.c"] = goBytes "\"t.c\"=$1" ∧
      IdentQuote 34 34 (goBytes "t.c") = some (goBytes "\"t\".\"c\"") := by
  refine ⟨by decide, by decide, by decide, by decide, by decide, by decide, by decide⟩

/-- C18, amended: for one-byte quotes `lq`, `rq` and every column name `c`, what
`WhereClause` and `SetParamNames` emit before the `=` sign is `lq`, `c`, `rq` (the name is
wrapped as it is); this is what `IdentQuote lq rq c` returns whenever `c` matches the
identifier pattern, has no dot, is not `null` in any letter case, does not start with `lq`
and does not end with `rq`. -/
theorem clause_quoting_verbatim (lq rq : Nat) (c : GoString) (start : Int) :
    WhereClause [lq] [rq] start [c]
        = ([lq] ++ c ++ [rq]) ++ (if start ≠ 0 then goBytes "=$" ++ fmtInt start
            else goBytes "=?") ∧
      SetParamNames [lq] [rq] start [c]
        = ([lq] ++ c ++ [rq]) ++ (if start ≠ 0 then goBytes "=$" ++ fmtInt start
            else goBytes "=?") ∧
      (Rx.matchString smartQuoteRgx c = true → 46 ∉ c → isNullToken c = false →
        c.head? ≠ some lq → c.getLast? ≠ some rq →
        IdentQuote lq rq c = some ([lq] ++ c ++ [rq])) ∧
      IdentQuote 34 34 (goBytes "user_id") = some ([34] ++ goBytes "user_id" ++ [34]) := by
  refine ⟨?_, ?_, ?_, by decide⟩
  · rw [WhereClause_eq]
    by_cases h0 : start = 0 <;>
      simp [machineEntries, addInt64_zero, intercalate_singleton, h0, List.append_assoc]
  · rw [SetParamNames_eq]
    by_cases h0 : start = 0 <;>
      simp [machineEntries, addInt64_zero, intercalate_singleton, h0, List.append_assoc]
  · intro hm hdot hnull hl hr
    exact IdentQuote_plain lq rq c hm hdot hnull hl hr

/-! ## Properties of the context window and of the slice comparison -/

theorem astErrorLoop_eq (lineNum : Int) (rest : List GoString) :
    ∀ (line : Int) (errBuf : GoString),
      astErrorLoop lineNum rest line errBuf
        = errBuf ++ renderLines fmtSpace4d lineNum (max line (lineNum - 5))
            ((rest.take (lineNum + 6 - line).toNat).drop (lineNum - 5 - line).toNat) := by
  induction rest with
  | nil => intro line errBuf; simp [astErrorLoop, renderLines]
  | cons text rest ih =>
    intro line errBuf
    rw [astErrorLoop]
    by_cases hlow : line - lineNum < -5
    · -- before the window
      have hcond : line - lineNum < -5 ∨ line - lineNum > 5 := Or.inl hlow
      have e1 : (lineNum + 6 - line).toNat = (lineNum + 6 - (line + 1)).toNat + 1 := by omega
      have e2 : (lineNum - 5 - line).toNat = (lineNum - 5 - (line + 1)).toNat + 1 := by omega
      have e3 : max line (lineNum - 5) = max (line + 1) (lineNum - 5) := by omega
      simp only [hcond, if_true]
      rw [ih (line + 1) errBuf, e1, e2, e3, List.take_succ_cons, List.drop_succ_cons]
    · by_cases hhigh : line - lineNum > 5
      · -- after the window
        have hcond : line - lineNum < -5 ∨ line - lineNum > 5 := Or.inr hhigh
        have e1 : (lineNum + 6 - line).toNat = 0 := by omega
        have e2 : (lineNum + 6 - (line + 1)).toNat = 0 := by omega
        simp only [hcond, if_true]
        rw [ih (line + 1) errBuf, e1, e2]
        simp [renderLines]
      · -- inside the window
        have hcond : ¬ (line - lineNum < -5 ∨ line - lineNum > 5) := by omega
        have e1 : (lineNum + 6 - line).toNat = (lineNum + 6 - (line + 1)).toNat + 1 := by omega
        have e2 : (lineNum - 5 - line).toNat = 0 := by omega
        have e3 : (lineNum - 5 - (line + 1)).toNat = 0 := by omega
        have e4 : max line (lineNum - 5) = line := by omega
        have e5 : max (line + 1) (lineNum - 5) = line + 1 := by omega
        simp only [hcond, if_false]
        rw [ih (line + 1) _, e1, e2, e3, e4, e5, List.take_succ_cons, List.drop_zero,
          List.drop_zero, renderLines]
        by_cases hl : line = lineNum <;> simp [hl, List.append_assoc]

theorem processAstError_eq (lineNum : Int) (lines : List GoString) :
    processAstError lineNum lines = contextWindowSpec fmtSpace4d lineNum lines := by
  rw [processAstError, astErrorLoop_eq, contextWindowSpec]
  have e1 : (lineNum - 5 - 1).toNat = (max 1 (lineNum - 5) - 1).toNat := by omega
  have e2 : List.take (lineNum + 6 - 1).toNat lines
      = List.take (min (lines.length : Int) (lineNum + 5)).toNat lines := by
    by_cases h : (lineNum + 5).toNat ≤ lines.length
    · have : (min (lines.length : Int) (lineNum + 5)).toNat = (lineNum + 6 - 1).toNat := by
        omega
      rw [this]
    · have h1 : (min (lines.length : Int) (lineNum + 5)).toNat = lines.length := by omega
      rw [h1, List.take_length, List.take_of_length_le (by omega)]
  simp only [List.nil_append]
  rw [e1, e2]

theorem sliceFound_eq (aval : String) (b : List String) :
    sliceFound aval b = decide (aval ∈ b) := by
  induction b with
  | nil => simp [sliceFound]
  | cons bval bs ih =>
    by_cases h : bval = aval
    · simp [sliceFound, h]
    · have h2 : ¬ aval = bval := fun e => h e.symm
      simp [sliceFound, h, h2, ih]

theorem sliceMatchLoop_eq (b a : List String) :
    sliceMatchLoop b a = true ↔ ∀ x ∈ a, x ∈ b := by
  induction a with
  | nil => simp [sliceMatchLoop]
  | cons aval as ih =>
    by_cases h : aval ∈ b
    · simp [sliceMatchLoop, sliceFound_eq, h, ih]
    · simp [sliceMatchLoop, sliceFound_eq, h]

/-! ## The statements about the context window and the slice comparison -/

/-- C19, as stated, fails for line numbers from 1000 on: for a source of 1001 empty lines
and an error on line 1001, the line numbered 1000 is prefixed with a space, `1000` and a
space, which is one byte more than the number padded to width 4 and a space. -/
theorem contextWindow_width_counterexample :
    processAstError 1001 (List.replicate 1001 [])
        = goBytes " 996 \n 997 \n 998 \n 999 \n 1000 \n>>>> \n" ∧
      contextWindowSpec padWidth4 1001 (List.replicate 1001 [])
        = goBytes " 996 \n 997 \n 998 \n 999 \n1000 \n>>>> \n" := by
  have hwin : ∀ p : Int → GoString,
      contextWindowSpec p 1001 (List.replicate 1001 [])
        = renderLines p 1001 996 (List.replicate 6 []) := by
    intro p
    have h1 : (min (((List.replicate 1001 ([] : GoString)).length : Nat) : Int)
        (1001 + 5)).toNat = 1001 := by
      rw [List.length_replicate]; decide
    have h2 : (max (1 : Int) (1001 - 5) - 1).toNat = 995 := by decide
    have h3 : max (1 : Int) (1001 - 5) = 996 := by decide
    rw [contextWindowSpec]
    simp only [h1, h2, h3, List.take_replicate, List.drop_replicate]
    rfl
  rw [processAstError_eq, hwin, hwin]
  refine ⟨by decide, by decide⟩

theorem fmtSpace4d_nonneg (n : Int) (h : 0 ≤ n) :
    fmtSpace4d n = List.replicate (3 - (fmtInt n).length) 32 ++ [32] ++ fmtInt n := by
  have hn : ¬ n < 0 := by omega
  have e : 4 - ([32] ++ fmtInt n).length = 3 - (fmtInt n).length := by
    simp only [List.length_append, List.length_singleton]; omega
  simp only [fmtSpace4d, hn, if_false, e, List.append_assoc]

set_option maxRecDepth 200000 in
theorem fmtSpace4d_small : ∀ n : Nat, n < 1000 → fmtSpace4d (n : Int) = padWidth4 (n : Int) := by
  decide

/-- C19, amended: the context window consists of exactly the source lines numbered
`max(1, L-5)` through `min(N, L+5)`, in order and one per output line; the line numbered
`L` is prefixed with the marker `>>>> ` and every other line with its own 1-based number
in the format `% 4d` and a space: a blank sign column and the digits, left-padded with
spaces to width 4, which is the number padded to width 4 up to 999 and one space before
the digits from 1000 on. -/
theorem processAstError_window (lineNum : Int) (lines : List GoString) :
    processAstError lineNum lines
        = renderLines fmtSpace4d lineNum (max 1 (lineNum - 5))
            ((lines.take (min (lines.length : Int) (lineNum + 5)).toNat).drop
              (max 1 (lineNum - 5) - 1).toNat) ∧
      (∀ (num : Int) (text : GoString) (rest : List GoString),
        renderLines fmtSpace4d lineNum num (text :: rest)
          = (if num = lineNum then goBytes ">>>> " else fmtSpace4d num ++ goBytes " ")
              ++ text ++ [10] ++ renderLines fmtSpace4d lineNum (num + 1) rest) ∧
      (∀ n : Int, 0 ≤ n →
        fmtSpace4d n = List.replicate (3 - (fmtInt n).length) 32 ++ [32] ++ fmtInt n) ∧
      (∀ n : Nat, n < 1000 → fmtSpace4d (n : Int) = padWidth4 (n : Int)) ∧
      fmtSpace4d 1000 = goBytes " 1000" := by
  refine ⟨?_, ?_, fmtSpace4d_nonneg, fmtSpace4d_small, by decide⟩
  · rw [processAstError_eq]; rfl
  · intro num text rest
    rfl

/-- C20 at slices with repeated elements: `StringSliceMatch` returns true exactly when
the lengths are equal and every element of `a` occurs in `b`; for `a = ["x", "x"]` and
`b = ["x", "y"]` it returns true although `"y"` does not occur in `a`, and false with the
arguments exchanged. -/
theorem StringSliceMatch_one_sided :
    (∀ a b : List String,
        StringSliceMatch a b = true ↔ (a.length = b.length ∧ ∀ x ∈ a, x ∈ b)) ∧
      StringSliceMatch ["x", "x"] ["x", "y"] = true ∧
      "y" ∉ ["x", "x"] ∧
      StringSliceMatch ["x", "y"] ["x", "x"] = false := by
  refine ⟨?_, ?_, by decide, ?_⟩
  · intro a b
    by_cases hlen : a.length = b.length
    · simp [StringSliceMatch, hlen, sliceMatchLoop_eq]
    · simp [StringSliceMatch, hlen]
  · simp [StringSliceMatch, sliceMatchLoop, sliceFound]
  · simp [StringSliceMatch, sliceMatchLoop, sliceFound]

/-! ## The derivative matcher decides the denoted language -/

theorem Rx.nullable_of_matches (r : Rx) (w : List Nat) (h : Rx.Matches r w) :
    w = [] → r.nullable = true := by
  induction h with
  | eps => intro _; rfl
  | cls p c hc => intro h; cases h
  | seq r s u v _ _ ih1 ih2 =>
    intro h
    have := List.append_eq_nil.1 h
    simp [Rx.nullable, ih1 this.1, ih2 this.2]
  | altLeft r s u _ ih => intro h; simp [Rx.nullable, ih h]
  | altRight r s u _ ih => intro h; simp [Rx.nullable, ih h]
  | starNil r => intro _; rfl
  | starCons r u v _ _ _ _ => intro _; rfl

theorem Rx.deriv_of_matches (r : Rx) (v : List Nat) (h : Rx.Matches r v) :
    ∀ (c : Nat) (w : List Nat), v = c :: w → Rx.Matches (Rx.deriv c r) w := by
  induction h with
  | eps => intro c w h; cases h
  | cls p c0 hc =>
    intro c w h
    cases h
    simp only [Rx.deriv, hc, if_true]
    exact Rx.Matches.eps
  | seq r s u v hu hv ih1 ih2 =>
    intro c w h
    cases u with
    | nil =>
      have hn : r.nullable = true := Rx.nullable_of_matches r [] hu rfl
      simp only [Rx.deriv, hn, if_true]
      exact Rx.Matches.altRight _ _ _ (ih2 c w h)
    | cons c0 u0 =>
      simp only [List.cons_append, List.cons.injEq] at h
      obtain ⟨rfl, rfl⟩ := h
      have h1 := Rx.Matches.seq _ s u0 v (ih1 c0 u0 rfl) hv
      by_cases hn : r.nullable = true
      · simp only [Rx.deriv, hn, if_true]
        exact Rx.Matches.altLeft _ _ _ h1
      · simp only [Rx.deriv, hn, Bool.false_eq_true, if_false]
        exact h1
  | altLeft r s u _ ih =>
    intro c w h
    exact Rx.Matches.altLeft _ _ _ (ih c w h)
  | altRight r s u _ ih =>
    intro c w h
    exact Rx.Matches.altRight _ _ _ (ih c w h)
  | starNil r => intro c w h; cases h
  | starCons r u v hu hv ih1 ih2 =>
    intro c w h
    cases u with
    | nil => exact ih2 c w h
    | cons c0 u0 =>
      simp only [List.cons_append, List.cons.injEq] at h
      obtain ⟨rfl, rfl⟩ := h
      exact Rx.Matches.seq _ _ u0 v (ih1 c0 u0 rfl) hv

theorem Rx.matchString_iff (w : List Nat) :
    ∀ r : Rx, Rx.matchString r w = true ↔ Rx.Matches r w := by
  induction w with
  | nil =>
    intro r
    exact ⟨Rx.matches_of_nullable r, fun h => Rx.nullable_of_matches r [] h rfl⟩
  | cons c cs ih =>
    intro r
    constructor
    · exact Rx.matches_of_matchString (c :: cs) r
    · intro h
      exact (ih _).2 (Rx.deriv_of_matches r (c :: cs) h c cs rfl)

/-! ## Properties of the removal of unused imports -/

theorem mem_mapSet {ν : Type} (m : List (String × ν)) (k : String) (v : ν) (e : String × ν) :
    e ∈ mapSet m k v ↔ e = (k, v) ∨ (e ∈ m ∧ e.1 ≠ k) := by
  simp [mapSet, List.mem_filter]

theorem visitNode_decls (toName : String → String)
    (state : List (String × ImportSpec) × List String) (node : AstNode)
    (e : String × ImportSpec) (he : e ∈ (visitNode toName state node).1) :
    e ∈ state.1 ∨
      (node = AstNode.importSpec e.2 ∧ e.1 = declKey toName e.2 ∧
        ¬ (e.2.name = "" ∧ e.2.path = "C")) := by
  cases node with
  | importSpec v =>
    by_cases hn : v.name = ""
    · by_cases hc : v.path = "C"
      · simp only [visitNode, hn, hc, ne_eq, not_true_eq_false, if_false, if_true] at he
        exact Or.inl he
      · simp only [visitNode, hn, hc, ne_eq, not_true_eq_false, if_false] at he
        rcases (mem_mapSet _ _ _ _).1 he with h | h
        · right
          subst h
          exact ⟨rfl, by simp [declKey, hn], fun hh => hc hh.2⟩
        · exact Or.inl h.1
    · simp only [visitNode, hn, ne_eq, not_false_eq_true, if_true] at he
      rcases (mem_mapSet _ _ _ _).1 he with h | h
      · right
        subst h
        exact ⟨rfl, by simp [declKey, hn], fun hh => hn hh.1⟩
      · exact Or.inl h.1
  | selectorExpr x =>
    left
    cases x with
    | none => simpa [visitNode] using he
    | some pr =>
      obtain ⟨pkgName, hasObj⟩ := pr
      cases hasObj <;> simpa [visitNode] using he
  | other => left; simpa [visitNode] using he

theorem mem_fileImports (nodes : List AstNode) (v : ImportSpec) :
    v ∈ fileImports nodes ↔ AstNode.importSpec v ∈ nodes := by
  induction nodes with
  | nil => simp [fileImports]
  | cons node rest ih =>
    cases node with
    | importSpec w => simp [fileImports, ih]
    | selectorExpr x => simp [fileImports, ih]
    | other => simp [fileImports, ih]

theorem foldl_visitNode_decls (toName : String → String) (nodes : List AstNode) :
    ∀ (state : List (String × ImportSpec) × List String) (e : String × ImportSpec),
      e ∈ (nodes.foldl (visitNode toName) state).1 →
      e ∈ state.1 ∨
        (e.2 ∈ fileImports nodes ∧ e.1 = declKey toName e.2 ∧
          ¬ (e.2.name = "" ∧ e.2.path = "C")) := by
  induction nodes with
  | nil => intro state e he; exact Or.inl he
  | cons node rest ih =>
    intro state e he
    rw [List.foldl_cons] at he
    rcases ih _ e he with h | ⟨h1, h2, h3⟩
    · rcases visitNode_decls toName state node e h with h' | ⟨h1, h2, h3⟩
      · exact Or.inl h'
      · right
        refine ⟨?_, h2, h3⟩
        rw [mem_fileImports, h1]
        exact List.mem_cons_self _ _
    · right
      refine ⟨?_, h2, h3⟩
      rw [mem_fileImports] at h1 ⊢
      exact List.mem_cons_of_mem _ h1

theorem collectImports_decls (toName : String → String) (nodes : List AstNode)
    (e : String × ImportSpec) (he : e ∈ (collectImports toName nodes).1) :
    e.2 ∈ fileImports nodes ∧ e.1 = declKey toName e.2 ∧
      ¬ (e.2.name = "" ∧ e.2.path = "C") := by
  rcases foldl_visitNode_decls toName nodes ([], []) e he with h | h
  · simp at h
  · exact h

theorem unusedImportLoop_sound (refs : List String) (order : List (String × ImportSpec)) :
    ∀ (acc : List (String × String)) (c : String × String),
      c ∈ unusedImportLoop refs order acc →
      c ∈ acc ∨ ∃ e ∈ order, (e.1 ∉ refs ∧ e.1 ≠ "_" ∧ e.1 ≠ ".") ∧
        e.2.path = c.1 ∧ e.2.name = c.2 := by
  induction order with
  | nil => intro acc c hc; exact Or.inl hc
  | cons e rest ih =>
    intro acc c hc
    obtain ⟨pkg, is⟩ := e
    rw [unusedImportLoop] at hc
    by_cases hu : ¬ (pkg ∈ refs) ∧ pkg ≠ "_" ∧ pkg ≠ "."
    · rw [if_pos hu] at hc
      have hname : (if is.name ≠ "" then is.name else "") = is.name := by
        by_cases hn : is.name = "" <;> simp [hn]
      rw [hname] at hc
      rcases ih _ c hc with h | ⟨e0, he0, h0⟩
      · rcases (mem_mapSet _ _ _ _).1 h with h1 | h1
        · right
          refine ⟨(pkg, is), List.mem_cons_self _ _, hu, ?_, ?_⟩
          · rw [h1]
          · rw [h1]
        · exact Or.inl h1.1
      · exact Or.inr ⟨e0, List.mem_cons_of_mem _ he0, h0⟩
    · rw [if_neg hu] at hc
      rcases ih _ c hc with h | ⟨e0, he0, h0⟩
      · exact Or.inl h
      · exact Or.inr ⟨e0, List.mem_cons_of_mem _ he0, h0⟩

theorem unusedImportLoop_complete (refs : List String) (c : String × String)
    (order : List (String × ImportSpec)) :
    ∀ acc : List (String × String),
      (∀ e ∈ order, (e.1 ∉ refs ∧ e.1 ≠ "_" ∧ e.1 ≠ ".") → e.2.path = c.1 → e.2.name = c.2) →
      (c ∈ acc ∨ ∃ e ∈ order, (e.1 ∉ refs ∧ e.1 ≠ "_" ∧ e.1 ≠ ".") ∧
        e.2.path = c.1 ∧ e.2.name = c.2) →
      c ∈ unusedImportLoop refs order acc := by
  induction order with
  | nil =>
    intro acc _ h
    rcases h with h | ⟨e, he, _⟩
    · exact h
    · simp at he
  | cons e rest ih =>
    intro acc hsame h
    obtain ⟨pkg, is⟩ := e
    have hsame2 : ∀ e ∈ rest, (e.1 ∉ refs ∧ e.1 ≠ "_" ∧ e.1 ≠ ".") → e.2.path = c.1 →
        e.2.name = c.2 := fun e he => hsame e (List.mem_cons_of_mem _ he)
    rw [unusedImportLoop]
    by_cases hu : ¬ (pkg ∈ refs) ∧ pkg ≠ "_" ∧ pkg ≠ "."
    · rw [if_pos hu]
      have hname : (if is.name ≠ "" then is.name else "") = is.name := by
        by_cases hn : is.name = "" <;> simp [hn]
      rw [hname]
      apply ih _ hsame2
      rcases h with h | ⟨e0, he0, h0⟩
      · left
        by_cases hp : is.path = c.1
        · have hn := hsame (pkg, is) (List.mem_cons_self _ _) hu hp
          refine (mem_mapSet _ _ _ _).2 (Or.inl ?_)
          exact Prod.ext hp.symm hn.symm
        · exact (mem_mapSet _ _ _ _).2 (Or.inr ⟨h, fun hh => hp hh.symm⟩)
      · rcases List.mem_cons.1 he0 with h1 | h1
        · left
          subst h1
          refine (mem_mapSet _ _ _ _).2 (Or.inl ?_)
          exact Prod.ext h0.2.1.symm h0.2.2.symm
        · exact Or.inr ⟨e0, h1, h0⟩
    · rw [if_neg hu]
      apply ih _ hsame2
      rcases h with h | ⟨e0, he0, h0⟩
      · exact Or.inl h
      · rcases List.mem_cons.1 he0 with h1 | h1
        · subst h1
          exact absurd h0.1 hu
        · exact Or.inr ⟨e0, h1, h0⟩

theorem mem_deleteLoop (calls : List (String × String)) :
    ∀ (file : List ImportSpec) (s : ImportSpec),
      s ∈ deleteLoop calls file ↔
        (s ∈ file ∧ ∀ c ∈ calls, c.1 ≠ "C" → ¬ (s.name = c.2 ∧ s.unquoted = c.1)) := by
  induction calls with
  | nil => intro file s; simp [deleteLoop]
  | cons c rest ih =>
    intro file s
    obtain ⟨ipath, name⟩ := c
    rw [deleteLoop]
    by_cases hc : ipath = "C"
    · rw [if_pos hc, ih]
      simp [hc]
    · rw [if_neg hc, ih]
      simp only [DeleteNamedImport, List.mem_filter, Bool.not_eq_eq_eq_not, Bool.not_true,
        decide_eq_false_iff_not, List.mem_cons, forall_eq_or_imp, ne_eq, hc, not_false_eq_true,
        true_implies]
      tauto

theorem declKey_eq_of_same (toName : String → String) (s1 s2 : ImportSpec)
    (hn : s1.name = s2.name) (hp : s1.path = s2.path) : declKey toName s1 = declKey toName s2 := by
  simp [declKey, hn, hp]

/-! ## The statement about the unused imports -/

/-- A raw string literal as import path: `strings.Trim` keeps its back quotes, so the call
of `DeleteNamedImport` names a path that no import spec has, and the unreferenced import
stays in the file. -/
theorem removeUnusedImports_raw_literal :
    removeUnusedImports (fun p => p) [AstNode.importSpec ⟨"ff", "`fmt`", "fmt"⟩]
      = [⟨"ff", "`fmt`", "fmt"⟩] := by
  decide

/-- C21, as stated, fails: a dot import (alias `.`) that nothing references has an alias
that is not in the referenced set, is not `_`, and its path is not `C`, yet it is kept. -/
theorem removeUnusedImports_dot_counterexample :
    collectImports (fun p => p) [AstNode.importSpec ⟨".", "strings", "strings"⟩]
        = ([(".", ⟨".", "strings", "strings"⟩)], []) ∧
      "." ∉ ([] : List String) ∧ "." ≠ "_" ∧ "strings" ≠ "C" ∧
      removeUnusedImports (fun p => p) [AstNode.importSpec ⟨".", "strings", "strings"⟩]
        = [⟨".", "strings", "strings"⟩] := by
  refine ⟨by decide, by decide, by decide, by decide, by decide⟩

/-- C21, amended: for the maps `decls` and `refs` collected from the file, iterated in any
order, and an import declaration of `decls` whose path is a double-quoted literal without
escape sequences (`strings.Trim` and `strconv.Unquote` give the same path): it is deleted
only if its alias is not in `refs`, is neither `_` nor `.`, and its path is not `C`; it is
deleted whenever these hold and the unreferenced bindings of `decls` that import the same
path have the same name; and it is kept when its alias is referenced, which also holds for
a named import with any path literal. -/
theorem removeUnusedImports_spec (toName : String → String) (nodes : List AstNode)
    (declOrder : List (String × ImportSpec)) (unusedOrder : List (String × String))
    (hd : declOrder.Perm (collectImports toName nodes).1)
    (hu : unusedOrder.Perm (unusedImportLoop (collectImports toName nodes).2 declOrder [])) :
    (∀ pkg spec, (pkg, spec) ∈ (collectImports toName nodes).1 →
        spec.unquoted = spec.path →
        spec ∉ deleteLoop unusedOrder (fileImports nodes) →
        pkg ∉ (collectImports toName nodes).2 ∧ pkg ≠ "_" ∧ pkg ≠ "." ∧
          spec.path ≠ "C") ∧
      (∀ pkg spec, (pkg, spec) ∈ (collectImports toName nodes).1 →
        spec.unquoted = spec.path →
        (∀ a2 s2, (a2, s2) ∈ (collectImports toName nodes).1 →
          (a2 ∉ (collectImports toName nodes).2 ∧ a2 ≠ "_" ∧ a2 ≠ ".") →
          s2.path = spec.path → s2.name = spec.name) →
        pkg ∉ (collectImports toName nodes).2 → pkg ≠ "_" → pkg ≠ "." →
        spec.path ≠ "C" →
        spec ∉ deleteLoop unusedOrder (fileImports nodes)) ∧
      (∀ pkg spec, (pkg, spec) ∈ (collectImports toName nodes).1 →
        (spec.unquoted = spec.path ∨ spec.name ≠ "") →
        pkg ∈ (collectImports toName nodes).2 →
        spec ∈ deleteLoop unusedOrder (fileImports nodes)) := by
  have hcause : ∀ pkg spec, (pkg, spec) ∈ (collectImports toName nodes).1 →
      spec ∉ deleteLoop unusedOrder (fileImports nodes) →
      ∃ e ∈ (collectImports toName nodes).1,
        (e.1 ∉ (collectImports toName nodes).2 ∧ e.1 ≠ "_" ∧ e.1 ≠ ".") ∧
          e.2.path ≠ "C" ∧ e.2.name = spec.name ∧ e.2.path = spec.unquoted := by
    intro pkg spec hmem hdel
    obtain ⟨hfile, _, _⟩ := collectImports_decls toName nodes (pkg, spec) hmem
    rw [mem_deleteLoop] at hdel
    have hex : ∃ c ∈ unusedOrder, c.1 ≠ "C" ∧ spec.name = c.2 ∧ spec.unquoted = c.1 := by
      by_contra hcon
      apply hdel
      refine ⟨hfile, ?_⟩
      intro c hc hcC hmatch
      exact hcon ⟨c, hc, hcC, hmatch.1, hmatch.2⟩
    obtain ⟨c, hc, hcC, hname, hpath⟩ := hex
    have hc2 := hu.mem_iff.1 hc
    rcases unusedImportLoop_sound _ _ [] c hc2 with h | ⟨e, he, hunused, hp, hn⟩
    · simp at h
    · exact ⟨e, hd.mem_iff.1 he, hunused, by rw [hp]; exact hcC, hn.trans hname.symm,
        hp.trans hpath.symm⟩
  have hfirst : ∀ pkg spec, (pkg, spec) ∈ (collectImports toName nodes).1 →
      spec.unquoted = spec.path →
      spec ∉ deleteLoop unusedOrder (fileImports nodes) →
      pkg ∉ (collectImports toName nodes).2 ∧ pkg ≠ "_" ∧ pkg ≠ "." ∧
        spec.path ≠ "C" := by
    intro pkg spec hmem hplain hdel
    obtain ⟨_, hkey, _⟩ := collectImports_decls toName nodes (pkg, spec) hmem
    obtain ⟨e, he, hunused, heC, hn, hp⟩ := hcause pkg spec hmem hdel
    obtain ⟨_, hkey2, _⟩ := collectImports_decls toName nodes e he
    have hk : e.1 = pkg := by
      rw [hkey2]
      simp only at hkey
      rw [hkey]
      exact declKey_eq_of_same toName e.2 spec hn (hp.trans hplain)
    rw [hk] at hunused
    exact ⟨hunused.1, hunused.2.1, hunused.2.2, by rw [← hplain, ← hp]; exact heC⟩
  refine ⟨hfirst, ?_, ?_⟩
  · intro pkg spec hmem hplain hsame h1 h2 h3 h4 hin
    have hc : (spec.path, spec.name)
        ∈ unusedImportLoop (collectImports toName nodes).2 declOrder [] := by
      apply unusedImportLoop_complete
      · intro e he hun hp
        have he2 := hd.mem_iff.1 he
        exact hsame e.1 e.2 he2 hun hp
      · right
        exact ⟨(pkg, spec), hd.mem_iff.2 hmem, ⟨h1, h2, h3⟩, rfl, rfl⟩
    have hc2 := hu.mem_iff.2 hc
    rw [mem_deleteLoop] at hin
    exact hin.2 (spec.path, spec.name) hc2 h4 ⟨rfl, hplain⟩
  · intro pkg spec hmem hor href
    by_contra hdel
    rcases hor with hplain | hnamed
    · exact (hfirst pkg spec hmem hplain hdel).1 href
    · obtain ⟨_, hkey, _⟩ := collectImports_decls toName nodes (pkg, spec) hmem
      obtain ⟨e, he, hunused, _, hn, _⟩ := hcause pkg spec hmem hdel
      obtain ⟨_, hkey2, _⟩ := collectImports_decls toName nodes e he
      have hen : e.2.name ≠ "" := by rw [hn]; exact hnamed
      have hk : e.1 = pkg := by
        rw [hkey2]
        simp only at hkey
        rw [hkey]
        simp [declKey, hen, hnamed, hn]
      rw [hk] at hunused
      exact hunused.1 href

/-- Witness of C21: a file with two unreferenced names `a` and `b` of the path `fmt`, the
unreferenced import `os`, the referenced import `io`, a dot import, a blank import and a
named import of `C`, the maps iterated in the order of their lists. The imports `a` and
`os` are deleted. -/
theorem removeUnusedImports_spec_witness :
    removeUnusedImports (fun p => p)
        [AstNode.importSpec ⟨"a", "fmt", "fmt"⟩, AstNode.importSpec ⟨"b", "fmt", "fmt"⟩,
          AstNode.importSpec ⟨"", "os", "os"⟩, AstNode.importSpec ⟨"", "io", "io"⟩,
          AstNode.importSpec ⟨".", "strings", "strings"⟩,
          AstNode.importSpec ⟨"_", "driver", "driver"⟩, AstNode.importSpec ⟨"cc", "C", "C"⟩,
          AstNode.selectorExpr (some ("io", false)),
          AstNode.selectorExpr (some ("os", true)), AstNode.other]
      = [⟨"b", "fmt", "fmt"⟩, ⟨"", "io", "io"⟩, ⟨".", "strings", "strings"⟩,
          ⟨"_", "driver", "driver"⟩, ⟨"cc", "C", "C"⟩] ∧
    ∃ (nodes : List AstNode) (declOrder : List (String × ImportSpec))
      (unusedOrder : List (String × String)),
      nodes = [AstNode.importSpec ⟨"a", "fmt", "fmt"⟩, AstNode.importSpec ⟨"b", "fmt", "fmt"⟩,
          AstNode.importSpec ⟨"", "os", "os"⟩, AstNode.importSpec ⟨"", "io", "io"⟩,
          AstNode.importSpec ⟨".", "strings", "strings"⟩,
          AstNode.importSpec ⟨"_", "driver", "driver"⟩, AstNode.importSpec ⟨"cc", "C", "C"⟩,
          AstNode.selectorExpr (some ("io", false)),
          AstNode.selectorExpr (some ("os", true)), AstNode.other] ∧
      declOrder.Perm (collectImports (fun p => p) nodes).1 ∧
      unusedOrder.Perm (unusedImportLoop (collectImports (fun p => p) nodes).2 declOrder []) ∧
      ((∀ pkg spec, (pkg, spec) ∈ (collectImports (fun p => p) nodes).1 →
          spec.unquoted = spec.path →
          spec ∉ deleteLoop unusedOrder (fileImports nodes) →
          pkg ∉ (collectImports (fun p => p) nodes).2 ∧ pkg ≠ "_" ∧ pkg ≠ "." ∧
            spec.path ≠ "C") ∧
        (∀ pkg spec, (pkg, spec) ∈ (collectImports (fun p => p) nodes).1 →
          spec.unquoted = spec.path →
          (∀ a2 s2, (a2, s2) ∈ (collectImports (fun p => p) nodes).1 →
            (a2 ∉ (collectImports (fun p => p) nodes).2 ∧ a2 ≠ "_" ∧ a2 ≠ ".") →
            s2.path = spec.path → s2.name = spec.name) →
          pkg ∉ (collectImports (fun p => p) nodes).2 → pkg ≠ "_" → pkg ≠ "." →
          spec.path ≠ "C" →
          spec ∉ deleteLoop unusedOrder (fileImports nodes)) ∧
        (∀ pkg spec, (pkg, spec) ∈ (collectImports (fun p => p) nodes).1 →
          (spec.unquoted = spec.path ∨ spec.name ≠ "") →
          pkg ∈ (collectImports (fun p => p) nodes).2 →
          spec ∈ deleteLoop unusedOrder (fileImports nodes))) :=
  ⟨by decide, _, _, _, rfl, List.Perm.refl _, List.Perm.refl _,
    removeUnusedImports_spec (fun p => p) _ _ _ (List.Perm.refl _) (List.Perm.refl _)⟩

/-! ## Properties of the memoization -/

theorem TitleCase_cases (cache : TitleCache) (n : GoString) (hs : cacheSound cache) :
    ∃ (r : GoString) (cache1 : TitleCache),
      TitleCase cache n = some (r, cache1) ∧ titleCaseUncached n = some r ∧
      ((cacheGet cache n = some r ∧ cache1 = cache) ∨
        (cacheGet cache n = none ∧ cache1 = cacheSet cache n r)) := by
  cases hget : cacheGet cache n with
  | some val =>
    refine ⟨val, cache, ?_, hs n val hget, Or.inl ⟨rfl, rfl⟩⟩
    simp [TitleCase, hget]
  | none =>
    refine ⟨titleCaseSpec n, cacheSet cache n (titleCaseSpec n), ?_, titleCaseUncached_eq n,
      Or.inr ⟨rfl, rfl⟩⟩
    simp [TitleCase, hget, titleCaseUncached_eq]

theorem titleCaseCalls_sound (ns : List GoString) :
    ∀ cache : TitleCache, cacheSound cache →
      ∃ (rs : List GoString) (cache1 : TitleCache),
        titleCaseCalls cache ns = some (rs, cache1) ∧ cacheSound cache1 ∧
        List.Forall₂ (fun m r => titleCaseUncached m = some r) ns rs := by
  induction ns with
  | nil =>
    intro cache hs
    exact ⟨[], cache, rfl, hs, List.Forall₂.nil⟩
  | cons n ns ih =>
    intro cache hs
    obtain ⟨r, c1, hcall, hval, _⟩ := TitleCase_cases cache n hs
    have hs1 : cacheSound c1 := cacheSound_TitleCase cache c1 n r hs hcall
    obtain ⟨rs, c2, hrest, hs2, hall⟩ := ih c1 hs1
    refine ⟨r :: rs, c2, ?_, hs2, List.Forall₂.cons hval hall⟩
    simp [titleCaseCalls, hcall, hrest]

theorem titleCaseCalls_append (ns : List GoString) (n : GoString) :
    ∀ (cache cache1 cache2 : TitleCache) (rs : List GoString) (r : GoString),
      titleCaseCalls cache ns = some (rs, cache1) → TitleCase cache1 n = some (r, cache2) →
      titleCaseCalls cache (ns ++ [n]) = some (rs ++ [r], cache2) := by
  induction ns with
  | nil =>
    intro cache cache1 cache2 rs r h1 h2
    simp only [titleCaseCalls, Option.some.injEq, Prod.mk.injEq] at h1
    obtain ⟨rfl, rfl⟩ := h1
    simp [titleCaseCalls, h2]
  | cons m ns ih =>
    intro cache cache1 cache2 rs r h1 h2
    rw [titleCaseCalls] at h1
    cases hm : TitleCase cache m with
    | none => rw [hm] at h1; simp at h1
    | some res =>
      obtain ⟨r0, c0⟩ := res
      rw [hm] at h1
      cases hrest : titleCaseCalls c0 ns with
      | none => simp [hrest] at h1
      | some res2 =>
        obtain ⟨rs0, c3⟩ := res2
        simp only [hrest, Option.some.injEq, Prod.mk.injEq] at h1
        obtain ⟨rfl, rfl⟩ := h1
        have := ih c0 c3 cache2 rs0 r hrest h2
        simp [titleCaseCalls, hm, this]

/-! ## The statements about the memoization and the result buffer -/

/-- C22: after any sequence `ns` of `TitleCase` calls started from the empty cache, every
returned string is the uncached title-casing of its input and every cache entry holds the
uncached title-casing of its key; a further call on `n` returns the uncached title-casing
of `n`, leaves the cache as it is or adds the one entry for `n` (when `n` had none), and
every entry that was in the cache is still there with the same value. -/
theorem TitleCase_memo_transparent (ns : List GoString) (n : GoString) :
    ∃ (rs : List GoString) (cache : TitleCache) (r : GoString) (cache1 : TitleCache),
      titleCaseCalls [] ns = some (rs, cache) ∧
      List.Forall₂ (fun m r0 => titleCaseUncached m = some r0) ns rs ∧
      (∀ k v, cacheGet cache k = some v → titleCaseUncached k = some v) ∧
      TitleCase cache n = some (r, cache1) ∧
      titleCaseCalls [] (ns ++ [n]) = some (rs ++ [r], cache1) ∧
      titleCaseUncached n = some r ∧
      (∀ k v, cacheGet cache1 k = some v → titleCaseUncached k = some v) ∧
      (cache1 = cache ∨ (cacheGet cache n = none ∧ cache1 = cacheSet cache n r)) ∧
      (∀ k, k ≠ n → cacheGet cache1 k = cacheGet cache k) ∧
      (∀ k v, cacheGet cache k = some v → cacheGet cache1 k = some v) := by
  obtain ⟨rs, cache, hrun, hs, hall⟩ := titleCaseCalls_sound ns [] cacheSound_nil
  obtain ⟨r, cache1, hcall, hval, hcases⟩ := TitleCase_cases cache n hs
  have hs1 : cacheSound cache1 := cacheSound_TitleCase cache cache1 n r hs hcall
  refine ⟨rs, cache, r, cache1, hrun, hall, hs, hcall,
    titleCaseCalls_append ns n [] cache cache1 rs r hrun hcall, hval, hs1, ?_, ?_, ?_⟩
  · rcases hcases with ⟨_, h⟩ | ⟨h1, h2⟩
    · exact Or.inl h
    · exact Or.inr ⟨h1, h2⟩
  · intro k hk
    rcases hcases with ⟨_, h⟩ | ⟨_, h⟩
    · rw [h]
    · rw [h, cacheGet_cacheSet, if_neg hk]
  · intro k v hkv
    rcases hcases with ⟨_, h⟩ | ⟨h1, h⟩
    · rw [h]; exact hkv
    · have hk : k ≠ n := by
        intro e
        rw [e, h1] at hkv
        exact Option.noConfusion hkv
      rw [h, cacheGet_cacheSet, if_neg hk]
      exact hkv

/-- C24: for every `keys` and `strs`, `SortByKeys` makes no write outside its result
buffer (it returns), and the list it returns has exactly `len(strs)` entries: first the
keys that occur in `strs`, in `keys` order (as many as fit), then an empty string in
every position that no key filled. -/
theorem SortByKeys_buffer (keys strs : List String) :
    ∃ result : List String,
      SortByKeys keys strs = some result ∧
      result.length = strs.length ∧
      result = (keys.filter (fun v => decide (v ∈ strs))).take strs.length
        ++ List.replicate
            (strs.length - ((keys.filter (fun v => decide (v ∈ strs))).take strs.length).length)
            "" ∧
      SortByKeys keys [] = some [] ∧
      SortByKeys ["a", "a", "b"] ["b", "a"] = some ["a", "a"] ∧
      SortByKeys ["c", "a"] ["a", "a", "b"] = some ["a", "", ""] := by
  refine ⟨sortedPadded keys strs, SortByKeys_eq keys strs, ?_, rfl, ?_, ?_, ?_⟩
  · simp only [sortedPadded, List.length_append, List.length_replicate, List.length_take]
    omega
  · rw [SortByKeys_eq]; simp [sortedPadded]
  · simp [SortByKeys, sortOuter, sortInner]
  · simp [SortByKeys, sortOuter, sortInner]

/-! ## Properties of repeated quoting -/

theorem quoteSegmentSpec_idem (lq rq : Nat) (seg : GoString) :
    quoteSegmentSpec lq rq (quoteSegmentSpec lq rq seg) = quoteSegmentSpec lq rq seg := by
  by_cases h : seg = goBytes "*" ∨ seg.head? = some lq ∨ seg.getLast? = some rq
  · have : quoteSegmentSpec lq rq seg = seg := by simp only [quoteSegmentSpec, if_pos h]
    rw [this, this]
  · have hw : quoteSegmentSpec lq rq seg = [lq] ++ seg ++ [rq] := by
      simp only [quoteSegmentSpec, if_neg h]
    rw [hw]
    have h2 : [lq] ++ seg ++ [rq] = goBytes "*" ∨ ([lq] ++ seg ++ [rq]).head? = some lq ∨
        ([lq] ++ seg ++ [rq]).getLast? = some rq := Or.inr (Or.inl (by simp))
    simp only [quoteSegmentSpec, if_pos h2]

theorem quoteSegmentSpec_cases (lq rq : Nat) (seg : GoString) :
    quoteSegmentSpec lq rq seg = seg ∨ quoteSegmentSpec lq rq seg = [lq] ++ seg ++ [rq] := by
  by_cases h : seg = goBytes "*" ∨ seg.head? = some lq ∨ seg.getLast? = some rq
  · left; simp only [quoteSegmentSpec, if_pos h]
  · right; simp only [quoteSegmentSpec, if_neg h]

theorem quoteSegmentSpec_no_dot (lq rq : Nat) (hl : lq ≠ 46) (hr : rq ≠ 46) (seg : GoString)
    (hseg : 46 ∉ seg) : 46 ∉ quoteSegmentSpec lq rq seg := by
  rcases quoteSegmentSpec_cases lq rq seg with h | h
  · rw [h]; exact hseg
  · rw [h]
    simp only [List.mem_append, List.mem_singleton, not_or]
    exact ⟨⟨fun e => hl e.symm, hseg⟩, fun e => hr e.symm⟩

theorem splitOn_segments_no_sep (sep : Nat) (s : List Nat) :
    ∀ seg ∈ s.splitOn sep, sep ∉ seg := by
  intro seg hseg hmem
  have := splitOnP_no_sep (fun x => x == sep) s seg hseg sep hmem
  simp at this

theorem empty_mem_splitOn_cons (b : List Nat) : [] ∈ (46 :: b).splitOn 46 := by
  have := splitOn_append_sep_gen 46 [] b
  simp only [List.nil_append] at this
  rw [this]
  simp [List.splitOn]

theorem empty_mem_splitOn_append (a b : List Nat) (h : [] ∈ b.splitOn 46) :
    [] ∈ (a ++ 46 :: b).splitOn 46 := by
  rw [splitOn_append_sep_gen]
  exact List.mem_append_right _ h

theorem empty_mem_splitOn_nil : [] ∈ ([] : List Nat).splitOn 46 := by
  simp [List.splitOn]

theorem not_match_of_empty_segment (s : List Nat) (h : [] ∈ s.splitOn 46) :
    Rx.matchString smartQuoteRgx s = false := by
  cases hm : Rx.matchString smartQuoteRgx s with
  | false => rfl
  | true => exact absurd rfl ((splitDots_nonempty s hm).2 [] h)

theorem intercalate_cons_tail (sep x : List Nat) (b : List (List Nat)) :
    sep.intercalate (x :: b) = x ++ (if b = [] then [] else sep ++ sep.intercalate b) := by
  by_cases hb : b = []
  · subst hb; simp [intercalate_singleton]
  · rw [intercalate_cons_of_ne_nil _ _ _ hb, if_neg hb, List.append_assoc]

theorem intercalate_append_cons (sep y : List Nat) (b : List (List Nat)) :
    ∀ a : List (List Nat), a ≠ [] →
      sep.intercalate (a ++ y :: b) = sep.intercalate a ++ sep ++ sep.intercalate (y :: b) := by
  intro a
  induction a with
  | nil => intro h; exact absurd rfl h
  | cons x a ih =>
    intro _
    by_cases ha : a = []
    · subst ha
      rw [List.singleton_append, intercalate_cons_of_ne_nil _ _ _ (List.cons_ne_nil y b),
        intercalate_singleton]
    · have hne : a ++ y :: b ≠ [] := by simp
      rw [List.cons_append, intercalate_cons_of_ne_nil _ _ _ hne, ih ha,
        intercalate_cons_of_ne_nil _ _ _ ha]
      simp only [List.append_assoc]

theorem empty_segment_of_wrapped (lq rq : Nat) (hq : lq = 46 ∨ rq = 46) (seg : GoString)
    (pre post : List GoString) :
    [] ∈ ([46].intercalate (pre ++ ([lq] ++ seg ++ [rq]) :: post)).splitOn 46 := by
  have htail : [] ∈ ([46].intercalate (([lq] ++ seg ++ [rq]) :: post)).splitOn 46 := by
    rw [intercalate_cons_tail]
    rcases hq with h | h
    · subst h
      exact empty_mem_splitOn_cons _
    · subst h
      have hform : [lq] ++ seg ++ [46] ++ (if post = [] then []
            else [46] ++ [46].intercalate post)
          = (lq :: seg) ++ 46 :: (if post = [] then [] else [46] ++ [46].intercalate post) := by
        simp
      rw [hform]
      apply empty_mem_splitOn_append
      by_cases hp : post = []
      · rw [if_pos hp]; exact empty_mem_splitOn_nil
      · rw [if_neg hp]; exact empty_mem_splitOn_cons _
  by_cases hp : pre = []
  · subst hp; exact htail
  · rw [intercalate_append_cons _ _ _ pre hp]
    have hform : [46].intercalate pre ++ [46] ++ [46].intercalate (([lq] ++ seg ++ [rq]) :: post)
        = [46].intercalate pre ++ 46 :: [46].intercalate (([lq] ++ seg ++ [rq]) :: post) := by
      simp
    rw [hform]
    exact empty_mem_splitOn_append _ _ htail

theorem identQuoteSpec_of_cond (lq rq : Nat) (s : GoString)
    (h : isNullToken s = true ∨ s = goBytes "?" ∨ Rx.matchString smartQuoteRgx s = false) :
    identQuoteSpec lq rq s = s := by
  simp only [identQuoteSpec, if_pos h]

theorem identQuoteSpec_idem (lq rq : Nat) (s : GoString) :
    identQuoteSpec lq rq (identQuoteSpec lq rq s) = identQuoteSpec lq rq s := by
  by_cases hcond : isNullToken s = true ∨ s = goBytes "?" ∨
      Rx.matchString smartQuoteRgx s = false
  · rw [identQuoteSpec_of_cond lq rq s hcond, identQuoteSpec_of_cond lq rq s hcond]
  · have hout : identQuoteSpec lq rq s
        = [46].intercalate ((s.splitOn 46).map (quoteSegmentSpec lq rq)) := by
      simp only [identQuoteSpec, if_neg hcond]
    have hne : s.splitOn 46 ≠ [] := List.splitOnP_ne_nil _ _
    by_cases hq : lq ≠ 46 ∧ rq ≠ 46
    · -- the quotes add no dot: the segments of the output are the rendered segments
      have hsplit : (identQuoteSpec lq rq s).splitOn 46
          = (s.splitOn 46).map (quoteSegmentSpec lq rq) := by
        rw [hout]
        apply List.splitOn_intercalate
        · intro l hl
          obtain ⟨seg, hseg, rfl⟩ := List.mem_map.1 hl
          exact quoteSegmentSpec_no_dot lq rq hq.1 hq.2 seg (splitOn_segments_no_sep 46 s seg hseg)
        · simpa using hne
      by_cases hcond2 : isNullToken (identQuoteSpec lq rq s) = true ∨
          identQuoteSpec lq rq s = goBytes "?" ∨
          Rx.matchString smartQuoteRgx (identQuoteSpec lq rq s) = false
      · exact identQuoteSpec_of_cond lq rq _ hcond2
      · have hstep : identQuoteSpec lq rq (identQuoteSpec lq rq s)
            = [46].intercalate (((identQuoteSpec lq rq s).splitOn 46).map
                (quoteSegmentSpec lq rq)) := by
          generalize identQuoteSpec lq rq s = o at hcond2 ⊢
          simp only [identQuoteSpec, if_neg hcond2]
        rw [hstep, hsplit, List.map_map, hout]
        congr 1
        apply List.map_congr_left
        intro seg _
        exact quoteSegmentSpec_idem lq rq seg
    · have hq2 : lq = 46 ∨ rq = 46 := by
        by_cases hl : lq = 46
        · exact Or.inl hl
        · right
          by_contra hr
          exact hq ⟨hl, hr⟩
      by_cases hall : ∀ seg ∈ s.splitOn 46, quoteSegmentSpec lq rq seg = seg
      · -- no segment is wrapped: the output is the input
        have hmap : (s.splitOn 46).map (quoteSegmentSpec lq rq) = s.splitOn 46 := by
          conv_rhs => rw [← List.map_id (s.splitOn 46)]
          apply List.map_congr_left
          intro seg hseg
          simpa using hall seg hseg
        have hsame : identQuoteSpec lq rq s = s := by
          rw [hout, hmap, List.intercalate_splitOn]
        rw [hsame, hsame]
      · -- a wrapped segment puts an empty segment into the output
        have hex : ∃ seg ∈ s.splitOn 46, quoteSegmentSpec lq rq seg ≠ seg := by
          by_contra hcon
          apply hall
          intro seg hseg
          by_contra hne2
          exact hcon ⟨seg, hseg, hne2⟩
        obtain ⟨seg, hseg, hwr⟩ := hex
        have hw : quoteSegmentSpec lq rq seg = [lq] ++ seg ++ [rq] := by
          rcases quoteSegmentSpec_cases lq rq seg with h | h
          · exact absurd h hwr
          · exact h
        obtain ⟨pre, post, hsegs⟩ := List.append_of_mem hseg
        have hempty : [] ∈ (identQuoteSpec lq rq s).splitOn 46 := by
          rw [hout, hsegs, List.map_append, List.map_cons, hw]
          exact empty_segment_of_wrapped lq rq hq2 seg _ _
        exact identQuoteSpec_of_cond lq rq _
          (Or.inr (Or.inr (not_match_of_empty_segment _ hempty)))

/-! ## The statement about repeated quoting -/

/-- C23: `IdentQuote` is idempotent for every pair of quote bytes and every token: it
returns a string, and quoting that string again returns it unchanged; this holds also for
a dot, a letter or two different bytes as quotes. -/
theorem IdentQuote_idempotent (lq rq : Nat) (s : GoString) :
    (∃ o : GoString, IdentQuote lq rq s = some o ∧ IdentQuote lq rq o = some o) ∧
      IdentQuote 46 46 (goBytes "a.b") = some (goBytes ".a...b.") ∧
      IdentQuote 46 46 (goBytes ".a...b.") = some (goBytes ".a...b.") ∧
      IdentQuote 110 108 (goBytes "uL") = some (goBytes "nuLl") ∧
      IdentQuote 110 108 (goBytes "nuLl") = some (goBytes "nuLl") ∧
      IdentQuote 91 93 (goBytes "t.c") = some (goBytes "[t].[c]") ∧
      IdentQuote 91 93 (goBytes "[t].[c]") = some (goBytes "[t].[c]") := by
  refine ⟨⟨identQuoteSpec lq rq s, IdentQuote_eq lq rq s, ?_⟩,
    by decide, by decide, by decide, by decide, by decide, by decide⟩
  rw [IdentQuote_eq, identQuoteSpec_idem]

end Sqlbunny
